import Mathlib

/-!
# Bounded priority queue of the `lkm_module.c` kernel modules

Shallow embedding of the two loadable kernel modules of the repository:

* `asgn-1/Assignment-1/lkm_module.c`: `push_value(pq, value, priority)` and `pop_value`.
* `asgn-2/lkm_module.c`: the two-step `push_value(pq, num)` driven by `input_state`,
  `pop_value`, and the dispatcher entry points `dev_write`, `dev_read`, `dev_open`,
  `dev_release` and `dev_ioctl`.

Conventions of the embedding.

* `int32_t` payload fields (`value`, `priority`, `in_time`, `timer`, `input_state`) are
  integers; `timer += 1` wraps with `wrap32`.
* `count`, `capacity` and array indexes are natural numbers: the code only ever
  increments `count` below `capacity` and decrements it when it is not zero, and the
  dispatcher only creates queues with `1 ≤ capacity ≤ 100`, so no `int32_t` operation on
  them can overflow or become negative.
* `pq->arr` is a list of `capacity` slots. A read outside the list yields `data_default`,
  a write outside the list changes nothing.
* `kmalloc` results are parameters: `none` is a failed allocation, `some mem` gives the
  (uninitialised) contents of the fresh block.
-/

namespace Lkm

/-! ## Shared definitions -/

/-- Two's complement wrap-around of a 32 bit signed integer. -/
def wrap32 (x : Int) : Int := (x + 2147483648) % 4294967296 - 2147483648

/-- The constant `INF` of both modules. -/
def INF : Int := 1000000000

/-- The errno constant `EACCES`. -/
def EACCES : Int := 13

/-- The errno constant `EINVAL`. -/
def EINVAL : Int := 22

/-- The errno constant `ENOBUFS`. -/
def ENOBUFS : Int := 105

/-- The struct `data` stored in the priority queue. -/
structure data where
  value : Int
  priority : Int
  in_time : Int
deriving DecidableEq

/-- Contents returned by a read outside the array. -/
def data_default : data := ⟨0, 0, 0⟩

/-- Read of `arr[i]`. -/
def rd (arr : List data) (i : Nat) : data := arr.getD i data_default

/-- The comparison used by both sift procedures, with `y` the entry at `index`
(respectively the child) and `x` the entry at `parent` (respectively `smallest`):
`x.priority > y.priority || (y.priority == x.priority && x.in_time > y.in_time)`.
It says that `y` comes before `x` in the order relation. -/
def precedes (y x : data) : Prop :=
  x.priority > y.priority ∨ (y.priority = x.priority ∧ x.in_time > y.in_time)

instance (y x : data) : Decidable (precedes y x) :=
  inferInstanceAs
    (Decidable (x.priority > y.priority ∨ (y.priority = x.priority ∧ x.in_time > y.in_time)))

/-- The three assignments `temp = arr[i]; arr[i] = arr[j]; arr[j] = temp`. -/
def swap_slots (arr : List data) (i j : Nat) : List data :=
  let temp := rd arr i
  let arr := arr.set i (rd arr j)
  arr.set j temp

/-- The `while` loop of `heapify_bottom_top`, with the number of iterations left. -/
def heapify_bottom_top_loop : Nat → List data → Nat → List data
  | 0, arr, _ => arr
  | fuel + 1, arr, index =>
    if index ≠ 0 then
      let parent := (index - 1) / 2
      if precedes (rd arr index) (rd arr parent) then
        heapify_bottom_top_loop fuel (swap_slots arr parent index) parent
      else
        arr
    else
      arr

/-- The procedure `heapify_bottom_top(pq, index)`: only `pq->arr` is touched. The loop
runs at most `index` times because `parent < index`; `heapify_bottom_top_eq` below shows
that the definition satisfies the equation of the loop. -/
def heapify_bottom_top (arr : List data) (index : Nat) : List data :=
  heapify_bottom_top_loop index arr index

/-- The choice of `smallest` in `heapify_top_bottom`. -/
def smallest_of (arr : List data) (count parent_index : Nat) : Nat :=
  let left_child := parent_index * 2 + 1
  let right_child := parent_index * 2 + 2
  let smallest := parent_index
  let smallest :=
    if left_child < count ∧ precedes (rd arr left_child) (rd arr smallest) then left_child
    else smallest
  let smallest :=
    if right_child < count ∧ precedes (rd arr right_child) (rd arr smallest) then right_child
    else smallest
  smallest

/-- The recursion of `heapify_top_bottom`, with the number of calls left. -/
def heapify_top_bottom_rec : Nat → List data → Nat → Nat → List data
  | 0, arr, _, _ => arr
  | fuel + 1, arr, count, parent_index =>
    let smallest := smallest_of arr count parent_index
    if smallest ≠ parent_index then
      heapify_top_bottom_rec fuel (swap_slots arr smallest parent_index) count smallest
    else
      arr

/-- The procedure `heapify_top_bottom(pq, parent_index)`: it reads `pq->count` and
touches only `pq->arr`. Each call moves to a child below `count`, so `count - parent_index`
calls suffice; `heapify_top_bottom_eq` below shows that the definition satisfies the
equation of the recursion. -/
def heapify_top_bottom (arr : List data) (count parent_index : Nat) : List data :=
  heapify_top_bottom_rec (count - parent_index) arr count parent_index

/-! ## Assignment 1 -/

namespace Asgn1

/-- The struct `priority_queue` of Assignment 1. -/
structure priority_queue where
  arr : List data
  capacity : Nat
  count : Nat
  timer : Int
deriving DecidableEq

/-- The function `init_priority_queue(capacity)`. -/
def init_priority_queue (capacity : Nat) (mem : Option (Nat → data)) : Option priority_queue :=
  match mem with
  | none => none
  | some m =>
    some { capacity := capacity, count := 0, timer := 0, arr := (List.range capacity).map m }

/-- The function `push_value(pq, value, priority)`: the returned integer and the queue. -/
def push_value (pq : priority_queue) (value priority : Int) : Int × priority_queue :=
  let d : data := ⟨value, priority, pq.timer⟩
  if pq.count ≥ pq.capacity then
    (-EACCES, pq)
  else
    let pq := { pq with timer := wrap32 (pq.timer + 1) }
    let pq := { pq with arr := pq.arr.set pq.count d }
    let pq := { pq with arr := heapify_bottom_top pq.arr pq.count }
    let pq := { pq with count := pq.count + 1 }
    (0, pq)

/-- The function `pop_value(pq)`: the returned integer and the queue. -/
def pop_value (pq : priority_queue) : Int × priority_queue :=
  let d := rd pq.arr 0
  if pq.count = 0 then
    (-INF, pq)
  else
    let pq := { pq with arr := pq.arr.set 0 (rd pq.arr (pq.count - 1)) }
    let pq := { pq with count := pq.count - 1 }
    let pq := { pq with arr := heapify_top_bottom pq.arr pq.count 0 }
    (d.value, pq)

end Asgn1

/-! ## Assignment 2 -/

namespace Asgn2

/-- The struct `priority_queue` of Assignment 2: `input_state` is `1` when the next number
is a value and `2` when it is a priority. -/
structure priority_queue where
  arr : List data
  capacity : Nat
  count : Nat
  timer : Int
  input_state : Int
deriving DecidableEq

/-- The function `init_priority_queue(capacity)`. -/
def init_priority_queue (capacity : Nat) (mem : Option (Nat → data)) : Option priority_queue :=
  match mem with
  | none => none
  | some m =>
    some { capacity := capacity, count := 0, timer := 0,
           arr := (List.range capacity).map m, input_state := 1 }

/-- The function `destroy_priority_queue(pq)`: the storage is released and the null pointer
returned. -/
def destroy_priority_queue (_pq : Option priority_queue) : Option priority_queue := none

/-- The function `push_value(pq, num)`: the returned integer and the queue. -/
def push_value (pq : priority_queue) (num : Int) : Int × priority_queue :=
  if pq.count ≥ pq.capacity then
    (-EACCES, pq)
  else if pq.input_state = 1 then
    let pq := { pq with arr := pq.arr.set pq.count { rd pq.arr pq.count with value := num } }
    let pq := { pq with arr := pq.arr.set pq.count { rd pq.arr pq.count with in_time := pq.timer } }
    let pq := { pq with input_state := 2 }
    (0, pq)
  else if num < 0 then
    (-EINVAL, pq)
  else
    let pq := { pq with arr := pq.arr.set pq.count { rd pq.arr pq.count with priority := num } }
    let pq := { pq with arr := heapify_bottom_top pq.arr pq.count }
    let pq := { pq with count := pq.count + 1 }
    let pq := { pq with timer := wrap32 (pq.timer + 1) }
    let pq := { pq with input_state := 1 }
    (0, pq)

/-- The function `pop_value(pq)`: the returned integer and the queue. -/
def pop_value (pq : priority_queue) : Int × priority_queue :=
  let d := rd pq.arr 0
  if pq.count = 0 then
    (-INF, pq)
  else
    let pq := { pq with arr := pq.arr.set 0 (rd pq.arr (pq.count - 1)) }
    let pq := { pq with count := pq.count - 1 }
    let pq := { pq with arr := heapify_top_bottom pq.arr pq.count 0 }
    (d.value, pq)

end Asgn2


/-! ## Heap order -/

/-- Heap order of the first `count` slots: no entry below the root comes before its
parent in the order relation. -/
def heap_ordered (arr : List data) (count : Nat) : Prop :=
  ∀ i, i < count → 0 < i → ¬ precedes (rd arr i) (rd arr ((i - 1) / 2))

instance (arr : List data) (count : Nat) : Decidable (heap_ordered arr count) :=
  inferInstanceAs (Decidable (∀ i, i < count → 0 < i → ¬ precedes (rd arr i) (rd arr ((i - 1) / 2))))

/-- Invariant of the sift-up loop at position `k`: heap order holds everywhere except
possibly between `k` and its parent, and the children of `k` respect the parent of `k`. -/
def up_inv (arr : List data) (n k : Nat) : Prop :=
  (∀ i, i < n → 0 < i → i ≠ k → ¬ precedes (rd arr i) (rd arr ((i - 1) / 2))) ∧
  (∀ c, c < n → 0 < c → (c - 1) / 2 = k → 0 < k →
    ¬ precedes (rd arr c) (rd arr ((k - 1) / 2)))

/-- Invariant of the sift-down recursion at position `k`: heap order holds everywhere
except possibly between `k` and its children, and the children of `k` respect the parent
of `k`. -/
def down_inv (arr : List data) (n k : Nat) : Prop :=
  (∀ i, i < n → 0 < i → (i - 1) / 2 ≠ k → ¬ precedes (rd arr i) (rd arr ((i - 1) / 2))) ∧
  (∀ c, c < n → 0 < c → (c - 1) / 2 = k → 0 < k →
    ¬ precedes (rd arr c) (rd arr ((k - 1) / 2)))

/-- The order of extraction: `a` does not come after `b`. -/
def spec_order (a b : data) : Prop := ¬ precedes b a

instance : DecidableRel spec_order := fun a b =>
  inferInstanceAs (Decidable (¬ precedes b a))

instance : IsTotal data spec_order := ⟨fun a b => by
  unfold spec_order precedes; omega⟩

instance : IsTrans data spec_order := ⟨fun a b c h1 h2 => by
  unfold spec_order precedes at *; omega⟩

instance : IsAntisymm data precedes := ⟨fun a b h1 h2 => by
  unfold precedes at *; omega⟩

/-- The entries of a list in ascending order of `(priority, in_time)`. -/
def ascending (l : List data) : List data := l.insertionSort spec_order

namespace Asgn1

/-- A call made on a queue of Assignment 1. -/
inductive call where
  | push (value priority : Int)
  | pop
deriving DecidableEq

/-- Whether a call is an insertion. -/
def call.is_push : call → Bool
  | .push _ _ => true
  | .pop => false

/-- One call: its result and the queue after it. -/
def step (pq : priority_queue) : call → Int × priority_queue
  | .push v p => push_value pq v p
  | .pop => pop_value pq

/-- The queue after a sequence of calls. -/
def run (pq : priority_queue) (cs : List call) : priority_queue :=
  cs.foldl (fun q c => (step q c).2) pq

/-- The loop `while (pq->count != 0) pop_value(pq)` of a client that empties the queue:
the values returned and the final queue. -/
def drain_loop : Nat → priority_queue → List Int × priority_queue
  | 0, pq => ([], pq)
  | fuel + 1, pq =>
    if pq.count = 0 then
      ([], pq)
    else
      let r := pop_value pq
      let rest := drain_loop fuel r.2
      (r.1 :: rest.1, rest.2)

/-- Popping repeatedly until `count == 0`; every pop lowers `count` by one, so `count`
iterations suffice. -/
def drain (pq : priority_queue) : List Int × priority_queue := drain_loop pq.count pq

/-- Specification state: the entries admitted and not yet popped, in order of admission,
and the number of entries admitted so far. -/
structure spec_queue where
  live : List data
  admitted : Nat
deriving DecidableEq

/-- Specification of one call on a queue of capacity `c`: an insertion is admitted when
fewer than `c` entries are live and receives the next insertion number as `in_time`; an
extraction removes the first live entry in ascending order of `(priority, in_time)`. -/
def spec_step (c : Nat) (s : spec_queue) : call → spec_queue
  | .push v p =>
    if s.live.length < c then
      { live := s.live ++ [⟨v, p, (s.admitted : Int)⟩], admitted := s.admitted + 1 }
    else s
  | .pop =>
    match (ascending s.live).head? with
    | none => s
    | some e => { s with live := s.live.erase e }

/-- Specification of a sequence of calls. -/
def spec_run (c : Nat) (s : spec_queue) (cs : List call) : spec_queue :=
  cs.foldl (spec_step c) s

/-- Relation between a queue and its specification state. -/
def refines (c : Nat) (pq : priority_queue) (s : spec_queue) : Prop :=
  pq.capacity = c ∧ pq.arr.length = c ∧ pq.count ≤ c ∧ heap_ordered pq.arr pq.count ∧
  (pq.arr.take pq.count).Perm s.live ∧ pq.timer = (s.admitted : Int) ∧
  (∀ e ∈ s.live, e.in_time < (s.admitted : Int)) ∧
  s.live.Pairwise (fun a b => a.in_time < b.in_time)

/-- The pairs written by `tests/dummy.cpp`. -/
def dummy_input : List call :=
  [.push 1 2, .push 2 1, .push (-2) 3, .push (-4) 5, .push 90 10, .push 34 32, .push 34 1,
   .push 9 34, .push 456 79, .push (-543) 23, .push (-4521) 7]

/-- The queue made by `init_priority_queue(100)` on a block of zeroed memory. -/
def dummy_queue : priority_queue :=
  { arr := (List.range 100).map (fun _ => data_default), capacity := 100, count := 0, timer := 0 }

end Asgn1

namespace Asgn2

/-- The queue of Assignment 1 with the same array, capacity, count and timer. -/
def to_asgn1 (pq : priority_queue) : Asgn1.priority_queue :=
  { arr := pq.arr, capacity := pq.capacity, count := pq.count, timer := pq.timer }

/-- The pending value of a queue: the `value` field written in slot `arr[count]` by the
value half, when `input_state` says that a priority is awaited. -/
def pending (pq : priority_queue) : Option Int :=
  if pq.input_state = 1 then none else some (rd pq.arr pq.count).value

/-- The heap entries `arr[0..count)`. -/
def entries (pq : priority_queue) : List data := pq.arr.take pq.count

/-- For each value of the list, the value half `push_value(v)` followed by the priority
half `push_value(p)`: the integers returned by all the calls, and the final queue. -/
def insert_all (pq : priority_queue) : List Int → Int → List Int × priority_queue
  | [], _ => ([], pq)
  | v :: vs, p =>
    let r1 := push_value pq v
    let r2 := push_value r1.2 p
    let rest := insert_all r2.2 vs p
    (r1.1 :: r2.1 :: rest.1, rest.2)

/-- Calling `pop_value` a number of times: the integers returned and the final queue. -/
def pop_times : Nat → priority_queue → List Int × priority_queue
  | 0, pq => ([], pq)
  | n + 1, pq =>
    let r := pop_value pq
    let rest := pop_times n r.2
    (r.1 :: rest.1, rest.2)

/-! ### Dispatcher of Assignment 2 -/

/-- The struct `obj_info` returned by `PB2_GET_INFO`. -/
structure obj_info where
  prio_que_size : Int
  capacity : Int
deriving DecidableEq

/-- An entry of the chain that hangs off the head sentinel `htable`: the `next` pointer is
the tail of the list. -/
structure hashtable where
  key : Int
  pq : Option priority_queue
deriving DecidableEq

/-- The globals of the module: the chain `htable->next` and `num_open_processes`. -/
structure module_state where
  htable : List hashtable
  num_open_processes : Int
deriving DecidableEq

/-- The function `get_hashtable_entry(key)`: the first entry of the chain with that key. -/
def get_hashtable_entry (htable : List hashtable) (key : Int) : Option hashtable :=
  htable.find? (fun e => decide (e.key = key))

/-- The assignment `proc_entry->pq = pq` through the pointer returned by
`get_hashtable_entry(key)`. -/
def set_entry_pq (htable : List hashtable) (key : Int) (pq : Option priority_queue) :
    List hashtable :=
  match htable with
  | [] => []
  | e :: t => if e.key = key then { e with pq := pq } :: t else e :: set_entry_pq t key pq

/-- The function `add_process_entry(entry)`: insertion right after the head sentinel. -/
def add_process_entry (htable : List hashtable) (entry : hashtable) : List hashtable :=
  entry :: htable

/-- The function `remove_process_entry(key)`: the first entry with that key is unlinked and
its queue destroyed. -/
def remove_process_entry (htable : List hashtable) (key : Int) : List hashtable :=
  match htable with
  | [] => []
  | e :: t => if e.key = key then t else e :: remove_process_entry t key

/-- A byte of a user buffer read as a (signed) `char`. -/
def schar (b : Nat) : Int := if b % 256 < 128 then (b % 256 : Nat) else ((b % 256 : Nat) : Int) - 256

/-- The `int32_t` that `memcpy(&num, arr, sizeof(num))` reads from four bytes in the byte
order of the machine (little endian). -/
def int32_of_bytes (bytes : List Nat) : Int :=
  wrap32 ((bytes.getD 0 0 % 256 + 256 * (bytes.getD 1 0 % 256) + 65536 * (bytes.getD 2 0 % 256)
    + 16777216 * (bytes.getD 3 0 % 256) : Nat) : Int)

/-- The function `dev_write`. `inbuffer` is `none` for a null pointer and otherwise the
`inbuffer_size` bytes of the user buffer; `copy_fails` says that `copy_from_user` fails;
`mem` is the result of the allocation made by `init_priority_queue`. -/
def dev_write (st : module_state) (pid : Int) (inbuffer : Option (List Nat))
    (copy_fails : Bool) (mem : Option (Nat → data)) : Int × module_state :=
  match inbuffer with
  | none => (-EINVAL, st)
  | some bytes =>
    let inbuffer_size := bytes.length
    if inbuffer_size = 0 then (-EINVAL, st)
    else if copy_fails then (-ENOBUFS, st)
    else
      match get_hashtable_entry st.htable pid with
      | none => (-EACCES, st)
      | some proc_entry =>
        let buffer_size := if inbuffer_size < 256 then inbuffer_size else 256
        match proc_entry.pq with
        | some pq =>
          if inbuffer_size ≠ 4 then (-EINVAL, st)
          else
            let num := int32_of_bytes bytes
            let r := push_value pq num
            let st := { st with htable := set_entry_pq st.htable pid (some r.2) }
            if r.1 < 0 then (-EACCES, st) else (4, st)
        | none =>
          if buffer_size ≠ 1 then (-EACCES, st)
          else
            let pq_size := schar (bytes.getD 0 0)
            if pq_size ≤ 0 ∨ pq_size > 100 then (-EINVAL, st)
            else
              let st := { st with
                htable := set_entry_pq st.htable pid (destroy_priority_queue proc_entry.pq) }
              let pq := init_priority_queue pq_size.toNat mem
              let st := { st with htable := set_entry_pq st.htable pid pq }
              ((buffer_size : Int), st)

/-- The function `dev_read`. `inbuffer_null` says that the user pointer is null and
`copy_fails` that `copy_to_user` fails. The result is the returned integer, the `int32_t`
stored in the user buffer if any, and the state. -/
def dev_read (st : module_state) (pid : Int) (inbuffer_null : Bool) (inbuffer_size : Nat)
    (copy_fails : Bool) : Int × Option Int × module_state :=
  if inbuffer_null ∨ inbuffer_size = 0 then (-EINVAL, none, st)
  else
    match get_hashtable_entry st.htable pid with
    | none => (-EACCES, none, st)
    | some proc_entry =>
      match proc_entry.pq with
      | none => (-EACCES, none, st)
      | some pq =>
        if 4 ≠ inbuffer_size then (-EACCES, none, st)
        else
          let r := pop_value pq
          let pq_top_elem := r.1
          let st := { st with htable := set_entry_pq st.htable pid (some r.2) }
          let out := if copy_fails then none else some pq_top_elem
          if ¬ copy_fails ∧ pq_top_elem ≠ -INF then (4, out, st)
          else (-EACCES, out, st)

/-- The function `dev_open`; the allocation of the entry is taken to succeed. -/
def dev_open (st : module_state) (pid : Int) : Int × module_state :=
  match get_hashtable_entry st.htable pid with
  | some _ => (-EACCES, st)
  | none =>
    let proc_entry : hashtable := { key := pid, pq := none }
    (0, { htable := add_process_entry st.htable proc_entry,
          num_open_processes := wrap32 (st.num_open_processes + 1) })

/-- The function `dev_release`. -/
def dev_release (st : module_state) (pid : Int) : Int × module_state :=
  (0, { htable := remove_process_entry st.htable pid,
        num_open_processes := wrap32 (st.num_open_processes - 1) })

/-- The command code `_IOW(0x10, 0x31, int32_t*)`. -/
def PB2_SET_CAPACITY : Nat := 0x40081031

/-- The command code `_IOW(0x10, 0x32, int32_t*)`. -/
def PB2_INSERT_INT : Nat := 0x40081032

/-- The command code `_IOW(0x10, 0x33, int32_t*)`. -/
def PB2_INSERT_PRIO : Nat := 0x40081033

/-- The command code `_IOR(0x10, 0x34, int32_t*)`. -/
def PB2_GET_INFO : Nat := 0x80081034

/-- The command code `_IOR(0x10, 0x35, int32_t*)`. -/
def PB2_GET_MIN : Nat := 0x80081035

/-- The command code `_IOR(0x10, 0x36, int32_t*)`. -/
def PB2_GET_MAX : Nat := 0x80081036

/-- What `dev_ioctl` stores through the user pointer `arg`. -/
inductive user_out where
  | nothing
  | int32 (v : Int)
  | info (i : obj_info)
deriving DecidableEq

/-- The function `dev_ioctl`. `arg` is the `int32_t` that `copy_from_user` reads through the
user pointer, or `none` when that copy fails; `copy_to_user_fails` says that `copy_to_user`
fails; `value0` is the content of the local variable `value`, which is not initialised, at
entry; `mem` is the result of the allocation made by `init_priority_queue`. -/
def dev_ioctl (st : module_state) (pid : Int) (command : Nat) (arg : Option Int)
    (copy_to_user_fails : Bool) (value0 : Int) (mem : Option (Nat → data)) :
    Int × user_out × module_state :=
  if command = PB2_SET_CAPACITY then
    match get_hashtable_entry st.htable pid with
    | none => (-EACCES, .nothing, st)
    | some proc_entry =>
      match arg with
      | none => (-EINVAL, .nothing, st)
      | some pq_size =>
        if pq_size ≤ 0 ∨ pq_size > 100 then (-EINVAL, .nothing, st)
        else
          let st := { st with
            htable := set_entry_pq st.htable pid (destroy_priority_queue proc_entry.pq) }
          let pq := init_priority_queue pq_size.toNat mem
          (0, .nothing, { st with htable := set_entry_pq st.htable pid pq })
  else if command = PB2_INSERT_INT then
    match get_hashtable_entry st.htable pid with
    | none => (-EACCES, .nothing, st)
    | some proc_entry =>
      match proc_entry.pq with
      | none => (-EACCES, .nothing, st)
      | some pq =>
        match arg with
        | none => (-EINVAL, .nothing, st)
        | some value =>
          let r := push_value pq value
          let st := { st with htable := set_entry_pq st.htable pid (some r.2) }
          if r.1 < 0 then (r.1, .nothing, st) else (0, .nothing, st)
  else if command = PB2_INSERT_PRIO then
    match get_hashtable_entry st.htable pid with
    | none => (-EACCES, .nothing, st)
    | some proc_entry =>
      match proc_entry.pq with
      | none => (-EACCES, .nothing, st)
      | some pq =>
        match arg with
        | none => (-EINVAL, .nothing, st)
        | some _priority =>
          let r := push_value pq value0
          let st := { st with htable := set_entry_pq st.htable pid (some r.2) }
          if r.1 < 0 then (r.1, .nothing, st) else (0, .nothing, st)
  else if command = PB2_GET_INFO then
    match get_hashtable_entry st.htable pid with
    | none => (-EACCES, .nothing, st)
    | some proc_entry =>
      match proc_entry.pq with
      | none => (-EACCES, .nothing, st)
      | some pq =>
        let pq_info : obj_info := { prio_que_size := pq.count, capacity := pq.capacity }
        if copy_to_user_fails then (-EACCES, .nothing, st)
        else (0, .info pq_info, st)
  else if command = PB2_GET_MIN then
    match get_hashtable_entry st.htable pid with
    | none => (-EACCES, .nothing, st)
    | some proc_entry =>
      match proc_entry.pq with
      | none => (-EACCES, .nothing, st)
      | some pq =>
        if pq.count = 0 then (-EACCES, .nothing, st)
        else
          let r := pop_value pq
          let st := { st with htable := set_entry_pq st.htable pid (some r.2) }
          if copy_to_user_fails then (-EACCES, .nothing, st)
          else (0, .int32 r.1, st)
  else if command = PB2_GET_MAX then
    (0, .nothing, st)
  else
    (-EINVAL, .nothing, st)

end Asgn2

namespace Asgn2

/-- The queue made by `init_priority_queue(3)` on a block of zeroed memory. -/
def fresh3 : priority_queue :=
  { arr := (List.range 3).map (fun _ => data_default), capacity := 3, count := 0, timer := 0,
    input_state := 1 }

/-- The queue after the calls `push_value(10)`, `push_value(5)`, `push_value(11)`,
`push_value(5)`, `push_value(12)`, `pop_value()`, `push_value(5)` on `fresh3`. -/
def stale_queue : priority_queue :=
  let q := (push_value fresh3 10).2
  let q := (push_value q 5).2
  let q := (push_value q 11).2
  let q := (push_value q 5).2
  let q := (push_value q 12).2
  let q := (pop_value q).2
  (push_value q 5).2

/-- The entries admitted by the complete insertions of the values `vs`, all with priority
`p`, when the timer starts at `n`. -/
def tagged (n : Nat) (vs : List Int) (p : Int) : List data :=
  match vs with
  | [] => []
  | v :: t => ⟨v, p, (n : Int)⟩ :: tagged (n + 1) t p

end Asgn2

namespace Asgn1

/-- A sequence of `push_value` calls with no extraction: the integers returned and the final
queue. -/
def push_all (pq : priority_queue) : List (Int × Int) → List Int × priority_queue
  | [] => ([], pq)
  | (v, p) :: t =>
    let r := push_value pq v p
    let rest := push_all r.2 t
    (r.1 :: rest.1, rest.2)

/-- The queue made by `init_priority_queue(2)` on a block of zeroed memory. -/
def fresh2 : priority_queue :=
  { arr := (List.range 2).map (fun _ => data_default), capacity := 2, count := 0, timer := 0 }

end Asgn1

namespace Asgn2

/-- The full queue reached from `fresh3` by the complete insertions `(10,5) (11,5) (12,5)`. -/
def full3 : priority_queue := (insert_all fresh3 [10, 11, 12] 5).2

/-- The queue reached from `fresh3` by the value half `push_value(10)`. -/
def half3 : priority_queue := (push_value fresh3 10).2

end Asgn2

namespace Asgn2

/-- The module state with the single client `1`, whose queue is `pq`. -/
def client_state (pq : priority_queue) : module_state :=
  { htable := [{ key := 1, pq := some pq }], num_open_processes := 1 }

/-- The module state with the single client `1`, whose queue is absent. -/
def attached_state : module_state :=
  { htable := [{ key := 1, pq := none }], num_open_processes := 1 }

/-- The queue of client `pid`, when the client is attached and its queue is present. -/
def queue_of (st : module_state) (pid : Int) : Option priority_queue :=
  match get_hashtable_entry st.htable pid with
  | none => none
  | some e => e.pq

/-- The queue reached from `fresh3` by the value half `push_value(1)`. -/
def half3_one : priority_queue := (push_value fresh3 1).2

end Asgn2

namespace Asgn2

/-- The queue reached from `fresh3` by the complete insertion of the value `-1000000000`
(the number `-INF`) with priority `5`. -/
def inf_queue : priority_queue := (insert_all fresh3 [-1000000000] 5).2

/-- The number `prio_que_size` and `capacity` that `PB2_GET_INFO` reports for a queue. -/
def info_of (pq : priority_queue) : obj_info :=
  { prio_que_size := pq.count, capacity := pq.capacity }

/-- The module state with no client. -/
def empty_state : module_state := { htable := [], num_open_processes := 0 }

end Asgn2

namespace Asgn2

/-- What a call on the device gives back to the client: the returned integer and what is
stored in user memory. -/
structure reply where
  ret : Int
  out : user_out
deriving DecidableEq

/-- A call of a client on the device, with what the environment supplies to it: the
arguments of `dev_write`, `dev_read` and `dev_ioctl`. -/
inductive request where
  | connect
  | disconnect
  | write (inbuffer : Option (List Nat)) (copy_fails : Bool) (mem : Option (Nat → data))
  | read (inbuffer_null : Bool) (inbuffer_size : Nat) (copy_fails : Bool)
  | command (command : Nat) (arg : Option Int) (copy_to_user_fails : Bool) (value0 : Int)
      (mem : Option (Nat → data))

/-- Whether a request is a disconnect. -/
def request.is_disconnect : request → Bool
  | .disconnect => true
  | _ => false

/-- The dispatcher: the entry point that serves a request of client `pid`. -/
def serve (st : module_state) (pid : Int) : request → reply × module_state
  | .connect =>
    let r := dev_open st pid
    (⟨r.1, .nothing⟩, r.2)
  | .disconnect =>
    let r := dev_release st pid
    (⟨r.1, .nothing⟩, r.2)
  | .write inbuffer copy_fails mem =>
    let r := dev_write st pid inbuffer copy_fails mem
    (⟨r.1, .nothing⟩, r.2)
  | .read inbuffer_null inbuffer_size copy_fails =>
    let r := dev_read st pid inbuffer_null inbuffer_size copy_fails
    (⟨r.1, match r.2.1 with | none => .nothing | some v => .int32 v⟩, r.2.2)
  | .command command arg copy_to_user_fails value0 mem =>
    let r := dev_ioctl st pid command arg copy_to_user_fails value0 mem
    (⟨r.1, r.2.1⟩, r.2.2)

/-- A sequence of requests, each with the client that issues it, served one after the
other: the replies, each with its client, and the final state. -/
def serve_all (st : module_state) : List (Int × request) → List (Int × reply) × module_state
  | [] => ([], st)
  | (pid, rq) :: t =>
    let r := serve st pid rq
    let rest := serve_all r.2 t
    ((pid, r.1) :: rest.1, rest.2)

/-- The entries of the chain that carry the key `pid`, in chain order. -/
def sessions (st : module_state) (pid : Int) : List hashtable :=
  st.htable.filter (fun e => decide (e.key = pid))

/-- The replies received by client `pid`. -/
def replies_of (pid : Int) (l : List (Int × reply)) : List reply :=
  (l.filter (fun x => decide (x.1 = pid))).map Prod.snd

/-- The requests issued by client `pid`. -/
def requests_of (pid : Int) (tr : List (Int × request)) : List (Int × request) :=
  tr.filter (fun x => decide (x.1 = pid))

/-- The module state in which `pid` is the only client and its queue is absent. -/
def only_client (pid : Int) : module_state :=
  { htable := [{ key := pid, pq := none }], num_open_processes := 1 }

/-- The state after client `pid` connects in `st0`, the requests `tr` are served, the
client disconnects and connects again. -/
def second_session (st0 : module_state) (pid : Int) (tr : List (Int × request)) :
    module_state :=
  (dev_open (dev_release (serve_all (dev_open st0 pid).2 tr).2 pid).2 pid).2

end Asgn2

namespace Asgn2

/-- The requests of scenario S6 of the specification, issued through the byte stream: the
clients `1` and `2` connect, each sets capacity 2, `1` inserts `(1, 1)`, `2` inserts
`(2, 1)`, then `1` reads and `2` reads. -/
def two_clients : List (Int × request) :=
  [(1, .connect), (2, .connect),
   (1, .write (some [2]) false (some (fun _ => data_default))),
   (2, .write (some [2]) false (some (fun _ => data_default))),
   (1, .write (some [1, 0, 0, 0]) false none), (1, .write (some [1, 0, 0, 0]) false none),
   (2, .write (some [2, 0, 0, 0]) false none), (2, .write (some [1, 0, 0, 0]) false none),
   (1, .read false 4 false), (2, .read false 4 false)]

/-- The requests of a first session of client `1`: capacity 3, then the pair `(7, 1)`. -/
def first_session : List (Int × request) :=
  [(1, .write (some [3]) false (some (fun _ => data_default))),
   (1, .write (some [7, 0, 0, 0]) false none), (1, .write (some [1, 0, 0, 0]) false none)]

end Asgn2

/-- Heap order stated on the children: for every position `i < count` and each child
position `c` in `{2i+1, 2i+2}` with `c < count`, the entry at `i` does not come after the
entry at `c`. -/
def heap_children_ordered (arr : List data) (count : Nat) : Prop :=
  ∀ i c, i < count → (c = 2 * i + 1 ∨ c = 2 * i + 2) → c < count →
    ¬ precedes (rd arr c) (rd arr i)

/-- The `while` loop of `heapify_bottom_top` run with a bound on the number of times the
body is entered: `none` when the bound is reached before the loop is left. -/
def heapify_bottom_top_run : Nat → List data → Nat → Option (List data)
  | 0, arr, index => if index ≠ 0 then none else some arr
  | fuel + 1, arr, index =>
    if index ≠ 0 then
      let parent := (index - 1) / 2
      if precedes (rd arr index) (rd arr parent) then
        heapify_bottom_top_run fuel (swap_slots arr parent index) parent
      else
        some arr
    else
      some arr

/-- The recursion of `heapify_top_bottom` run with a bound on the number of calls: `none`
when the bound is reached before a call returns without calling itself. -/
def heapify_top_bottom_run : Nat → List data → Nat → Nat → Option (List data)
  | 0, _, _, _ => none
  | fuel + 1, arr, count, parent_index =>
    let smallest := smallest_of arr count parent_index
    if smallest ≠ parent_index then
      heapify_top_bottom_run fuel (swap_slots arr smallest parent_index) count smallest
    else
      some arr

namespace Asgn2

/-- A call on a queue: `push_value(pq, num)` or `pop_value(pq)`. -/
inductive qcall where
  | push (num : Int)
  | pop
deriving DecidableEq

/-- The queue after one call. -/
def qstep (pq : priority_queue) : qcall → priority_queue
  | .push num => (push_value pq num).2
  | .pop => (pop_value pq).2

/-- The queue after a sequence of calls. -/
def qrun (pq : priority_queue) (cs : List qcall) : priority_queue :=
  cs.foldl qstep pq

/-- The calls that lead from `fresh3` to `stale_queue`: two complete insertions, a value
half, an extraction and a priority half. -/
def stale_calls : List qcall :=
  [.push 10, .push 5, .push 11, .push 5, .push 12, .pop, .push 5]

/-- The state reached from the empty module state when client `1` connects and issues the
requests of `first_session`: its queue holds the single entry `(7, 1)`. -/
def one_entry_state : module_state :=
  (serve_all empty_state ((1, request.connect) :: first_session)).2

/-- The requests by which client `1` connects, sets capacity 3, inserts the pair `(10, 5)`
and submits the value half `11`. -/
def mid_insertion : List (Int × request) :=
  [(1, .connect), (1, .write (some [3]) false (some (fun _ => data_default))),
   (1, .write (some [10, 0, 0, 0]) false none), (1, .write (some [5, 0, 0, 0]) false none),
   (1, .write (some [11, 0, 0, 0]) false none)]

/-- The state reached from the empty module state by the requests `mid_insertion`. -/
def mid_insertion_state : module_state := (serve_all empty_state mid_insertion).2

end Asgn2

namespace Asgn2

/-- Whether a request is a connect. -/
def request.is_connect : request → Bool
  | .connect => true
  | _ => false

/-- The keys carried by the entries of the chain, in chain order. -/
def keys (st : module_state) : List Int := st.htable.map (fun e => e.key)

/-- In the sequence of calls `tr`, client `k` has connected and has not disconnected since:
some call of the sequence is a connect of `k` and no later call is a disconnect of `k`. -/
def connected (k : Int) (tr : List (Int × request)) : Prop :=
  ∃ l1 l2, tr = l1 ++ (k, request.connect) :: l2 ∧
    ∀ x ∈ l2, x.1 = k → x.2.is_disconnect = false

end Asgn2

namespace Asgn2

/-- The bounds `1 ≤ capacity ≤ 100` and `count ≤ capacity` on a queue. -/
def bounded (pq : priority_queue) : Prop :=
  1 ≤ pq.capacity ∧ pq.capacity ≤ 100 ∧ pq.count ≤ pq.capacity

instance (pq : priority_queue) : Decidable (bounded pq) :=
  inferInstanceAs (Decidable (1 ≤ pq.capacity ∧ pq.capacity ≤ 100 ∧ pq.count ≤ pq.capacity))

/-- Every queue that is present in the session table satisfies `Q`. -/
def all_queues (Q : priority_queue → Prop) (st : module_state) : Prop :=
  ∀ e ∈ st.htable, ∀ pq, e.pq = some pq → Q pq

end Asgn2

/-! ### The queue with every array access checked against the allocation -/

/-- Read of `arr[i]` in an array of `cap` slots: `none` when `i` is outside `[0, cap)`. -/
def rd_checked (cap : Nat) (arr : List data) (i : Nat) : Option data :=
  if i < cap then some (rd arr i) else none

/-- Write of `arr[i]` in an array of `cap` slots: `none` when `i` is outside `[0, cap)`. -/
def wr_checked (cap : Nat) (arr : List data) (i : Nat) (d : data) : Option (List data) :=
  if i < cap then some (arr.set i d) else none

/-- The three assignments of `swap_slots`, each access checked. -/
def swap_slots_checked (cap : Nat) (arr : List data) (i j : Nat) : Option (List data) := do
  let temp ← rd_checked cap arr i
  let x ← rd_checked cap arr j
  let arr ← wr_checked cap arr i x
  wr_checked cap arr j temp

/-- The loop of `heapify_bottom_top`, each access checked. -/
def heapify_bottom_top_loop_checked (cap : Nat) : Nat → List data → Nat → Option (List data)
  | 0, arr, _ => some arr
  | fuel + 1, arr, index =>
    if index ≠ 0 then
      let parent := (index - 1) / 2
      do
        let x ← rd_checked cap arr parent
        let y ← rd_checked cap arr index
        if precedes y x then do
          let arr ← swap_slots_checked cap arr parent index
          heapify_bottom_top_loop_checked cap fuel arr parent
        else
          some arr
    else
      some arr

/-- The procedure `heapify_bottom_top(pq, index)`, each access checked. -/
def heapify_bottom_top_checked (cap : Nat) (arr : List data) (index : Nat) :
    Option (List data) :=
  heapify_bottom_top_loop_checked cap index arr index

/-- The choice of `smallest` in `heapify_top_bottom`, each access checked. -/
def smallest_of_checked (cap : Nat) (arr : List data) (count parent_index : Nat) :
    Option Nat := do
  let left_child := parent_index * 2 + 1
  let right_child := parent_index * 2 + 2
  let smallest := parent_index
  let smallest ←
    if left_child < count then do
      let x ← rd_checked cap arr smallest
      let y ← rd_checked cap arr left_child
      some (if precedes y x then left_child else smallest)
    else some smallest
  let smallest ←
    if right_child < count then do
      let x ← rd_checked cap arr smallest
      let y ← rd_checked cap arr right_child
      some (if precedes y x then right_child else smallest)
    else some smallest
  some smallest

/-- The recursion of `heapify_top_bottom`, each access checked. -/
def heapify_top_bottom_rec_checked (cap : Nat) :
    Nat → List data → Nat → Nat → Option (List data)
  | 0, arr, _, _ => some arr
  | fuel + 1, arr, count, parent_index => do
    let smallest ← smallest_of_checked cap arr count parent_index
    if smallest ≠ parent_index then do
      let arr ← swap_slots_checked cap arr smallest parent_index
      heapify_top_bottom_rec_checked cap fuel arr count smallest
    else
      some arr

/-- The procedure `heapify_top_bottom(pq, parent_index)`, each access checked. -/
def heapify_top_bottom_checked (cap : Nat) (arr : List data) (count parent_index : Nat) :
    Option (List data) :=
  heapify_top_bottom_rec_checked cap (count - parent_index) arr count parent_index

namespace Asgn2

/-- The function `push_value(pq, num)`, each access to `arr` checked against `capacity`. -/
def push_value_checked (pq : priority_queue) (num : Int) : Option (Int × priority_queue) :=
  if pq.count ≥ pq.capacity then
    some (-EACCES, pq)
  else if pq.input_state = 1 then do
    let d ← rd_checked pq.capacity pq.arr pq.count
    let arr ← wr_checked pq.capacity pq.arr pq.count { d with value := num }
    let d ← rd_checked pq.capacity arr pq.count
    let arr ← wr_checked pq.capacity arr pq.count { d with in_time := pq.timer }
    some (0, { pq with arr := arr, input_state := 2 })
  else if num < 0 then
    some (-EINVAL, pq)
  else do
    let d ← rd_checked pq.capacity pq.arr pq.count
    let arr ← wr_checked pq.capacity pq.arr pq.count { d with priority := num }
    let arr ← heapify_bottom_top_checked pq.capacity arr pq.count
    some (0, { arr := arr, capacity := pq.capacity, count := pq.count + 1,
               timer := wrap32 (pq.timer + 1), input_state := 1 })

/-- The function `pop_value(pq)`, each access to `arr` checked against `capacity`. -/
def pop_value_checked (pq : priority_queue) : Option (Int × priority_queue) := do
  let d ← rd_checked pq.capacity pq.arr 0
  if pq.count = 0 then
    some (-INF, pq)
  else do
    let last ← rd_checked pq.capacity pq.arr (pq.count - 1)
    let arr ← wr_checked pq.capacity pq.arr 0 last
    let arr ← heapify_top_bottom_checked pq.capacity arr (pq.count - 1) 0
    some (d.value, { pq with arr := arr, count := pq.count - 1 })

/-- The array has `capacity` slots, there is at least one slot, `count` is at most
`capacity`, and a queue that awaits a priority is not full. -/
def in_bounds (pq : priority_queue) : Prop :=
  pq.arr.length = pq.capacity ∧ 1 ≤ pq.capacity ∧ pq.count ≤ pq.capacity ∧
    (pq.input_state = 2 → pq.count < pq.capacity)

end Asgn2

namespace Asgn1

/-! ### Dispatcher of Assignment 1 -/

/-- An entry of the chain that hangs off the head sentinel `htable`: the `next` pointer is
the tail of the list. -/
structure hashtable where
  key : Int
  pq : Option priority_queue
deriving DecidableEq

/-- The globals of the module: the chain `htable->next` and `num_open_processes`. -/
structure module_state where
  htable : List hashtable
  num_open_processes : Int
deriving DecidableEq

/-- The function `get_hashtable_entry(key)`: the first entry of the chain with that key. -/
def get_hashtable_entry (htable : List hashtable) (key : Int) : Option hashtable :=
  htable.find? (fun e => decide (e.key = key))

/-- The effect on the chain of a call that changes the queue behind the pointer
`proc_entry->pq` of the entry returned by `get_hashtable_entry(key)`. -/
def set_entry_pq (htable : List hashtable) (key : Int) (pq : Option priority_queue) :
    List hashtable :=
  match htable with
  | [] => []
  | e :: t => if e.key = key then { e with pq := pq } :: t else e :: set_entry_pq t key pq

/-- The function `dev_read`. `inbuffer_null` says that the user pointer is null and
`copy_fails` that `copy_to_user` fails; `pq_top_elem0` and `pq_top_elem_pri0` are the
contents of the local variables `pq_top_elem` and `pq_top_elem_pri`, which are not
initialised, at entry. The result is the returned integer, the `int32_t` stored in the user
buffer if any, and the state. -/
def dev_read (st : module_state) (pid : Int) (inbuffer_null : Bool) (inbuffer_size : Nat)
    (copy_fails : Bool) (pq_top_elem0 pq_top_elem_pri0 : Int) :
    Int × Option Int × module_state :=
  if inbuffer_null ∨ inbuffer_size = 0 then (-EINVAL, none, st)
  else
    match get_hashtable_entry st.htable pid with
    | none => (-EACCES, none, st)
    | some proc_entry =>
      match proc_entry.pq with
      | none => (-EACCES, none, st)
      | some pq =>
        if 4 ≠ inbuffer_size then
          let r := push_value pq pq_top_elem0 pq_top_elem_pri0
          let st := { st with htable := set_entry_pq st.htable pid (some r.2) }
          (-EACCES, none, st)
        else
          let r := pop_value pq
          let pq_top_elem := r.1
          let st := { st with htable := set_entry_pq st.htable pid (some r.2) }
          let out := if copy_fails then none else some pq_top_elem
          if ¬ copy_fails ∧ pq_top_elem ≠ -INF then (4, out, st)
          else (-EACCES, out, st)

/-- The module state with the single client `1`, whose queue is `pq`. -/
def client_state (pq : priority_queue) : module_state :=
  { htable := [{ key := 1, pq := some pq }], num_open_processes := 1 }

/-- The queue reached from `fresh2` by `push_value(7, 1)`. -/
def one2 : priority_queue := (push_value fresh2 7 1).2

end Asgn1

namespace Asgn2

/-- Every disconnect of the sequence, served from the state `st`, is issued by a client
that has an entry in the chain at that moment. -/
def releases_matched (st : module_state) : List (Int × request) → Prop
  | [] => True
  | (pid, rq) :: t =>
    (rq.is_disconnect = true → (get_hashtable_entry st.htable pid).isSome) ∧
      releases_matched (serve st pid rq).2 t

end Asgn2

/-! # Theorems -/

/-! ## Array reads and writes -/

theorem rd_set (arr : List data) (i j : Nat) (d : data) :
    rd (arr.set i d) j = if i = j ∧ i < arr.length then d else rd arr j := by
  unfold rd
  simp only [List.getD_eq_getElem?_getD, List.getElem?_set]
  by_cases h : i = j
  · subst h
    by_cases h2 : i < arr.length
    · simp [h2]
    · have h3 : arr.length ≤ i := Nat.le_of_not_lt h2
      simp [h2, List.getElem?_eq_none h3]
  · simp [h]

theorem rd_take (arr : List data) (n i : Nat) (h : i < n) : rd (arr.take n) i = rd arr i := by
  unfold rd
  simp [List.getElem?_take, h]

theorem length_swap_slots (arr : List data) (i j : Nat) :
    (swap_slots arr i j).length = arr.length := by
  simp [swap_slots]

theorem rd_swap_slots (arr : List data) (i j k : Nat) (hi : i < arr.length) (hj : j < arr.length) :
    rd (swap_slots arr i j) k = if k = j then rd arr i else if k = i then rd arr j else rd arr k := by
  simp only [swap_slots, rd_set, List.length_set]
  by_cases h1 : k = j
  · subst h1; simp [hj]
  · by_cases h2 : k = i
    · subst h2; simp [hi, h1, Ne.symm h1]
    · simp [h1, h2, Ne.symm h1, Ne.symm h2]

theorem rd_eq_getElem (arr : List data) (i : Nat) (h : i < arr.length) : rd arr i = arr[i] := by
  unfold rd
  simp [h]

theorem swap_slots_perm (l : List data) (i j : Nat) (hi : i < l.length) (hj : j < l.length) :
    (swap_slots l i j).Perm l := by
  rw [List.perm_iff_count]
  intro x
  unfold swap_slots
  simp only []
  rw [List.count_set _ _ _ _ (by simpa using hj), List.count_set _ _ _ _ hi]
  have h1 : (if l[i] == x then 1 else 0) ≤ l.count x := List.boole_getElem_le_count x l i hi
  by_cases hij : i = j
  · subst hij
    simp only [List.getElem_set_self, rd_eq_getElem l i hi]
    omega
  · rw [List.getElem_set_ne hij]
    simp only [rd_eq_getElem l i hi, rd_eq_getElem l j hj]
    split_ifs <;> simp_all

theorem swap_slots_take (l : List data) (n i j : Nat) (hi : i < n) (hj : j < n) :
    (swap_slots l i j).take n = swap_slots (l.take n) i j := by
  unfold swap_slots
  simp only [List.set_take, rd_take _ _ _ hi, rd_take _ _ _ hj]

theorem swap_slots_take_perm (l : List data) (n i j : Nat) (hi : i < n) (hj : j < n)
    (hn : n ≤ l.length) : ((swap_slots l i j).take n).Perm (l.take n) := by
  rw [swap_slots_take l n i j hi hj]
  apply swap_slots_perm
  · simp; omega
  · simp; omega

/-! ## The order relation -/

theorem precedes_irrefl (a : data) : ¬ precedes a a := by
  unfold precedes; omega

theorem precedes_asymm {a b : data} (h : precedes a b) : ¬ precedes b a := by
  unfold precedes at *; omega

theorem precedes_trans {a b c : data} (h1 : precedes a b) (h2 : precedes b c) :
    precedes a c := by
  unfold precedes at *; omega

theorem not_precedes_trans {a b c : data} (h1 : ¬ precedes b a) (h2 : ¬ precedes c b) :
    ¬ precedes c a := by
  unfold precedes at *; omega

theorem not_precedes_of_precedes_of_not {a b c : data} (h1 : precedes a b)
    (h2 : ¬ precedes c b) : ¬ precedes c a := by
  unfold precedes at *; omega

theorem precedes_of_not_of_ne {a b : data} (h : ¬ precedes b a)
    (hne : a.priority = b.priority → a.in_time ≠ b.in_time) : precedes a b := by
  unfold precedes at *; omega

/-! ## Sift-up -/

theorem heapify_bottom_top_loop_length (fuel : Nat) :
    ∀ (arr : List data) (k : Nat), (heapify_bottom_top_loop fuel arr k).length = arr.length := by
  induction fuel with
  | zero => intro arr k; rfl
  | succ f ih =>
    intro arr k
    simp only [heapify_bottom_top_loop]
    split_ifs
    · rw [ih, length_swap_slots]
    · rfl
    · rfl

theorem heapify_bottom_top_loop_perm (n fuel : Nat) :
    ∀ (arr : List data) (k : Nat), k < n → n ≤ arr.length →
      ((heapify_bottom_top_loop fuel arr k).take n).Perm (arr.take n) := by
  induction fuel with
  | zero => intro arr k _ _; exact List.Perm.refl _
  | succ f ih =>
    intro arr k hk hn
    simp only [heapify_bottom_top_loop]
    split_ifs with h0 hp
    · have hpar : (k - 1) / 2 < n := by omega
      refine (ih _ _ hpar (by rw [length_swap_slots]; exact hn)).trans ?_
      exact swap_slots_take_perm arr n _ _ hpar hk hn
    · exact List.Perm.refl _
    · exact List.Perm.refl _

theorem heap_ordered_of_up_inv {arr : List data} {n k : Nat} (h : up_inv arr n k)
    (hk : k = 0 ∨ ¬ precedes (rd arr k) (rd arr ((k - 1) / 2))) : heap_ordered arr n := by
  intro i hi h0
  by_cases hik : i = k
  · subst hik
    rcases hk with hk | hk
    · omega
    · exact hk
  · exact h.1 i hi h0 hik

theorem up_inv_swap {arr : List data} {n k : Nat} (h : up_inv arr n k) (hk : k < n)
    (hn : n ≤ arr.length) (h0 : k ≠ 0) (hp : precedes (rd arr k) (rd arr ((k - 1) / 2))) :
    up_inv (swap_slots arr ((k - 1) / 2) k) n ((k - 1) / 2) := by
  have hpl : (k - 1) / 2 < arr.length := by omega
  have hkl : k < arr.length := by omega
  have hpk : (k - 1) / 2 ≠ k := by omega
  constructor
  · intro i hi hi0 hip
    rw [rd_swap_slots arr _ _ i hpl hkl, rd_swap_slots arr _ _ _ hpl hkl]
    by_cases hik : i = k
    · subst hik
      simp only [if_true, if_neg hpk]
      exact precedes_asymm hp
    · simp only [if_neg hik, if_neg hip]
      by_cases hpi : (i - 1) / 2 = k
      · simp only [hpi, if_true]
        exact h.2 i hi hi0 hpi (by omega)
      · simp only [if_neg hpi]
        by_cases hpi2 : (i - 1) / 2 = (k - 1) / 2
        · simp only [hpi2, if_true]
          have := h.1 i hi hi0 hik
          rw [hpi2] at this
          exact not_precedes_of_precedes_of_not hp this
        · simp only [if_neg hpi2]
          exact h.1 i hi hi0 hik
  · intro c hc hc0 hcp hp0
    rw [rd_swap_slots arr _ _ c hpl hkl, rd_swap_slots arr _ _ _ hpl hkl]
    have hpp1 : ((k - 1) / 2 - 1) / 2 ≠ k := by omega
    have hpp2 : ((k - 1) / 2 - 1) / 2 ≠ (k - 1) / 2 := by omega
    have hcpar : c ≠ (k - 1) / 2 := by omega
    simp only [if_neg hpp1, if_neg hpp2, if_neg hcpar]
    have hpar := h.1 ((k - 1) / 2) (by omega) hp0 hpk
    by_cases hck : c = k
    · simp only [hck, if_true]
      exact hpar
    · simp only [if_neg hck]
      have := h.1 c hc hc0 hck
      rw [hcp] at this
      exact not_precedes_trans hpar this

theorem heapify_bottom_top_loop_heap (n fuel : Nat) :
    ∀ (arr : List data) (k : Nat), k ≤ fuel → k < n → n ≤ arr.length → up_inv arr n k →
      heap_ordered (heapify_bottom_top_loop fuel arr k) n := by
  induction fuel with
  | zero =>
    intro arr k hkf _ _ h
    exact heap_ordered_of_up_inv h (Or.inl (by omega))
  | succ f ih =>
    intro arr k hkf hk hn h
    simp only [heapify_bottom_top_loop]
    split_ifs with h0 hp
    · exact ih _ _ (by omega) (by omega) (by rw [length_swap_slots]; exact hn)
        (up_inv_swap h hk hn h0 hp)
    · exact heap_ordered_of_up_inv h (Or.inr hp)
    · exact heap_ordered_of_up_inv h (Or.inl (by omega))

/-! ## Sift-down -/

theorem smallest_of_cases (arr : List data) (n k : Nat) :
    (smallest_of arr n k = k ∧
      ∀ c, c < n → 0 < c → (c - 1) / 2 = k → ¬ precedes (rd arr c) (rd arr k)) ∨
    (smallest_of arr n k ≠ k ∧ smallest_of arr n k < n ∧ 0 < smallest_of arr n k ∧
      (smallest_of arr n k - 1) / 2 = k ∧
      precedes (rd arr (smallest_of arr n k)) (rd arr k) ∧
      ∀ c, c < n → 0 < c → (c - 1) / 2 = k →
        ¬ precedes (rd arr c) (rd arr (smallest_of arr n k))) := by
  have hch : ∀ c, 0 < c → (c - 1) / 2 = k → c = k * 2 + 1 ∨ c = k * 2 + 2 := by
    intro c hc hp; omega
  unfold smallest_of
  simp only []
  by_cases hl : k * 2 + 1 < n ∧ precedes (rd arr (k * 2 + 1)) (rd arr k)
  · rw [if_pos hl]
    by_cases hr : k * 2 + 2 < n ∧ precedes (rd arr (k * 2 + 2)) (rd arr (k * 2 + 1))
    · rw [if_pos hr]
      right
      refine ⟨by omega, hr.1, by omega, by omega, precedes_trans hr.2 hl.2, ?_⟩
      intro c hc hc0 hcp
      rcases hch c hc0 hcp with h | h
      · rw [h]; exact precedes_asymm hr.2
      · rw [h]; exact precedes_irrefl _
    · rw [if_neg hr]
      right
      refine ⟨by omega, hl.1, by omega, by omega, hl.2, ?_⟩
      intro c hc hc0 hcp
      rcases hch c hc0 hcp with h | h
      · rw [h]; exact precedes_irrefl _
      · rw [h]
        intro hcon
        exact hr ⟨by omega, hcon⟩
  · rw [if_neg hl]
    by_cases hr : k * 2 + 2 < n ∧ precedes (rd arr (k * 2 + 2)) (rd arr k)
    · rw [if_pos hr]
      right
      refine ⟨by omega, hr.1, by omega, by omega, hr.2, ?_⟩
      intro c hc hc0 hcp
      rcases hch c hc0 hcp with h | h
      · rw [h]
        have hl2 : ¬ precedes (rd arr (k * 2 + 1)) (rd arr k) := fun hcon => hl ⟨by omega, hcon⟩
        exact not_precedes_of_precedes_of_not hr.2 hl2
      · rw [h]; exact precedes_irrefl _
    · rw [if_neg hr]
      left
      refine ⟨rfl, ?_⟩
      intro c hc hc0 hcp
      rcases hch c hc0 hcp with h | h
      · rw [h]; exact fun hcon => hl ⟨by omega, hcon⟩
      · rw [h]; exact fun hcon => hr ⟨by omega, hcon⟩

theorem heapify_top_bottom_rec_length (n fuel : Nat) :
    ∀ (arr : List data) (k : Nat), (heapify_top_bottom_rec fuel arr n k).length = arr.length := by
  induction fuel with
  | zero => intro arr k; rfl
  | succ f ih =>
    intro arr k
    simp only [heapify_top_bottom_rec]
    split_ifs
    · rw [ih, length_swap_slots]
    · rfl

theorem heapify_top_bottom_rec_perm (n fuel : Nat) :
    ∀ (arr : List data) (k : Nat), k < n → n ≤ arr.length →
      ((heapify_top_bottom_rec fuel arr n k).take n).Perm (arr.take n) := by
  induction fuel with
  | zero => intro arr k _ _; exact List.Perm.refl _
  | succ f ih =>
    intro arr k hk hn
    simp only [heapify_top_bottom_rec]
    split_ifs with hs
    · rcases smallest_of_cases arr n k with h | h
      · exact absurd h.1 hs
      · refine (ih _ _ h.2.1 (by rw [length_swap_slots]; exact hn)).trans ?_
        exact swap_slots_take_perm arr n _ _ h.2.1 hk hn
    · exact List.Perm.refl _

theorem heap_ordered_of_down_inv {arr : List data} {n k : Nat} (h : down_inv arr n k)
    (hk : ∀ c, c < n → 0 < c → (c - 1) / 2 = k → ¬ precedes (rd arr c) (rd arr k)) :
    heap_ordered arr n := by
  intro i hi h0
  by_cases hik : (i - 1) / 2 = k
  · have := hk i hi h0 hik
    rw [hik]; exact this
  · exact h.1 i hi h0 hik

theorem down_inv_swap {arr : List data} {n k s : Nat} (h : down_inv arr n k)
    (hn : n ≤ arr.length) (hsn : s < n) (hs0 : 0 < s) (hsp : (s - 1) / 2 = k)
    (hp : precedes (rd arr s) (rd arr k))
    (hmin : ∀ c, c < n → 0 < c → (c - 1) / 2 = k → ¬ precedes (rd arr c) (rd arr s)) :
    down_inv (swap_slots arr s k) n s := by
  have hsl : s < arr.length := by omega
  have hkl : k < arr.length := by omega
  have hks : k ≠ s := by omega
  constructor
  · intro i hi hi0 hip
    rw [rd_swap_slots arr _ _ i hsl hkl, rd_swap_slots arr _ _ _ hsl hkl]
    by_cases hik : i = k
    · subst hik
      have hpk1 : (i - 1) / 2 ≠ i := by omega
      simp only [if_true, if_neg hpk1, if_neg hip]
      exact h.2 s hsn hs0 hsp hi0
    · simp only [if_neg hik]
      by_cases his : i = s
      · subst his
        simp only [if_true, hsp]
        exact precedes_asymm hp
      · simp only [if_neg his, if_neg hip]
        by_cases hpi : (i - 1) / 2 = k
        · simp only [hpi, if_true]
          exact hmin i hi hi0 hpi
        · simp only [if_neg hpi]
          exact h.1 i hi hi0 hpi
  · intro c hc hc0 hcp _
    rw [rd_swap_slots arr _ _ c hsl hkl, rd_swap_slots arr _ _ _ hsl hkl]
    have hck : c ≠ k := by omega
    have hcs : c ≠ s := by omega
    simp only [if_neg hck, if_neg hcs, hsp, if_true]
    have := h.1 c hc hc0 (by omega)
    rw [hcp] at this
    exact this

theorem heapify_top_bottom_rec_heap (n fuel : Nat) :
    ∀ (arr : List data) (k : Nat), n - k ≤ fuel → n ≤ arr.length → down_inv arr n k →
      heap_ordered (heapify_top_bottom_rec fuel arr n k) n := by
  induction fuel with
  | zero =>
    intro arr k hkf _ h
    apply heap_ordered_of_down_inv h
    intro c hc hc0 hcp
    omega
  | succ f ih =>
    intro arr k hkf hn h
    simp only [heapify_top_bottom_rec]
    rcases smallest_of_cases arr n k with hc | hc
    · rw [if_neg (by simpa using hc.1)]
      exact heap_ordered_of_down_inv h hc.2
    · rw [if_pos hc.1]
      obtain ⟨_, hsn, hs0, hsp, hp, hmin⟩ := hc
      exact ih _ _ (by omega) (by rw [length_swap_slots]; exact hn)
        (down_inv_swap h hn hsn hs0 hsp hp hmin)

/-! ## The root of a heap -/

theorem heap_root_min {arr : List data} {n : Nat} (h : heap_ordered arr n) :
    ∀ i, i < n → ¬ precedes (rd arr i) (rd arr 0) := by
  intro i
  induction i using Nat.strong_induction_on with
  | _ i ih =>
    intro hi
    by_cases h0 : i = 0
    · subst h0; exact precedes_irrefl _
    · have hp := ih ((i - 1) / 2) (by omega) (by omega)
      exact not_precedes_trans hp (h i hi (by omega))

/-! ## The sift procedures satisfy the equations of the C code -/

theorem heapify_bottom_top_loop_fuel (f1 : Nat) :
    ∀ (f2 : Nat) (arr : List data) (k : Nat), k ≤ f1 → k ≤ f2 →
      heapify_bottom_top_loop f1 arr k = heapify_bottom_top_loop f2 arr k := by
  induction f1 with
  | zero =>
    intro f2 arr k h1 _
    have hk : k = 0 := by omega
    subst hk
    cases f2 <;> simp [heapify_bottom_top_loop]
  | succ f ih =>
    intro f2 arr k h1 h2
    cases f2 with
    | zero =>
      have hk : k = 0 := by omega
      subst hk
      simp [heapify_bottom_top_loop]
    | succ g =>
      simp only [heapify_bottom_top_loop]
      split_ifs with h0 hp
      · exact ih g _ _ (by omega) (by omega)
      · rfl
      · rfl

/-- The body of `heapify_bottom_top`: one iteration of the `while` loop followed by the
rest of the loop. -/
theorem heapify_bottom_top_eq (arr : List data) (index : Nat) :
    heapify_bottom_top arr index =
      if index ≠ 0 then
        if precedes (rd arr index) (rd arr ((index - 1) / 2)) then
          heapify_bottom_top (swap_slots arr ((index - 1) / 2) index) ((index - 1) / 2)
        else arr
      else arr := by
  unfold heapify_bottom_top
  cases index with
  | zero => simp [heapify_bottom_top_loop]
  | succ n =>
    simp only [heapify_bottom_top_loop]
    split_ifs with h0 hp
    · exact heapify_bottom_top_loop_fuel _ _ _ _ (by omega) (Nat.le_refl _)
    · rfl
    · rfl

theorem smallest_of_eq_self_of_le (arr : List data) (n k : Nat) (h : n ≤ k * 2 + 1) :
    smallest_of arr n k = k := by
  unfold smallest_of
  simp only []
  rw [if_neg (by omega), if_neg (by omega)]

theorem heapify_top_bottom_rec_fuel (n : Nat) (f1 : Nat) :
    ∀ (f2 : Nat) (arr : List data) (k : Nat), n - k ≤ f1 → n - k ≤ f2 →
      heapify_top_bottom_rec f1 arr n k = heapify_top_bottom_rec f2 arr n k := by
  induction f1 with
  | zero =>
    intro f2 arr k h1 _
    cases f2 with
    | zero => rfl
    | succ g =>
      simp only [heapify_top_bottom_rec]
      rw [smallest_of_eq_self_of_le arr n k (by omega)]
      simp
  | succ f ih =>
    intro f2 arr k h1 h2
    cases f2 with
    | zero =>
      simp only [heapify_top_bottom_rec]
      rw [smallest_of_eq_self_of_le arr n k (by omega)]
      simp
    | succ g =>
      simp only [heapify_top_bottom_rec]
      rcases smallest_of_cases arr n k with hc | hc
      · rw [if_neg (by simpa using hc.1), if_neg (by simpa using hc.1)]
      · rw [if_pos hc.1, if_pos hc.1]
        obtain ⟨_, hsn, hs0, hsp, _, _⟩ := hc
        exact ih g _ _ (by omega) (by omega)

/-- The body of `heapify_top_bottom`: the choice of `smallest`, the swap and the
recursive call. -/
theorem heapify_top_bottom_eq (arr : List data) (count parent_index : Nat) :
    heapify_top_bottom arr count parent_index =
      if smallest_of arr count parent_index ≠ parent_index then
        heapify_top_bottom (swap_slots arr (smallest_of arr count parent_index) parent_index)
          count (smallest_of arr count parent_index)
      else arr := by
  unfold heapify_top_bottom
  rcases smallest_of_cases arr count parent_index with hc | hc
  · rw [if_neg (by simpa using hc.1)]
    cases h : count - parent_index with
    | zero => rfl
    | succ f =>
      simp only [heapify_top_bottom_rec]
      rw [if_neg (by simpa using hc.1)]
  · rw [if_pos hc.1]
    obtain ⟨hne, hsn, hs0, hsp, _, _⟩ := hc
    have : count - parent_index = (count - smallest_of arr count parent_index) +
        (smallest_of arr count parent_index - parent_index - 1) + 1 := by omega
    rw [this]
    simp only [heapify_top_bottom_rec]
    rw [if_pos hne]
    exact heapify_top_bottom_rec_fuel _ _ _ _ _ (by omega) (Nat.le_refl _)

/-! ## One insertion and one extraction on the slots -/

theorem heap_ordered_mono {arr : List data} {n m : Nat} (h : heap_ordered arr n) (hm : m ≤ n) :
    heap_ordered arr m :=
  fun i hi h0 => h i (by omega) h0

theorem heap_ordered_congr {arr arr2 : List data} {n : Nat} (h : heap_ordered arr n)
    (heq : ∀ i, i < n → rd arr2 i = rd arr i) : heap_ordered arr2 n := by
  intro i hi h0
  rw [heq i hi, heq ((i - 1) / 2) (by omega)]
  exact h i hi h0

theorem take_congr_rd {arr arr2 : List data} {n : Nat} (h1 : n ≤ arr.length)
    (h2 : n ≤ arr2.length) (heq : ∀ i, i < n → rd arr2 i = rd arr i) :
    arr2.take n = arr.take n := by
  apply List.ext_getElem
  · simp [h1, h2]
  · intro i hi1 hi2
    have hi : i < n := by
      simp at hi1; omega
    have := heq i hi
    rw [rd_eq_getElem _ _ (by omega), rd_eq_getElem _ _ (by omega)] at this
    simpa using this

theorem take_succ_rd (arr : List data) (n : Nat) (h : n < arr.length) :
    arr.take (n + 1) = arr.take n ++ [rd arr n] := by
  rw [List.take_succ, rd_eq_getElem arr n h]
  simp [h]

theorem sift_up_heap (arr : List data) (n : Nat) (d : data) (hn : n < arr.length)
    (h : heap_ordered arr n) : heap_ordered (heapify_bottom_top (arr.set n d) n) (n + 1) := by
  unfold heapify_bottom_top
  apply heapify_bottom_top_loop_heap (n + 1) n _ n (Nat.le_refl _) (by omega) (by simp; omega)
  constructor
  · intro i hi h0 hin
    rw [rd_set, rd_set, if_neg (by omega), if_neg (by omega)]
    exact h i (by omega) h0
  · intro c hc hc0 hcp _
    omega

theorem sift_up_perm (arr : List data) (n : Nat) (d : data) (hn : n < arr.length) :
    ((heapify_bottom_top (arr.set n d) n).take (n + 1)).Perm (arr.take n ++ [d]) := by
  unfold heapify_bottom_top
  refine (heapify_bottom_top_loop_perm (n + 1) n _ n (by omega) (by simp; omega)).trans ?_
  rw [take_succ_rd _ _ (by simpa using hn), rd_set, if_pos ⟨rfl, hn⟩]
  have : (arr.set n d).take n = arr.take n := by
    apply take_congr_rd (by omega) (by simp; omega)
    intro i hi
    rw [rd_set, if_neg (by omega)]
  rw [this]

theorem sift_up_length (arr : List data) (n : Nat) (d : data) :
    (heapify_bottom_top (arr.set n d) n).length = arr.length := by
  unfold heapify_bottom_top
  rw [heapify_bottom_top_loop_length]; simp

theorem sift_down_heap (arr : List data) (n : Nat) (hn : n ≤ arr.length) (h0 : 0 < n)
    (h : heap_ordered arr n) :
    heap_ordered (heapify_top_bottom (arr.set 0 (rd arr (n - 1))) (n - 1) 0) (n - 1) := by
  unfold heapify_top_bottom
  apply heapify_top_bottom_rec_heap (n - 1) _ _ 0 (Nat.le_refl _) (by simp; omega)
  constructor
  · intro i hi hi0 hip
    rw [rd_set, rd_set, if_neg (by omega), if_neg (by omega)]
    exact h i (by omega) hi0
  · intro c _ _ _ hk
    omega

theorem sift_down_length (arr : List data) (n : Nat) (d : data) :
    (heapify_top_bottom (arr.set 0 d) n 0).length = arr.length := by
  unfold heapify_top_bottom
  rw [heapify_top_bottom_rec_length]; simp

theorem sift_down_perm (arr : List data) (n : Nat) (hn : n ≤ arr.length) (h0 : 0 < n) :
    (rd arr 0 :: (heapify_top_bottom (arr.set 0 (rd arr (n - 1))) (n - 1) 0).take (n - 1)).Perm
      (arr.take n) := by
  obtain ⟨m, rfl⟩ : ∃ m, n = m + 1 := ⟨n - 1, by omega⟩
  simp only [Nat.add_sub_cancel]
  have hstep : ((heapify_top_bottom (arr.set 0 (rd arr m)) m 0).take m).Perm
      ((arr.set 0 (rd arr m)).take m) := by
    by_cases hm : m = 0
    · subst hm; simp
    · unfold heapify_top_bottom
      exact heapify_top_bottom_rec_perm m _ _ 0 (by omega) (by simp; omega)
  refine (List.Perm.cons _ hstep).trans ?_
  rw [take_succ_rd arr m (by omega)]
  cases arr with
  | nil => simp at hn
  | cons a t =>
    cases m with
    | zero => simp [rd]
    | succ j =>
      simp only [List.set_cons_zero, List.take_succ_cons, rd, List.getD_cons_zero,
        List.cons_append]
      refine List.Perm.cons _ ?_
      exact (List.perm_append_singleton _ _).symm

/-! ## Ascending order -/

theorem ascending_perm (l : List data) : (ascending l).Perm l := List.perm_insertionSort _ l

theorem ascending_sorted (l : List data) : (ascending l).Sorted spec_order :=
  List.sorted_insertionSort _ l

theorem sorted_precedes_of_distinct {l : List data} (hs : l.Sorted spec_order)
    (hd : l.Pairwise (fun a b => a.in_time ≠ b.in_time)) : l.Sorted precedes := by
  have := List.Pairwise.and hs hd
  refine this.imp ?_
  intro a b h
  exact precedes_of_not_of_ne h.1 (fun _ => h.2)

theorem distinct_of_increasing {l : List data}
    (h : l.Pairwise (fun a b => a.in_time < b.in_time)) :
    l.Pairwise (fun a b => a.in_time ≠ b.in_time) :=
  h.imp (fun hab => by omega)

theorem distinct_perm {l l2 : List data} (hp : l.Perm l2)
    (hd : l.Pairwise (fun a b => a.in_time ≠ b.in_time)) :
    l2.Pairwise (fun a b => a.in_time ≠ b.in_time) :=
  hp.pairwise hd (fun h => Ne.symm h)

theorem ascending_unique {l l2 : List data} (hp : l2.Perm l) (hs : l2.Sorted spec_order)
    (hd : l.Pairwise (fun a b => a.in_time ≠ b.in_time)) : ascending l = l2 := by
  apply List.eq_of_perm_of_sorted (r := precedes) ((ascending_perm l).trans hp.symm)
  · exact sorted_precedes_of_distinct (ascending_sorted l)
      (distinct_perm (ascending_perm l).symm hd)
  · exact sorted_precedes_of_distinct hs (distinct_perm hp.symm hd)

theorem ascending_cons_erase {l : List data} {r : data} (hr : r ∈ l)
    (hmin : ∀ e ∈ l, ¬ precedes e r)
    (hd : l.Pairwise (fun a b => a.in_time ≠ b.in_time)) :
    ascending l = r :: ascending (l.erase r) := by
  apply ascending_unique _ _ hd
  · exact ((ascending_perm _).cons r).trans (List.perm_cons_erase hr).symm
  · refine List.pairwise_cons.2 ⟨?_, ascending_sorted _⟩
    intro e he
    have he2 : e ∈ l := List.mem_of_mem_erase ((ascending_perm _).subset he)
    exact hmin e he2

/-! ## Machine integers -/

theorem wrap32_eq_self {x : Int} (h1 : -2147483648 ≤ x) (h2 : x < 2147483648) :
    wrap32 x = x := by
  unfold wrap32; omega

theorem mem_take_iff_rd {arr : List data} {n : Nat} (hn : n ≤ arr.length) (e : data) :
    e ∈ arr.take n ↔ ∃ i, i < n ∧ rd arr i = e := by
  rw [List.mem_iff_getElem]
  constructor
  · rintro ⟨i, hi, he⟩
    have hi2 : i < n := by simp at hi; omega
    refine ⟨i, hi2, ?_⟩
    rw [rd_eq_getElem _ _ (by omega)]
    simpa using he
  · rintro ⟨i, hi, he⟩
    refine ⟨i, by simp; omega, ?_⟩
    rw [rd_eq_getElem _ _ (by omega)] at he
    simpa using he

theorem root_min_of_heap {arr : List data} {n : Nat} (hn : n ≤ arr.length)
    (h : heap_ordered arr n) : ∀ e ∈ arr.take n, ¬ precedes e (rd arr 0) := by
  intro e he
  obtain ⟨i, hi, rfl⟩ := (mem_take_iff_rd hn e).1 he
  exact heap_root_min h i hi

/-! ## Assignment 1: the queue refines the specification -/

namespace Asgn1

theorem refines_init (c : Nat) (mem : Nat → data) (pq : priority_queue)
    (h : init_priority_queue c (some mem) = some pq) : refines c pq ⟨[], 0⟩ := by
  simp only [init_priority_queue, Option.some.injEq] at h
  subst h
  refine ⟨rfl, by simp, Nat.zero_le _, ?_, by simp, rfl, by simp, List.Pairwise.nil⟩
  intro i hi h0
  exact absurd hi (Nat.not_lt_zero _)

theorem refines_push {c : Nat} {pq : priority_queue} {s : spec_queue} (h : refines c pq s)
    (v p : Int) (hb : (s.admitted : Int) + 1 < 2147483648) :
    refines c (push_value pq v p).2 (spec_step c s (.push v p)) := by
  obtain ⟨hcap, hlen, hcnt, hheap, hperm, htim, hlt, hinc⟩ := h
  have hll : s.live.length = pq.count := by
    rw [← hperm.length_eq]; simp; omega
  simp only [push_value, spec_step]
  by_cases hfull : pq.count ≥ pq.capacity
  · rw [if_pos hfull, if_neg (by omega)]
    exact ⟨hcap, hlen, hcnt, hheap, hperm, htim, hlt, hinc⟩
  · rw [if_neg hfull, if_pos (by omega)]
    have hn : pq.count < pq.arr.length := by omega
    refine ⟨hcap, ?_, ?_, ?_, ?_, ?_, ?_, ?_⟩
    · simp only []; rw [sift_up_length]; exact hlen
    · simp only []; omega
    · exact sift_up_heap pq.arr pq.count _ hn hheap
    · refine (sift_up_perm pq.arr pq.count _ hn).trans ?_
      rw [htim]
      exact List.Perm.append_right _ hperm
    · simp only []
      rw [htim, wrap32_eq_self (by omega) hb]
      push_cast; rfl
    · intro e he
      simp only [List.mem_append, List.mem_singleton] at he
      rcases he with he | he
      · have := hlt e he
        push_cast; omega
      · subst he
        push_cast; simp
    · rw [List.pairwise_append]
      refine ⟨hinc, List.pairwise_singleton _ _, ?_⟩
      intro a ha b hb2
      simp only [List.mem_singleton] at hb2
      subst hb2
      exact hlt a ha

theorem refines_pop {c : Nat} {pq : priority_queue} {s : spec_queue} (h : refines c pq s) :
    refines c (pop_value pq).2 (spec_step c s .pop) ∧
    (pq.count ≠ 0 → ascending s.live = rd pq.arr 0 :: ascending (spec_step c s .pop).live) ∧
    (pop_value pq).1 = (if pq.count = 0 then -INF else (rd pq.arr 0).value) ∧
    (pop_value pq).2.count = pq.count - 1 := by
  obtain ⟨hcap, hlen, hcnt, hheap, hperm, htim, hlt, hinc⟩ := h
  simp only [pop_value, spec_step]
  by_cases hz : pq.count = 0
  · have hnil : s.live = [] := by
      have := hperm.length_eq
      rw [hz] at this
      simpa using this.symm
    have hh : (ascending s.live).head? = none := by
      rw [hnil]; rfl
    rw [if_pos hz, if_pos hz, hh]
    exact ⟨⟨hcap, hlen, hcnt, hheap, hperm, htim, hlt, hinc⟩, fun h => absurd hz h, rfl,
      by rw [hz]⟩
  · have hn : pq.count ≤ pq.arr.length := by omega
    have hpos : 0 < pq.count := Nat.pos_of_ne_zero hz
    have hroot : rd pq.arr 0 ∈ s.live :=
      hperm.subset ((mem_take_iff_rd hn _).2 ⟨0, hpos, rfl⟩)
    have hmin : ∀ e ∈ s.live, ¬ precedes e (rd pq.arr 0) := fun e he =>
      root_min_of_heap hn hheap e (hperm.symm.subset he)
    have hasc := ascending_cons_erase hroot hmin (distinct_of_increasing hinc)
    rw [if_neg hz, if_neg hz, hasc]
    simp only [List.head?_cons]
    refine ⟨⟨hcap, ?_, ?_, ?_, ?_, htim, ?_, ?_⟩, by intro _; first | rfl | trivial,
      by first | rfl | trivial, by first | rfl | trivial⟩
    · rw [sift_down_length]; exact hlen
    · show pq.count - 1 ≤ c
      omega
    · exact sift_down_heap pq.arr pq.count hn hpos hheap
    · have h1 := (sift_down_perm pq.arr pq.count hn hpos).trans hperm
      exact (List.perm_cons _).1 (h1.trans (List.perm_cons_erase hroot))
    · intro e he
      exact hlt e (List.mem_of_mem_erase he)
    · exact hinc.sublist (List.erase_sublist _ _)

theorem spec_step_admitted_le (c : Nat) (s : spec_queue) (a : call) :
    (spec_step c s a).admitted ≤ s.admitted + (if a.is_push then 1 else 0) := by
  cases a with
  | push v p =>
    simp only [spec_step, call.is_push, if_true]
    split_ifs <;> simp
  | pop =>
    simp only [spec_step, call.is_push]
    split <;> simp

theorem refines_run (c : Nat) (cs : List call) :
    ∀ (pq : priority_queue) (s : spec_queue), refines c pq s →
      s.admitted + cs.countP call.is_push < 2147483648 →
      refines c (run pq cs) (spec_run c s cs) := by
  induction cs with
  | nil => intro pq s h _; exact h
  | cons a t ih =>
    intro pq s h hb
    have hle := spec_step_admitted_le c s a
    rw [List.countP_cons] at hb
    have hstep : refines c (step pq a).2 (spec_step c s a) := by
      cases a with
      | push v p =>
        refine refines_push h v p ?_
        simp only [call.is_push, if_true] at hb
        omega
      | pop => exact (refines_pop h).1
    exact ih _ _ hstep (by omega)

theorem drain_loop_refines (c : Nat) (fuel : Nat) :
    ∀ (pq : priority_queue) (s : spec_queue), refines c pq s → pq.count = fuel →
      (drain_loop fuel pq).1 = (ascending s.live).map data.value ∧
      (drain_loop fuel pq).2.count = 0 := by
  induction fuel with
  | zero =>
    intro pq s h hf
    have hnil : s.live = [] := by
      have := h.2.2.2.2.1.length_eq
      rw [hf] at this
      simpa using this.symm
    simp [drain_loop, hnil, ascending, hf]
  | succ f ih =>
    intro pq s h hf
    have hz : pq.count ≠ 0 := by omega
    obtain ⟨hr, hasc, hval, hcnt⟩ := refines_pop h
    simp only [drain_loop, if_neg hz]
    have := ih _ _ hr (by rw [hcnt]; omega)
    rw [this.1, hasc hz, hval, if_neg hz]
    exact ⟨rfl, this.2⟩

end Asgn1

namespace Asgn1

/-- C1 (heap order, Assignment 1). Starting from a freshly initialised queue of capacity
`c` in `[1, 100]`, after any sequence of `push_value` and `pop_value` calls with fewer than
`2^31` insertions, popping until `count == 0` returns the values of exactly the entries
admitted and not yet popped, in ascending order of `(priority, in_time)`, where `in_time`
is the insertion number; the loop ends with `count == 0`. The sign of the priorities plays
no role. -/
theorem asgn1_drain_ascending (c : Nat) (mem : Nat → data) (pq0 : priority_queue)
    (cs : List call) (hc1 : 1 ≤ c) (hc2 : c ≤ 100)
    (hinit : init_priority_queue c (some mem) = some pq0)
    (hins : cs.countP call.is_push < 2147483648) :
    (drain (run pq0 cs)).1 = (ascending (spec_run c ⟨[], 0⟩ cs).live).map data.value ∧
    (drain (run pq0 cs)).2.count = 0 ∧
    (ascending (spec_run c ⟨[], 0⟩ cs).live).Perm (spec_run c ⟨[], 0⟩ cs).live ∧
    (ascending (spec_run c ⟨[], 0⟩ cs).live).Sorted precedes := by
  have h0 := refines_init c mem pq0 hinit
  have hr := refines_run c cs pq0 ⟨[], 0⟩ h0 (by simpa using hins)
  have hd := drain_loop_refines c _ _ _ hr rfl
  refine ⟨hd.1, hd.2, ascending_perm _, ?_⟩
  exact sorted_precedes_of_distinct (ascending_sorted _)
    (distinct_perm (ascending_perm _).symm (distinct_of_increasing hr.2.2.2.2.2.2.2))

/-- Witness of C1: the eleven pairs of `tests/dummy.cpp` on a queue of capacity 100. -/
theorem asgn1_drain_ascending_witness :
    (1 ≤ 100 ∧ 100 ≤ 100 ∧
      init_priority_queue 100 (some (fun _ => data_default)) = some dummy_queue ∧
      dummy_input.countP call.is_push < 2147483648) ∧
    (drain (run dummy_queue dummy_input)).1 = [2, 34, 1, -2, -4, -4521, 90, -543, 34, 9, 456] ∧
    (drain (run dummy_queue dummy_input)).1.take 5 = [2, 34, 1, -2, -4] := by
  have h := (asgn1_drain_ascending 100 (fun _ => data_default) dummy_queue dummy_input
    (by decide) (by decide) rfl (by decide)).1
  refine ⟨⟨by decide, by decide, rfl, by decide⟩, ?_, ?_⟩
  · rw [h]; decide
  · rw [h]; decide

end Asgn1

/-! ## Assignment 2: insertion halves and extraction -/

namespace Asgn2

theorem push_value_full (pq : priority_queue) (num : Int) (h : pq.count ≥ pq.capacity) :
    push_value pq num = (-EACCES, pq) := by
  simp only [push_value, if_pos h]

theorem push_value_value_half (pq : priority_queue) (num : Int) (hc : pq.count < pq.capacity)
    (hs : pq.input_state = 1) (hlen : pq.arr.length = pq.capacity) :
    push_value pq num =
      (0, { pq with
        arr := pq.arr.set pq.count ⟨num, (rd pq.arr pq.count).priority, pq.timer⟩,
        input_state := 2 }) := by
  have hn : pq.count < pq.arr.length := by omega
  simp only [push_value, if_neg (Nat.not_le.2 hc), if_pos hs, rd_set, List.set_set,
    List.length_set, hn, and_self, if_true]

theorem push_value_negative (pq : priority_queue) (num : Int) (hc : pq.count < pq.capacity)
    (hs : pq.input_state ≠ 1) (hneg : num < 0) : push_value pq num = (-EINVAL, pq) := by
  simp only [push_value, if_neg (Nat.not_le.2 hc), if_neg hs, if_pos hneg]

theorem push_value_priority_half (pq : priority_queue) (num : Int)
    (hc : pq.count < pq.capacity) (hs : pq.input_state ≠ 1) (hnum : 0 ≤ num) :
    push_value pq num =
      (0, { arr := heapify_bottom_top
              (pq.arr.set pq.count { rd pq.arr pq.count with priority := num }) pq.count,
            capacity := pq.capacity, count := pq.count + 1, timer := wrap32 (pq.timer + 1),
            input_state := 1 }) := by
  simp only [push_value, if_neg (Nat.not_le.2 hc), if_neg hs, if_neg (Int.not_lt.2 hnum)]

theorem push_pair_eq (pq : priority_queue) (v p : Int) (hc : pq.count < pq.capacity)
    (hs : pq.input_state = 1) (hlen : pq.arr.length = pq.capacity) (hp : 0 ≤ p) :
    (push_value pq v).1 = 0 ∧
    push_value (push_value pq v).2 p =
      (0, { arr := heapify_bottom_top (pq.arr.set pq.count ⟨v, p, pq.timer⟩) pq.count,
            capacity := pq.capacity, count := pq.count + 1, timer := wrap32 (pq.timer + 1),
            input_state := 1 }) := by
  have hn : pq.count < pq.arr.length := by omega
  rw [push_value_value_half pq v hc hs hlen]
  refine ⟨rfl, ?_⟩
  have h2 := push_value_priority_half
    { pq with arr := pq.arr.set pq.count ⟨v, (rd pq.arr pq.count).priority, pq.timer⟩,
              input_state := 2 } p hc (by show (2 : Int) ≠ 1; decide) hp
  simp only [rd_set, List.set_set, hn, and_self, if_true] at h2
  exact h2

theorem pop_value_nonempty (pq : priority_queue) (h : pq.count ≠ 0) :
    pop_value pq =
      ((rd pq.arr 0).value,
        { pq with
          arr := heapify_top_bottom (pq.arr.set 0 (rd pq.arr (pq.count - 1))) (pq.count - 1) 0,
          count := pq.count - 1 }) := by
  simp only [pop_value, if_neg h]

theorem pop_value_empty (pq : priority_queue) (h : pq.count = 0) :
    pop_value pq = (-INF, pq) := by
  simp only [pop_value, if_pos h]

end Asgn2

namespace Asgn2

/-- C2 as stated fails where two entries tie on `(priority, in_time)`: in the queue reached
by value 10, priority 5, value 11, priority 5, value 12, `pop_value`, priority 5 on a fresh
queue of capacity 3, the heap holds the entry `{11, 5, 1}` twice, it is heap ordered and
not empty, and no entry comes before every other entry. -/
theorem asgn2_pop_no_strict_first :
    entries stale_queue = [⟨11, 5, 1⟩, ⟨11, 5, 1⟩] ∧
    heap_ordered stale_queue.arr stale_queue.count ∧ 0 < stale_queue.count ∧
    stale_queue.count ≤ stale_queue.capacity ∧
    ¬ ∃ k, k < stale_queue.count ∧
      (pop_value stale_queue).1 = (rd stale_queue.arr k).value ∧
      ∀ j, j < stale_queue.count → j ≠ k →
        precedes (rd stale_queue.arr k) (rd stale_queue.arr j) := by
  decide

/-- C2 (amended). For every queue whose entries `arr[0..count)` are heap ordered, with
`count > 0`, `pop_value` returns the value of the root entry `arr[0]`; no entry of the heap
comes before the root in the order relation, and the root comes before every other entry
when the `(priority, in_time)` pairs of the entries are pairwise distinct. `count` decreases
by exactly one, `capacity`, `timer` and `input_state` are unchanged, and the remaining
entries are the previous multiset of entries with the root removed. -/
theorem asgn2_pop_root (pq : priority_queue) (hheap : heap_ordered pq.arr pq.count)
    (hpos : 0 < pq.count) (hcap : pq.count ≤ pq.capacity) (hlen : pq.arr.length = pq.capacity) :
    (pop_value pq).1 = (rd pq.arr 0).value ∧
    (∀ i, i < pq.count → ¬ precedes (rd pq.arr i) (rd pq.arr 0)) ∧
    ((∀ i j, i < pq.count → j < pq.count → i ≠ j →
        ¬ ((rd pq.arr i).priority = (rd pq.arr j).priority ∧
           (rd pq.arr i).in_time = (rd pq.arr j).in_time)) →
      ∀ i, i < pq.count → i ≠ 0 → precedes (rd pq.arr 0) (rd pq.arr i)) ∧
    (pop_value pq).2.count + 1 = pq.count ∧
    (pop_value pq).2.capacity = pq.capacity ∧
    (pop_value pq).2.timer = pq.timer ∧
    (pop_value pq).2.input_state = pq.input_state ∧
    (rd pq.arr 0 :: entries (pop_value pq).2).Perm (entries pq) := by
  have hne : pq.count ≠ 0 := by omega
  rw [pop_value_nonempty pq hne]
  refine ⟨rfl, heap_root_min hheap, ?_, ?_, rfl, rfl, rfl, ?_⟩
  · intro hd i hi hi0
    have h1 := heap_root_min hheap i hi
    have h2 := hd 0 i hpos hi (Ne.symm hi0)
    exact precedes_of_not_of_ne h1 (fun hp ht => h2 ⟨hp, ht⟩)
  · show pq.count - 1 + 1 = pq.count
    omega
  · exact sift_down_perm pq.arr pq.count (by omega) hpos

/-- Witness of C2 (amended): the heap `{10, 5, 0}`, `{11, 5, 1}`, `{12, 5, 2}`. -/
theorem asgn2_pop_root_witness :
    (pop_value (insert_all fresh3 [10, 11, 12] 5).2).1 = 10 ∧
    (pop_value (insert_all fresh3 [10, 11, 12] 5).2).2.count + 1 = 3 := by
  have h := asgn2_pop_root (insert_all fresh3 [10, 11, 12] 5).2 (by decide) (by decide)
    (by decide) (by decide)
  exact ⟨h.1, h.2.2.2.1⟩

end Asgn2

namespace Asgn2

theorem tagged_map_value (vs : List Int) (p : Int) :
    ∀ n, (tagged n vs p).map data.value = vs := by
  induction vs with
  | nil => intro n; rfl
  | cons v t ih => intro n; simp [tagged, ih]

theorem tagged_length (vs : List Int) (p : Int) : ∀ n, (tagged n vs p).length = vs.length := by
  induction vs with
  | nil => intro n; rfl
  | cons v t ih => intro n; simp [tagged, ih]

theorem tagged_mem (vs : List Int) (p : Int) :
    ∀ n e, e ∈ tagged n vs p → e.priority = p ∧ (n : Int) ≤ e.in_time := by
  induction vs with
  | nil => intro n e he; simp [tagged] at he
  | cons v t ih =>
    intro n e he
    simp only [tagged, List.mem_cons] at he
    rcases he with he | he
    · subst he; exact ⟨rfl, le_refl _⟩
    · have := ih (n + 1) e he
      refine ⟨this.1, ?_⟩
      have h2 := this.2
      push_cast at h2
      omega

theorem tagged_sorted (vs : List Int) (p : Int) :
    ∀ n, (tagged n vs p).Pairwise
      (fun a b => a.priority = b.priority ∧ a.in_time < b.in_time) := by
  induction vs with
  | nil => intro n; exact List.Pairwise.nil
  | cons v t ih =>
    intro n
    simp only [tagged]
    refine List.pairwise_cons.2 ⟨?_, ih (n + 1)⟩
    intro e he
    have := tagged_mem t p (n + 1) e he
    refine ⟨this.1.symm, ?_⟩
    have h2 := this.2
    push_cast at h2
    show (n : Int) < e.in_time
    omega

/-- State of a queue of capacity `c` whose heap holds the entries `L`, in admission order,
all of priority `p`, after `n` complete insertions and no extraction. -/
theorem insert_all_spec (c : Nat) (p : Int) (hp : 0 ≤ p) (hc : c ≤ 100) (vs : List Int) :
    ∀ (pq : priority_queue) (L : List data) (n : Nat),
      pq.capacity = c → pq.arr.length = c → pq.input_state = 1 → pq.count = n →
      pq.timer = (n : Int) → n + vs.length ≤ c → heap_ordered pq.arr pq.count →
      (entries pq).Perm L →
      (insert_all pq vs p).1 = List.replicate (2 * vs.length) 0 ∧
      (insert_all pq vs p).2.capacity = c ∧ (insert_all pq vs p).2.arr.length = c ∧
      (insert_all pq vs p).2.input_state = 1 ∧
      (insert_all pq vs p).2.count = n + vs.length ∧
      heap_ordered (insert_all pq vs p).2.arr (insert_all pq vs p).2.count ∧
      (entries (insert_all pq vs p).2).Perm (L ++ tagged n vs p) := by
  induction vs with
  | nil =>
    intro pq L n h1 h2 h3 h4 _ _ h7 h8
    simp only [insert_all, tagged, List.length_nil, Nat.mul_zero, List.replicate_zero,
      Nat.add_zero, List.append_nil]
    exact ⟨trivial, h1, h2, h3, h4, h7, h8⟩
  | cons v t ih =>
    intro pq L n h1 h2 h3 h4 h5 h6 h7 h8
    simp only [List.length_cons] at h6
    have hcc : pq.count < pq.capacity := by omega
    have hn : pq.count < pq.arr.length := by omega
    obtain ⟨e1, e2⟩ := push_pair_eq pq v p hcc h3 (by omega) hp
    simp only [insert_all, e2, e1]
    have hw : wrap32 (pq.timer + 1) = ((n + 1 : Nat) : Int) := by
      rw [h5, wrap32_eq_self (by omega) (by omega)]
      push_cast; rfl
    have ih2 := ih
      { arr := heapify_bottom_top (pq.arr.set pq.count ⟨v, p, pq.timer⟩) pq.count,
        capacity := pq.capacity, count := pq.count + 1, timer := wrap32 (pq.timer + 1),
        input_state := 1 } (L ++ [⟨v, p, (n : Int)⟩]) (n + 1) h1
      (by rw [sift_up_length]; exact h2) rfl (by show pq.count + 1 = n + 1; omega) hw
      (by omega) (sift_up_heap pq.arr pq.count _ hn h7)
      (by
        refine (sift_up_perm pq.arr pq.count _ hn).trans ?_
        rw [h5]
        exact List.Perm.append_right _ h8)
    obtain ⟨r1, r2, r3, r4, r5, r6, r7⟩ := ih2
    refine ⟨?_, r2, r3, r4, ?_, r6, ?_⟩
    · rw [r1]
      simp only [List.length_cons, Nat.mul_add, Nat.mul_one, List.replicate_succ]
    · rw [r5, List.length_cons]; omega
    · simpa only [tagged, List.append_assoc, List.singleton_append] using r7

theorem pop_times_spec (fuel : Nat) :
    ∀ (pq : priority_queue) (L : List data), pq.count = fuel → pq.count ≤ pq.arr.length →
      heap_ordered pq.arr pq.count → (entries pq).Perm L →
      L.Pairwise (fun a b => a.in_time ≠ b.in_time) →
      (pop_times fuel pq).1 = (ascending L).map data.value ∧
      (pop_times fuel pq).2.count = 0 := by
  induction fuel with
  | zero =>
    intro pq L hf _ _ hperm _
    have hnil : L = [] := by
      have := hperm.length_eq
      simp only [entries, hf, List.take_zero, List.length_nil] at this
      exact List.length_eq_zero.1 this.symm
    subst hnil
    exact ⟨rfl, hf⟩
  | succ f ih =>
    intro pq L hf hlen hheap hperm hd
    have hne : pq.count ≠ 0 := by omega
    have hpos : 0 < pq.count := by omega
    have hroot : rd pq.arr 0 ∈ L :=
      hperm.subset ((mem_take_iff_rd hlen _).2 ⟨0, hpos, rfl⟩)
    have hmin : ∀ e ∈ L, ¬ precedes e (rd pq.arr 0) := fun e he =>
      root_min_of_heap hlen hheap e (hperm.symm.subset he)
    have hasc := ascending_cons_erase hroot hmin hd
    simp only [pop_times, pop_value_nonempty pq hne]
    have h1 := (sift_down_perm pq.arr pq.count hlen hpos).trans hperm
    have h2 := (List.perm_cons _).1 (h1.trans (List.perm_cons_erase hroot))
    have := ih
      { pq with
        arr := heapify_top_bottom (pq.arr.set 0 (rd pq.arr (pq.count - 1))) (pq.count - 1) 0,
        count := pq.count - 1 } (L.erase (rd pq.arr 0))
      (by show pq.count - 1 = f; omega)
      (by show pq.count - 1 ≤ _; rw [sift_down_length]; omega)
      (sift_down_heap pq.arr pq.count hlen hpos hheap) h2
      (hd.sublist (List.erase_sublist _ _))
    rw [this.1, hasc]
    exact ⟨rfl, this.2⟩

/-- C3 (FIFO tie-break, Assignment 2). Starting from a freshly initialised queue of capacity
`c ≤ 100`, for `k` values `v1 .. vk` with `1 ≤ k ≤ c` and one priority `p ≥ 0`, the value
half followed by the priority half for each value in turn all return `0`, and `k` calls of
`pop_value` then return `v1, v2, ..., vk` in that order. -/
theorem asgn2_fifo_tie_break (c : Nat) (mem : Nat → data) (pq0 : priority_queue)
    (vs : List Int) (p : Int)
    (hinit : init_priority_queue c (some mem) = some pq0)
    (hk1 : 1 ≤ vs.length) (hk2 : vs.length ≤ c) (hc : c ≤ 100) (hp : 0 ≤ p) :
    (insert_all pq0 vs p).1 = List.replicate (2 * vs.length) 0 ∧
    (pop_times vs.length (insert_all pq0 vs p).2).1 = vs := by
  simp only [init_priority_queue, Option.some.injEq] at hinit
  subst hinit
  have h := insert_all_spec c p hp hc vs
    { capacity := c, count := 0, timer := 0, arr := (List.range c).map mem, input_state := 1 }
    [] 0 rfl (by simp) rfl rfl rfl (by omega)
    (fun i hi _ => absurd hi (Nat.not_lt_zero _)) (by simp [entries])
  obtain ⟨r1, _, r3, _, r5, r6, r7⟩ := h
  refine ⟨r1, ?_⟩
  simp only [List.nil_append, Nat.zero_add] at r7 r5
  have hs := tagged_sorted vs p 0
  have hd : (tagged 0 vs p).Pairwise (fun a b => a.in_time ≠ b.in_time) :=
    hs.imp (fun h => by omega)
  have hpop := pop_times_spec vs.length _ _ r5 (by rw [r5, r3]; exact hk2) r6 r7 hd
  rw [hpop.1]
  have hasc : ascending (tagged 0 vs p) = tagged 0 vs p := by
    apply ascending_unique (List.Perm.refl _) _ hd
    refine hs.imp ?_
    intro a b hab
    unfold spec_order precedes
    omega
  rw [hasc, tagged_map_value]

/-- Witness of C3: the scenario S2 of the specification, `(10,5) (11,5) (12,5)` on a queue
of capacity 3. -/
theorem asgn2_fifo_tie_break_witness :
    (init_priority_queue 3 (some (fun _ => data_default)) = some fresh3 ∧
      1 ≤ [(10 : Int), 11, 12].length ∧ [(10 : Int), 11, 12].length ≤ 3 ∧ 3 ≤ 100 ∧
      (0 : Int) ≤ 5) ∧
    (pop_times 3 (insert_all fresh3 [10, 11, 12] 5).2).1 = [10, 11, 12] :=
  ⟨⟨rfl, by decide, by decide, by decide, by decide⟩,
    (asgn2_fifo_tie_break 3 (fun _ => data_default) fresh3 [10, 11, 12] 5 rfl (by decide)
      (by decide) (by decide) (by decide)).2⟩

end Asgn2

namespace Asgn1

theorem push_value_at_capacity (pq : priority_queue) (v p : Int) (h : pq.count ≥ pq.capacity) :
    push_value pq v p = (-EACCES, pq) := by
  simp only [push_value, if_pos h]

theorem push_value_below_capacity (pq : priority_queue) (v p : Int)
    (h : pq.count < pq.capacity) :
    push_value pq v p =
      (0, { arr := heapify_bottom_top (pq.arr.set pq.count ⟨v, p, pq.timer⟩) pq.count,
            capacity := pq.capacity, count := pq.count + 1,
            timer := wrap32 (pq.timer + 1) }) := by
  simp only [push_value, if_neg (Nat.not_le.2 h)]

theorem push_all_codes (c : Nat) (ps : List (Int × Int)) :
    ∀ (pq : priority_queue) (n : Nat), pq.capacity = c → pq.count = n → n ≤ c →
      (push_all pq ps).1 =
        (List.range ps.length).map (fun i => if n + i < c then 0 else -EACCES) := by
  induction ps with
  | nil => intro pq n _ _ _; rfl
  | cons a t ih =>
    intro pq n h1 h2 h3
    obtain ⟨v, p⟩ := a
    simp only [push_all, List.length_cons, List.range_succ_eq_map, List.map_cons, List.map_map,
      Nat.add_zero]
    by_cases hfull : pq.count ≥ pq.capacity
    · rw [push_value_at_capacity pq v p hfull, if_neg (by omega)]
      rw [ih pq n h1 h2 h3]
      congr 1
      apply List.map_congr_left
      intro i _
      simp only [Function.comp]
      rw [if_neg (by omega), if_neg (by omega)]
    · have hlt : pq.count < pq.capacity := by omega
      rw [push_value_below_capacity pq v p hlt, if_pos (by omega)]
      have hih := ih
        { arr := heapify_bottom_top (pq.arr.set pq.count ⟨v, p, pq.timer⟩) pq.count,
          capacity := pq.capacity, count := pq.count + 1, timer := wrap32 (pq.timer + 1) }
        (n + 1) h1 (by show pq.count + 1 = n + 1; omega) (by omega)
      simp only []
      rw [hih]
      congr 1
      apply List.map_congr_left
      intro i _
      simp only [Function.comp, Nat.succ_eq_add_one]
      have : n + 1 + i = n + (i + 1) := by omega
      rw [this]

/-- C4 (capacity bound, Assignment 1). On a queue with `count == capacity`, `push_value`
returns `-EACCES` and leaves the whole queue unchanged; and on a freshly initialised queue
of capacity `c`, in a sequence of insertions with no extraction exactly the first `c` return
`0` and every later one, the `(c+1)`-th included, returns `-EACCES`. -/
theorem asgn1_capacity_bound (pq : priority_queue) (v p : Int) (hfull : pq.count = pq.capacity)
    (c : Nat) (mem : Nat → data) (pq0 : priority_queue) (ps : List (Int × Int))
    (hinit : init_priority_queue c (some mem) = some pq0) :
    push_value pq v p = (-EACCES, pq) ∧
    (push_all pq0 ps).1 = (List.range ps.length).map (fun i => if i < c then 0 else -EACCES) := by
  refine ⟨push_value_at_capacity pq v p (by omega), ?_⟩
  simp only [init_priority_queue, Option.some.injEq] at hinit
  subst hinit
  have := push_all_codes c ps
    { capacity := c, count := 0, timer := 0, arr := (List.range c).map mem } 0 rfl rfl
    (Nat.zero_le _)
  simpa only [Nat.zero_add] using this

/-- Witness of C4: scenario S3 of the specification, three insertions on a queue of
capacity 2. -/
theorem asgn1_capacity_bound_witness :
    ((push_all fresh2 [(7, 1), (8, 1)]).2.count = (push_all fresh2 [(7, 1), (8, 1)]).2.capacity ∧
      init_priority_queue 2 (some (fun _ => data_default)) = some fresh2) ∧
    push_value (push_all fresh2 [(7, 1), (8, 1)]).2 9 1 =
      (-EACCES, (push_all fresh2 [(7, 1), (8, 1)]).2) ∧
    (push_all fresh2 [(7, 1), (8, 1), (9, 1)]).1 = [0, 0, -EACCES] :=
  ⟨⟨by decide, rfl⟩,
    asgn1_capacity_bound (push_all fresh2 [(7, 1), (8, 1)]).2 9 1 (by decide) 2
      (fun _ => data_default) fresh2 [(7, 1), (8, 1), (9, 1)] rfl⟩

end Asgn1

namespace Asgn2

/-- C5 (two-step insertion equals full insertion). On a queue with no pending value
(`input_state == 1`) and `count < capacity`, for `p ≥ 0` the calls `push_value(v)` and
`push_value(p)` of Assignment 2 both return `0` and leave the same array, capacity, count
and timer as the call `push_value(pq, v, p)` of Assignment 1 on the same state, which also
returns `0`: the entry `{v, p, old timer}` is admitted, `count` grows by one, `timer` is
incremented as an `int32_t` (by one unless it was `INT32_MAX`), and no value is pending. -/
theorem asgn2_two_step_eq_full (pq : priority_queue) (v p : Int)
    (hs : pq.input_state = 1) (hc : pq.count < pq.capacity)
    (hlen : pq.arr.length = pq.capacity) (hp : 0 ≤ p) :
    (push_value pq v).1 = 0 ∧
    (push_value (push_value pq v).2 p).1 = 0 ∧
    (Asgn1.push_value (to_asgn1 pq) v p).1 = 0 ∧
    to_asgn1 (push_value (push_value pq v).2 p).2 = (Asgn1.push_value (to_asgn1 pq) v p).2 ∧
    (entries (push_value (push_value pq v).2 p).2).Perm (entries pq ++ [⟨v, p, pq.timer⟩]) ∧
    (push_value (push_value pq v).2 p).2.count = pq.count + 1 ∧
    (push_value (push_value pq v).2 p).2.timer = wrap32 (pq.timer + 1) ∧
    (-2147483648 ≤ pq.timer + 1 → pq.timer + 1 < 2147483648 →
      (push_value (push_value pq v).2 p).2.timer = pq.timer + 1) ∧
    (push_value (push_value pq v).2 p).2.input_state = 1 ∧
    pending (push_value (push_value pq v).2 p).2 = none := by
  obtain ⟨e1, e2⟩ := push_pair_eq pq v p hc hs hlen hp
  have e3 := Asgn1.push_value_below_capacity (to_asgn1 pq) v p hc
  rw [e2, e3]
  refine ⟨e1, rfl, rfl, rfl, ?_, rfl, rfl, ?_, rfl, rfl⟩
  · exact sift_up_perm pq.arr pq.count _ (by omega)
  · intro h1 h2
    exact wrap32_eq_self h1 h2

/-- Witness of C5: the pair `(10, 5)` on a fresh queue of capacity 3. -/
theorem asgn2_two_step_eq_full_witness :
    (fresh3.input_state = 1 ∧ fresh3.count < fresh3.capacity ∧
      fresh3.arr.length = fresh3.capacity ∧ (0 : Int) ≤ 5) ∧
    to_asgn1 (push_value (push_value fresh3 10).2 5).2 =
      (Asgn1.push_value (to_asgn1 fresh3) 10 5).2 :=
  ⟨⟨rfl, by decide, by decide, by decide⟩,
    (asgn2_two_step_eq_full fresh3 10 5 rfl (by decide) (by decide) (by decide)).2.2.2.1⟩

/-- C6 as stated fails on a full queue: with no value pending and `count == capacity`, the
value half `push_value(13)` returns `-EACCES` and records no pending value. -/
theorem asgn2_value_half_full_rejected :
    full3.input_state = 1 ∧ full3.count = full3.capacity ∧
    (push_value full3 13).1 = -EACCES ∧ (push_value full3 13).1 ≠ 0 ∧
    pending (push_value full3 13).2 = none := by
  decide

/-- C6 (amended). On a queue with no pending value (`input_state == 1`): when
`count < capacity`, `push_value(num)` returns `0`, records `num` as the pending value (in
slot `arr[count]`, with `in_time = timer`) and leaves `capacity`, `count`, `timer` and the
heap entries `arr[0..count)` unchanged; when `count == capacity` it returns `-EACCES` and
leaves the queue unchanged, with no value pending: the capacity check comes first in both
halves. -/
theorem asgn2_value_half (pq : priority_queue) (num : Int) (hs : pq.input_state = 1)
    (hlen : pq.arr.length = pq.capacity) :
    (pq.count < pq.capacity →
      (push_value pq num).1 = 0 ∧
      pending (push_value pq num).2 = some num ∧
      (push_value pq num).2.input_state = 2 ∧
      (rd (push_value pq num).2.arr pq.count).in_time = pq.timer ∧
      (push_value pq num).2.capacity = pq.capacity ∧
      (push_value pq num).2.count = pq.count ∧
      (push_value pq num).2.timer = pq.timer ∧
      entries (push_value pq num).2 = entries pq) ∧
    (pq.count = pq.capacity →
      push_value pq num = (-EACCES, pq) ∧ pending (push_value pq num).2 = none) := by
  constructor
  · intro hc
    have hn : pq.count < pq.arr.length := by omega
    rw [push_value_value_half pq num hc hs hlen]
    refine ⟨rfl, ?_, rfl, ?_, rfl, rfl, rfl, ?_⟩
    · simp only [pending, rd_set, hn, and_self, if_true]
      rfl
    · simp only [rd_set, hn, and_self, if_true]
    · show (pq.arr.set pq.count _).take pq.count = pq.arr.take pq.count
      apply take_congr_rd (by omega) (by simp; omega)
      intro i hi
      rw [rd_set, if_neg (by omega)]
  · intro hfull
    rw [push_value_full pq num (by omega)]
    exact ⟨rfl, by simp only [pending, hs, if_true]⟩

/-- Witness of C6 (amended): the value half on a fresh queue of capacity 3. -/
theorem asgn2_value_half_witness :
    (fresh3.input_state = 1 ∧ fresh3.arr.length = fresh3.capacity ∧
      fresh3.count < fresh3.capacity) ∧
    (push_value fresh3 10).1 = 0 ∧ pending (push_value fresh3 10).2 = some 10 :=
  ⟨⟨rfl, by decide, by decide⟩,
    ((asgn2_value_half fresh3 10 rfl (by decide)).1 (by decide)).1,
    ((asgn2_value_half fresh3 10 rfl (by decide)).1 (by decide)).2.1⟩

/-- C7 (negative priority). On a queue with a pending value `v` (`input_state == 2`),
`push_value(num)` with `num < 0` returns an error and leaves the whole queue unchanged:
count, timer, heap entries and the pending value. When `count < capacity` (as it is whenever
a value half was accepted) the error is `-EINVAL`, and a following `push_value(p)` with
`p ≥ 0` returns `0` and admits the entry with value `v` and priority `p`. -/
theorem asgn2_negative_priority (pq : priority_queue) (num p v : Int)
    (hs : pq.input_state = 2) (hv : pending pq = some v) (hneg : num < 0) (hp : 0 ≤ p) :
    (push_value pq num).1 < 0 ∧
    (push_value pq num).2 = pq ∧
    pending (push_value pq num).2 = some v ∧
    (pq.count < pq.capacity → pq.arr.length = pq.capacity →
      (push_value pq num).1 = -EINVAL ∧
      (push_value (push_value pq num).2 p).1 = 0 ∧
      (push_value (push_value pq num).2 p).2.count = pq.count + 1 ∧
      (entries (push_value (push_value pq num).2 p).2).Perm
        (entries pq ++ [⟨v, p, (rd pq.arr pq.count).in_time⟩])) := by
  have hs1 : pq.input_state ≠ 1 := by rw [hs]; decide
  have hrej : (push_value pq num).1 < 0 ∧ (push_value pq num).2 = pq := by
    by_cases hc : pq.count < pq.capacity
    · rw [push_value_negative pq num hc hs1 hneg]
      exact ⟨by show -EINVAL < 0; decide, rfl⟩
    · rw [push_value_full pq num (by omega)]
      exact ⟨by show -EACCES < 0; decide, rfl⟩
  refine ⟨hrej.1, hrej.2, by rw [hrej.2]; exact hv, ?_⟩
  intro hc hlen
  have hval : (rd pq.arr pq.count).value = v := by
    simp only [pending, if_neg hs1, Option.some.injEq] at hv
    exact hv
  rw [push_value_negative pq num hc hs1 hneg]
  refine ⟨rfl, ?_⟩
  show (push_value pq p).1 = 0 ∧ (push_value pq p).2.count = pq.count + 1 ∧
    (entries (push_value pq p).2).Perm _
  rw [push_value_priority_half pq p hc hs1 hp]
  refine ⟨rfl, rfl, ?_⟩
  rw [← hval]
  exact sift_up_perm pq.arr pq.count _ (by omega)

/-- Witness of C7: priority `-1` and then priority `5` after the value half `10`. -/
theorem asgn2_negative_priority_witness :
    (half3.input_state = 2 ∧ pending half3 = some 10 ∧ (-1 : Int) < 0 ∧ (0 : Int) ≤ 5 ∧
      half3.count < half3.capacity ∧ half3.arr.length = half3.capacity) ∧
    (push_value half3 (-1)).1 = -EINVAL ∧
    (push_value half3 (-1)).2 = half3 ∧
    (push_value (push_value half3 (-1)).2 5).1 = 0 :=
  ⟨⟨by decide, by decide, by decide, by decide, by decide, by decide⟩,
    ((asgn2_negative_priority half3 (-1) 5 10 (by decide) (by decide) (by decide)
      (by decide)).2.2.2 (by decide) (by decide)).1,
    (asgn2_negative_priority half3 (-1) 5 10 (by decide) (by decide) (by decide)
      (by decide)).2.1,
    ((asgn2_negative_priority half3 (-1) 5 10 (by decide) (by decide) (by decide)
      (by decide)).2.2.2 (by decide) (by decide)).2.1⟩

end Asgn2

/-! ## Assignment 2: dispatcher -/

namespace Asgn2

theorem get_hashtable_entry_set (h : List hashtable) (pid : Int) (x : Option priority_queue) :
    get_hashtable_entry (set_entry_pq h pid x) pid =
      (get_hashtable_entry h pid).map (fun e => { e with pq := x }) := by
  induction h with
  | nil => rfl
  | cons e t ih =>
    unfold get_hashtable_entry at *
    simp only [set_entry_pq]
    by_cases hk : e.key = pid
    · simp [hk, List.find?_cons]
    · simp [hk, List.find?_cons, ih]

theorem set_entry_pq_same (h : List hashtable) (pid : Int) (e : hashtable)
    (hget : get_hashtable_entry h pid = some e) : set_entry_pq h pid e.pq = h := by
  induction h with
  | nil => rfl
  | cons a t ih =>
    unfold get_hashtable_entry at *
    simp only [set_entry_pq]
    by_cases hk : a.key = pid
    · simp only [hk, List.find?_cons, decide_True, Option.some.injEq] at hget
      subst hget
      rw [if_pos hk]
    · simp only [hk, List.find?_cons, decide_False] at hget
      simp [hk, ih hget]

theorem set_entry_pq_twice (h : List hashtable) (pid : Int) (x y : Option priority_queue) :
    set_entry_pq (set_entry_pq h pid x) pid y = set_entry_pq h pid y := by
  induction h with
  | nil => rfl
  | cons a t ih =>
    simp only [set_entry_pq]
    by_cases hk : a.key = pid
    · simp [hk, set_entry_pq]
    · simp [hk, set_entry_pq, ih]

theorem queue_of_set (st : module_state) (pid : Int) (e : hashtable)
    (x : Option priority_queue) (hget : get_hashtable_entry st.htable pid = some e) :
    queue_of { st with htable := set_entry_pq st.htable pid x } pid = x := by
  simp only [queue_of, get_hashtable_entry_set, hget, Option.map_some']

end Asgn2

namespace Asgn2

/-- C8 (structured two-step insertion), evaluation of the code. `PB2_INSERT_INT(1)` on a
fresh queue returns `0`, leaves `count` unchanged and records the pending value `1`. The
following `PB2_INSERT_PRIO(2)` does not use its argument: it passes the local variable
`value`, which this call never assigns, to `push_value`. When that local holds `-1` the
command returns `-EINVAL` and admits nothing; when it holds `7` the command returns `0`
and the admitted entry has priority `7`, not `2`. -/
theorem ioctl_insert_prio_ignores_argument :
    (dev_ioctl (client_state fresh3) 1 PB2_INSERT_INT (some 1) false 0 none).1 = 0 ∧
    (dev_ioctl (client_state fresh3) 1 PB2_INSERT_INT (some 1) false 0 none).2.2 =
      client_state half3_one ∧
    half3_one.count = 0 ∧ pending half3_one = some 1 ∧
    dev_ioctl (client_state half3_one) 1 PB2_INSERT_PRIO (some 2) false (-1) none =
      (-EINVAL, .nothing, client_state half3_one) ∧
    (dev_ioctl (client_state half3_one) 1 PB2_INSERT_PRIO (some 2) false 7 none).1 = 0 ∧
    (queue_of (dev_ioctl (client_state half3_one) 1 PB2_INSERT_PRIO (some 2) false 7 none).2.2
      1).map entries = some [⟨1, 7, 0⟩] := by
  decide

/-- C9 as stated fails: after `PB2_INSERT_INT(5)` on a fresh queue, a second
`PB2_INSERT_INT(7)` issued while the value `5` is pending is not rejected; it returns `0`
and admits the entry with value `5` and priority `7`. Likewise `PB2_INSERT_PRIO` issued
while no value is pending returns `0`. -/
theorem ioctl_insert_int_twice_admits :
    pending (push_value fresh3 5).2 = some 5 ∧
    (dev_ioctl (client_state (push_value fresh3 5).2) 1 PB2_INSERT_INT (some 7) false 0 none).1
      = 0 ∧
    (queue_of (dev_ioctl (client_state (push_value fresh3 5).2) 1 PB2_INSERT_INT (some 7)
      false 0 none).2.2 1).map entries = some [⟨5, 7, 0⟩] ∧
    pending fresh3 = none ∧
    (dev_ioctl (client_state fresh3) 1 PB2_INSERT_PRIO (some 7) false 0 none).1 = 0 := by
  decide

/-- C9 (amended). The structured insert commands do not validate the two-step state: each
hands a number to `push_value`, which acts on `input_state` alone. For an attached client
whose queue is present with `count < capacity`: `PB2_INSERT_INT(x)` issued while a value `v`
is pending is taken as the priority half, so it returns `-EINVAL` and leaves the module
state unchanged when `x < 0`, and otherwise returns `0` and admits the entry with value `v`
and priority `x`; `PB2_INSERT_PRIO` issued while no value is pending returns `0`, leaves
`count`, `timer` and the heap entries unchanged and leaves a value pending. -/
theorem ioctl_insert_follows_input_state (st : module_state) (pid : Int) (e : hashtable)
    (pq : priority_queue) (x v p value0 : Int) (ctf : Bool) (mem : Option (Nat → data))
    (hget : get_hashtable_entry st.htable pid = some e) (hpq : e.pq = some pq)
    (hc : pq.count < pq.capacity) (hlen : pq.arr.length = pq.capacity) :
    (pending pq = some v → x < 0 →
      dev_ioctl st pid PB2_INSERT_INT (some x) ctf value0 mem = (-EINVAL, .nothing, st)) ∧
    (pending pq = some v → 0 ≤ x →
      (dev_ioctl st pid PB2_INSERT_INT (some x) ctf value0 mem).1 = 0 ∧
      ∃ q, queue_of (dev_ioctl st pid PB2_INSERT_INT (some x) ctf value0 mem).2.2 pid = some q ∧
        q.count = pq.count + 1 ∧
        (entries q).Perm (entries pq ++ [⟨v, x, (rd pq.arr pq.count).in_time⟩])) ∧
    (pending pq = none →
      (dev_ioctl st pid PB2_INSERT_PRIO (some p) ctf value0 mem).1 = 0 ∧
      ∃ q, queue_of (dev_ioctl st pid PB2_INSERT_PRIO (some p) ctf value0 mem).2.2 pid = some q ∧
        q.count = pq.count ∧ q.timer = pq.timer ∧ entries q = entries pq ∧
        pending q ≠ none) := by
  have hpend : ∀ w, pending pq = some w → pq.input_state ≠ 1 ∧ (rd pq.arr pq.count).value = w := by
    intro w hw
    unfold pending at hw
    by_cases h1 : pq.input_state = 1
    · rw [if_pos h1] at hw; exact absurd hw (by simp)
    · rw [if_neg h1, Option.some.injEq] at hw; exact ⟨h1, hw⟩
  have h32 : PB2_INSERT_INT ≠ PB2_SET_CAPACITY := by decide
  have h33a : PB2_INSERT_PRIO ≠ PB2_SET_CAPACITY := by decide
  have h33b : PB2_INSERT_PRIO ≠ PB2_INSERT_INT := by decide
  refine ⟨?_, ?_, ?_⟩
  · intro hv hx
    obtain ⟨hs1, _⟩ := hpend v hv
    simp only [dev_ioctl, if_neg h32, if_true, hget, hpq,
      push_value_negative pq x hc hs1 hx]
    have hsame : set_entry_pq st.htable pid (some pq) = st.htable := by
      rw [← hpq]; exact set_entry_pq_same _ _ _ hget
    rw [hsame, if_pos (by decide)]
  · intro hv hx
    obtain ⟨hs1, hval⟩ := hpend v hv
    simp only [dev_ioctl, if_neg h32, if_true, hget, hpq,
      push_value_priority_half pq x hc hs1 hx]
    rw [if_neg (by decide)]
    refine ⟨rfl, _, queue_of_set st pid e _ hget, rfl, ?_⟩
    rw [← hval]
    exact sift_up_perm pq.arr pq.count _ (by omega)
  · intro hnone
    have hs1 : pq.input_state = 1 := by
      unfold pending at hnone
      by_contra h1
      rw [if_neg h1] at hnone
      exact absurd hnone (by simp)
    simp only [dev_ioctl, if_neg h33a, if_neg h33b, if_true, hget, hpq,
      push_value_value_half pq value0 hc hs1 hlen]
    rw [if_neg (by decide)]
    refine ⟨rfl, _, queue_of_set st pid e _ hget, rfl, rfl, ?_, ?_⟩
    · show (pq.arr.set pq.count _).take pq.count = pq.arr.take pq.count
      apply take_congr_rd (by omega) (by simp; omega)
      intro i hi
      rw [rd_set, if_neg (by omega)]
    · simp [pending]

/-- Witness of C9 (amended): `PB2_INSERT_INT(-3)` while the value `10` is pending. -/
theorem ioctl_insert_follows_input_state_witness :
    (get_hashtable_entry (client_state half3).htable 1 = some ⟨1, some half3⟩ ∧
      half3.count < half3.capacity ∧ half3.arr.length = half3.capacity ∧
      pending half3 = some 10 ∧ (-3 : Int) < 0) ∧
    dev_ioctl (client_state half3) 1 PB2_INSERT_INT (some (-3)) false 0 none =
      (-EINVAL, .nothing, client_state half3) :=
  ⟨⟨by decide, by decide, by decide, by decide, by decide⟩,
    (ioctl_insert_follows_input_state (client_state half3) 1 ⟨1, some half3⟩ half3 (-3) 10 0 0
      false none (by decide) rfl (by decide) (by decide)).1 (by decide) (by decide)⟩

/-- C10 (byte-stream capacity set). For an attached client whose queue is absent, a write
of one byte, read as the signed byte `c`, succeeds exactly when `1 ≤ c ≤ 100` (the copy
from the user buffer and the allocation succeeding). On success it returns `1` and the
client's queue is present with capacity `c`, `c` slots, count `0`, timer `0` and no pending
value; otherwise it returns `-EINVAL` and the module state is unchanged, so the queue stays
absent. -/
theorem dev_write_capacity (st : module_state) (pid : Int) (e : hashtable) (b : Nat)
    (mem : Nat → data)
    (hget : get_hashtable_entry st.htable pid = some e) (hpq : e.pq = none) :
    (0 ≤ (dev_write st pid (some [b]) false (some mem)).1 ↔ 1 ≤ schar b ∧ schar b ≤ 100) ∧
    (1 ≤ schar b ∧ schar b ≤ 100 →
      (dev_write st pid (some [b]) false (some mem)).1 = 1 ∧
      ∃ q, queue_of (dev_write st pid (some [b]) false (some mem)).2 pid = some q ∧
        (q.capacity : Int) = schar b ∧ q.arr.length = q.capacity ∧ q.count = 0 ∧
        q.timer = 0 ∧ q.input_state = 1 ∧ pending q = none) ∧
    (¬ (1 ≤ schar b ∧ schar b ≤ 100) →
      dev_write st pid (some [b]) false (some mem) = (-EINVAL, st) ∧
      queue_of (dev_write st pid (some [b]) false (some mem)).2 pid = none) := by
  have hq0 : queue_of st pid = none := by
    simp only [queue_of, hget, hpq]
  by_cases hr : 1 ≤ schar b ∧ schar b ≤ 100
  · have hcond : ¬ (schar b ≤ 0 ∨ schar b > 100) := by omega
    have hw : dev_write st pid (some [b]) false (some mem) =
        (1, { st with
          htable := set_entry_pq st.htable pid (init_priority_queue (schar b).toNat (some mem)) })
        := by
      simp [dev_write, hget, hpq, hcond, set_entry_pq_twice]
    rw [hw]
    refine ⟨⟨fun _ => hr, fun _ => by show (0 : Int) ≤ 1; decide⟩, fun _ => ⟨rfl, _, queue_of_set st pid e _ hget,
      ?_, ?_, rfl, rfl, rfl, rfl⟩, fun h => absurd hr h⟩
    · show (((schar b).toNat : Nat) : Int) = schar b
      omega
    · simp
  · have hcond : schar b ≤ 0 ∨ schar b > 100 := by omega
    have hw : dev_write st pid (some [b]) false (some mem) = (-EINVAL, st) := by
      simp [dev_write, hget, hpq, hcond]
    rw [hw]
    refine ⟨⟨fun h => absurd h (by show ¬ (0 : Int) ≤ -EINVAL; decide), fun h => absurd h hr⟩, fun h => absurd h hr,
      fun _ => ⟨rfl, hq0⟩⟩

/-- Witness of C10: the byte `100` written by `tests/dummy.cpp` of Assignment 1. -/
theorem dev_write_capacity_witness :
    (get_hashtable_entry attached_state.htable 1 = some ⟨1, none⟩ ∧
      (1 ≤ schar 100 ∧ schar 100 ≤ 100)) ∧
    (dev_write attached_state 1 (some [100]) false (some (fun _ => data_default))).1 = 1 :=
  ⟨⟨by decide, by decide⟩,
    ((dev_write_capacity attached_state 1 ⟨1, none⟩ 100 (fun _ => data_default) (by decide)
      rfl).2.1 (by decide)).1⟩

end Asgn2

namespace Asgn2

theorem set_entry_pq_queue (st : module_state) (pid : Int) (e : hashtable)
    (pq : priority_queue) (hget : get_hashtable_entry st.htable pid = some e)
    (hpq : e.pq = some pq) :
    ({ st with htable := set_entry_pq st.htable pid (some pq) } : module_state) = st := by
  have : set_entry_pq st.htable pid (some pq) = st.htable := by
    rw [← hpq]; exact set_entry_pq_same _ _ _ hget
  rw [this]

/-- C11 (byte-stream write size check). For an attached client whose queue is present, a
write whose buffer is null or whose size is not exactly 4 bytes returns a negative code and
leaves the module state, hence the queue, unchanged; for an attached client whose queue is
absent, a write whose buffer is null or whose size is not exactly 1 byte returns a negative
code and leaves the module state unchanged, so the queue stays absent. This holds whether or
not the copy from the user buffer succeeds. -/
theorem dev_write_wrong_size (st : module_state) (pid : Int) (e : hashtable)
    (inbuffer : Option (List Nat)) (copy_fails : Bool) (mem : Option (Nat → data))
    (hget : get_hashtable_entry st.htable pid = some e) :
    (∀ pq, e.pq = some pq → (∀ bytes, inbuffer = some bytes → bytes.length ≠ 4) →
      (dev_write st pid inbuffer copy_fails mem).1 < 0 ∧
      (dev_write st pid inbuffer copy_fails mem).2 = st ∧
      queue_of (dev_write st pid inbuffer copy_fails mem).2 pid = some pq) ∧
    (e.pq = none → (∀ bytes, inbuffer = some bytes → bytes.length ≠ 1) →
      (dev_write st pid inbuffer copy_fails mem).1 < 0 ∧
      (dev_write st pid inbuffer copy_fails mem).2 = st ∧
      queue_of (dev_write st pid inbuffer copy_fails mem).2 pid = none) := by
  have hE1 : -EINVAL < 0 := by decide
  have hE2 : -ENOBUFS < 0 := by decide
  have hE3 : -EACCES < 0 := by decide
  constructor
  · intro pq hpq hsize
    have hq : queue_of st pid = some pq := by simp only [queue_of, hget, hpq]
    cases inbuffer with
    | none => exact ⟨hE1, rfl, hq⟩
    | some bytes =>
      have h4 := hsize bytes rfl
      simp only [dev_write, hget, hpq]
      by_cases h0 : bytes.length = 0
      · rw [if_pos h0]; exact ⟨hE1, rfl, hq⟩
      · rw [if_neg h0]
        cases copy_fails with
        | true => exact ⟨hE2, rfl, hq⟩
        | false =>
          rw [if_neg (by decide), if_pos h4]
          exact ⟨hE1, rfl, hq⟩
  · intro hpq hsize
    have hq : queue_of st pid = none := by simp only [queue_of, hget, hpq]
    cases inbuffer with
    | none => exact ⟨hE1, rfl, hq⟩
    | some bytes =>
      have h1 := hsize bytes rfl
      simp only [dev_write, hget, hpq]
      by_cases h0 : bytes.length = 0
      · rw [if_pos h0]; exact ⟨hE1, rfl, hq⟩
      · rw [if_neg h0]
        cases copy_fails with
        | true => exact ⟨hE2, rfl, hq⟩
        | false =>
          have hb : (if bytes.length < 256 then bytes.length else 256) ≠ 1 := by
            split_ifs <;> omega
          rw [if_neg (by decide), if_pos hb]
          exact ⟨hE3, rfl, hq⟩

/-- Witness of C11: a write of one byte on a present queue and of four bytes on an absent
queue. -/
theorem dev_write_wrong_size_witness :
    (get_hashtable_entry (client_state fresh3).htable 1 = some ⟨1, some fresh3⟩ ∧
      get_hashtable_entry attached_state.htable 1 = some ⟨1, none⟩) ∧
    (dev_write (client_state fresh3) 1 (some [5]) false none).1 < 0 ∧
    (dev_write (client_state fresh3) 1 (some [5]) false none).2 = client_state fresh3 ∧
    (dev_write attached_state 1 (some [5, 0, 0, 0]) false none).1 < 0 ∧
    (dev_write attached_state 1 (some [5, 0, 0, 0]) false none).2 = attached_state := by
  have h1 := (dev_write_wrong_size (client_state fresh3) 1 ⟨1, some fresh3⟩ (some [5]) false
    none (by decide)).1 fresh3 rfl (by intro b hb; cases hb; decide)
  have h2 := (dev_write_wrong_size attached_state 1 ⟨1, none⟩ (some [5, 0, 0, 0]) false
    none (by decide)).2 rfl (by intro b hb; cases hb; decide)
  exact ⟨⟨by decide, by decide⟩, h1.1, h1.2.1, h2.1, h2.2.1⟩

end Asgn2

namespace Asgn2

theorem dev_read_present (st : module_state) (pid : Int) (e : hashtable) (pq : priority_queue)
    (copy_fails : Bool) (hget : get_hashtable_entry st.htable pid = some e)
    (hpq : e.pq = some pq) :
    dev_read st pid false 4 copy_fails =
      (if ¬ copy_fails ∧ (pop_value pq).1 ≠ -INF then 4 else -EACCES,
       if copy_fails then none else some (pop_value pq).1,
       { st with htable := set_entry_pq st.htable pid (some (pop_value pq).2) }) := by
  simp only [dev_read, hget, hpq]
  rw [if_neg (by decide), if_neg (by decide)]
  split_ifs <;> rfl

/-- The byte-stream read on a non-empty queue whose root value is not `-INF`, the transfer
succeeding: it returns 4, delivers the root value and leaves the result of `pop_value`. -/
theorem dev_read_nonempty (st : module_state) (pid : Int) (e : hashtable) (pq : priority_queue)
    (hget : get_hashtable_entry st.htable pid = some e) (hpq : e.pq = some pq)
    (hne : pq.count ≠ 0) (hval : (rd pq.arr 0).value ≠ -INF) :
    (dev_read st pid false 4 false).1 = 4 ∧
    (dev_read st pid false 4 false).2.1 = some (rd pq.arr 0).value ∧
    queue_of (dev_read st pid false 4 false).2.2 pid = some (pop_value pq).2 := by
  rw [dev_read_present st pid e pq false hget hpq]
  rw [pop_value_nonempty pq hne]
  refine ⟨?_, rfl, queue_of_set st pid e _ hget⟩
  show (if ¬ (false = true) ∧ (rd pq.arr 0).value ≠ -INF then (4 : Int) else -EACCES) = 4
  rw [if_pos ⟨by decide, hval⟩]

/-- C12 (byte-stream read), evaluation of the code. The queue holds the single entry with
value `-1000000000`, a 32-bit value that equals `-INF`. A read with a buffer of 4 bytes
whose transfer succeeds pops the entry and stores its value in the user buffer, but returns
`-EACCES` instead of 4, because `dev_read` takes the value `-INF` for the answer of
`pop_value` on an empty queue. `PB2_GET_MIN` on the same state tests `count` instead and
returns `0` with the same value. -/
theorem dev_read_rejects_inf_value :
    entries inf_queue = [⟨-1000000000, 5, 0⟩] ∧ inf_queue.count = 1 ∧
    dev_read (client_state inf_queue) 1 false 4 false =
      (-EACCES, some (-1000000000), client_state (pop_value inf_queue).2) ∧
    (pop_value inf_queue).2.count = 0 ∧
    dev_ioctl (client_state inf_queue) 1 PB2_GET_MIN none false 0 none =
      (0, .int32 (-1000000000), client_state (pop_value inf_queue).2) := by
  decide

/-- C13 (extraction from an empty queue). For an attached client whose queue is present
with `count == 0`, the read with a buffer of 4 bytes and the command `PB2_GET_MIN` both
return `-EACCES` and leave the module state, hence the queue, unchanged. -/
theorem extract_from_empty (st : module_state) (pid : Int) (e : hashtable)
    (pq : priority_queue) (copy_fails : Bool) (arg : Option Int) (value0 : Int)
    (mem : Option (Nat → data))
    (hget : get_hashtable_entry st.htable pid = some e) (hpq : e.pq = some pq)
    (hz : pq.count = 0) :
    (dev_read st pid false 4 copy_fails).1 = -EACCES ∧
    (dev_read st pid false 4 copy_fails).2.2 = st ∧
    queue_of (dev_read st pid false 4 copy_fails).2.2 pid = some pq ∧
    dev_ioctl st pid PB2_GET_MIN arg copy_fails value0 mem = (-EACCES, .nothing, st) := by
  have hq : queue_of st pid = some pq := by simp only [queue_of, hget, hpq]
  rw [dev_read_present st pid e pq copy_fails hget hpq, pop_value_empty pq hz,
    set_entry_pq_queue st pid e pq hget hpq]
  refine ⟨?_, rfl, hq, ?_⟩
  · show (if ¬ (copy_fails = true) ∧ -INF ≠ -INF then (4 : Int) else -EACCES) = -EACCES
    rw [if_neg (fun h => h.2 rfl)]
  · have c1 : PB2_GET_MIN ≠ PB2_SET_CAPACITY := by decide
    have c2 : PB2_GET_MIN ≠ PB2_INSERT_INT := by decide
    have c3 : PB2_GET_MIN ≠ PB2_INSERT_PRIO := by decide
    have c4 : PB2_GET_MIN ≠ PB2_GET_INFO := by decide
    simp only [dev_ioctl, if_neg c1, if_neg c2, if_neg c3, if_neg c4, if_true, hget, hpq, hz]

/-- Witness of C13: scenario S4, extraction from the fresh queue of capacity 3. -/
theorem extract_from_empty_witness :
    (get_hashtable_entry (client_state fresh3).htable 1 = some ⟨1, some fresh3⟩ ∧
      fresh3.count = 0) ∧
    (dev_read (client_state fresh3) 1 false 4 false).1 = -EACCES ∧
    (dev_read (client_state fresh3) 1 false 4 false).2.2 = client_state fresh3 :=
  ⟨⟨by decide, rfl⟩,
    (extract_from_empty (client_state fresh3) 1 ⟨1, some fresh3⟩ fresh3 false none 0 none
      (by decide) rfl rfl).1,
    (extract_from_empty (client_state fresh3) 1 ⟨1, some fresh3⟩ fresh3 false none 0 none
      (by decide) rfl rfl).2.1⟩

end Asgn2

namespace Asgn2

theorem get_hashtable_entry_set_ne (h : List hashtable) (pid k : Int)
    (x : Option priority_queue) (hk : k ≠ pid) :
    get_hashtable_entry (set_entry_pq h pid x) k = get_hashtable_entry h k := by
  induction h with
  | nil => rfl
  | cons e t ih =>
    unfold get_hashtable_entry at *
    simp only [set_entry_pq]
    by_cases he : e.key = pid
    · have hek : e.key ≠ k := fun h2 => hk (h2.symm.trans he)
      simp [he, List.find?_cons, hek, Ne.symm hk]
    · rw [if_neg he]
      by_cases hek : e.key = k
      · simp [List.find?_cons, hek]
      · simp [List.find?_cons, hek, ih]

theorem ioctl_set_capacity_eq (st : module_state) (pid : Int) (e : hashtable) (c : Int)
    (ctf : Bool) (value0 : Int) (mem : Option (Nat → data))
    (hget : get_hashtable_entry st.htable pid = some e) :
    dev_ioctl st pid PB2_SET_CAPACITY (some c) ctf value0 mem =
      if c ≤ 0 ∨ c > 100 then (-EINVAL, .nothing, st)
      else (0, .nothing,
        { st with htable := set_entry_pq st.htable pid (init_priority_queue c.toNat mem) }) := by
  simp only [dev_ioctl, if_true, hget, set_entry_pq_twice]

/-- C14 (SET_CAPACITY). For an attached client and an argument `c` read from the user, the
allocation succeeding, `PB2_SET_CAPACITY` succeeds exactly when `1 ≤ c ≤ 100`. On success it
returns `0` and the client's queue, whether it was absent or present, is the queue made by
`init_priority_queue(c)`: capacity `c`, `c` slots, count `0`, timer `0`, no pending value
and no entry. Otherwise it returns `-EINVAL` and the module state is unchanged. -/
theorem ioctl_set_capacity (st : module_state) (pid : Int) (e : hashtable) (c : Int)
    (ctf : Bool) (value0 : Int) (mem : Nat → data)
    (hget : get_hashtable_entry st.htable pid = some e) :
    (0 ≤ (dev_ioctl st pid PB2_SET_CAPACITY (some c) ctf value0 (some mem)).1 ↔
      1 ≤ c ∧ c ≤ 100) ∧
    (1 ≤ c ∧ c ≤ 100 →
      (dev_ioctl st pid PB2_SET_CAPACITY (some c) ctf value0 (some mem)).1 = 0 ∧
      queue_of (dev_ioctl st pid PB2_SET_CAPACITY (some c) ctf value0 (some mem)).2.2 pid =
        init_priority_queue c.toNat (some mem) ∧
      ∃ q, queue_of (dev_ioctl st pid PB2_SET_CAPACITY (some c) ctf value0 (some mem)).2.2 pid
          = some q ∧
        (q.capacity : Int) = c ∧ q.arr.length = q.capacity ∧ q.count = 0 ∧ q.timer = 0 ∧
        q.input_state = 1 ∧ pending q = none ∧ entries q = []) ∧
    (¬ (1 ≤ c ∧ c ≤ 100) →
      dev_ioctl st pid PB2_SET_CAPACITY (some c) ctf value0 (some mem) =
        (-EINVAL, .nothing, st)) := by
  rw [ioctl_set_capacity_eq st pid e c ctf value0 (some mem) hget]
  by_cases hr : 1 ≤ c ∧ c ≤ 100
  · have hcond : ¬ (c ≤ 0 ∨ c > 100) := by omega
    rw [if_neg hcond]
    refine ⟨⟨fun _ => hr, fun _ => by show (0 : Int) ≤ 0; decide⟩, fun _ => ⟨rfl,
      queue_of_set st pid e _ hget, _, queue_of_set st pid e _ hget, ?_, ?_, rfl, rfl, rfl,
      rfl, rfl⟩, fun h => absurd hr h⟩
    · show ((c.toNat : Nat) : Int) = c
      omega
    · simp
  · have hcond : c ≤ 0 ∨ c > 100 := by omega
    rw [if_pos hcond]
    exact ⟨⟨fun h => absurd h (by show ¬ (0 : Int) ≤ -EINVAL; decide), fun h => absurd h hr⟩,
      fun h => absurd h hr, fun _ => rfl⟩

/-- Witness of C14: scenario S7, `SET_CAPACITY` with 200, 0 and 1 on a client whose queue
holds three entries. -/
theorem ioctl_set_capacity_witness :
    get_hashtable_entry (client_state full3).htable 1 = some ⟨1, some full3⟩ ∧
    dev_ioctl (client_state full3) 1 PB2_SET_CAPACITY (some 200) false 0
      (some (fun _ => data_default)) = (-EINVAL, .nothing, client_state full3) ∧
    dev_ioctl (client_state full3) 1 PB2_SET_CAPACITY (some 0) false 0
      (some (fun _ => data_default)) = (-EINVAL, .nothing, client_state full3) ∧
    (dev_ioctl (client_state full3) 1 PB2_SET_CAPACITY (some 1) false 0
      (some (fun _ => data_default))).1 = 0 :=
  ⟨by decide,
    (ioctl_set_capacity (client_state full3) 1 ⟨1, some full3⟩ 200 false 0
      (fun _ => data_default) (by decide)).2.2 (by decide),
    (ioctl_set_capacity (client_state full3) 1 ⟨1, some full3⟩ 0 false 0
      (fun _ => data_default) (by decide)).2.2 (by decide),
    ((ioctl_set_capacity (client_state full3) 1 ⟨1, some full3⟩ 1 false 0
      (fun _ => data_default) (by decide)).2.1 (by decide)).1⟩

theorem asgn2_value_half_pending (pq : priority_queue) (v : Int) (hc : pq.count < pq.capacity)
    (hs : pq.input_state = 1) (hlen : pq.arr.length = pq.capacity) :
    pending (push_value pq v).2 = some v := by
  have hn : pq.count < pq.arr.length := by omega
  rw [push_value_value_half pq v hc hs hlen]
  simp only [pending, rd_set, hn, and_self, if_true]
  rfl

theorem ioctl_get_info_eq (st : module_state) (pid : Int) (e : hashtable)
    (arg : Option Int) (ctf : Bool) (value0 : Int) (mem : Option (Nat → data))
    (hget : get_hashtable_entry st.htable pid = some e) :
    dev_ioctl st pid PB2_GET_INFO arg ctf value0 mem =
      match e.pq with
      | none => (-EACCES, .nothing, st)
      | some pq => if ctf then (-EACCES, .nothing, st) else (0, .info (info_of pq), st) := by
  have c1 : PB2_GET_INFO ≠ PB2_SET_CAPACITY := by decide
  have c2 : PB2_GET_INFO ≠ PB2_INSERT_INT := by decide
  have c3 : PB2_GET_INFO ≠ PB2_INSERT_PRIO := by decide
  simp only [dev_ioctl, if_neg c1, if_neg c2, if_neg c3, if_true, hget]
  cases e.pq with
  | none => rfl
  | some pq => rfl

/-- C15 (GET_INFO). For an attached client whose queue is present, `PB2_GET_INFO`, its copy
to the user succeeding, returns `0` with `prio_que_size` and `capacity` equal to the
queue's `count` and `capacity` and leaves the module state unchanged (when the copy fails it
returns `-EACCES`, again with no change). After the value half `PB2_INSERT_INT(v)` alone it
still reports the previous count. Right after a successful `PB2_SET_CAPACITY(c)` it reports
count `0` and capacity `c`. When the queue is absent it returns `-EACCES`. -/
theorem ioctl_get_info (st : module_state) (pid : Int) (e : hashtable) (arg : Option Int)
    (value0 : Int) (mem : Option (Nat → data))
    (hget : get_hashtable_entry st.htable pid = some e) :
    (∀ pq, e.pq = some pq →
      dev_ioctl st pid PB2_GET_INFO arg false value0 mem = (0, .info (info_of pq), st) ∧
      dev_ioctl st pid PB2_GET_INFO arg true value0 mem = (-EACCES, .nothing, st)) ∧
    (∀ pq v, e.pq = some pq → pq.input_state = 1 → pq.count < pq.capacity →
      pq.arr.length = pq.capacity →
      (dev_ioctl st pid PB2_INSERT_INT (some v) false value0 mem).1 = 0 ∧
      (queue_of (dev_ioctl st pid PB2_INSERT_INT (some v) false value0 mem).2.2 pid).map
        pending = some (some v) ∧
      (dev_ioctl (dev_ioctl st pid PB2_INSERT_INT (some v) false value0 mem).2.2 pid
        PB2_GET_INFO arg false value0 mem).2.1 = .info (info_of pq)) ∧
    (∀ c m, 1 ≤ c → c ≤ 100 →
      (dev_ioctl (dev_ioctl st pid PB2_SET_CAPACITY (some c) false value0 (some m)).2.2 pid
        PB2_GET_INFO arg false value0 mem).1 = 0 ∧
      (dev_ioctl (dev_ioctl st pid PB2_SET_CAPACITY (some c) false value0 (some m)).2.2 pid
        PB2_GET_INFO arg false value0 mem).2.1 = .info ⟨0, c⟩) ∧
    (e.pq = none →
      dev_ioctl st pid PB2_GET_INFO arg false value0 mem = (-EACCES, .nothing, st)) := by
  refine ⟨?_, ?_, ?_, ?_⟩
  · intro pq hpq
    rw [ioctl_get_info_eq st pid e arg false value0 mem hget,
      ioctl_get_info_eq st pid e arg true value0 mem hget, hpq]
    exact ⟨rfl, rfl⟩
  · intro pq v hpq hs hc hlen
    have c1 : PB2_INSERT_INT ≠ PB2_SET_CAPACITY := by decide
    have hins : dev_ioctl st pid PB2_INSERT_INT (some v) false value0 mem =
        (0, .nothing,
          { st with htable := set_entry_pq st.htable pid (some (push_value pq v).2) }) := by
      simp only [dev_ioctl, if_neg c1, if_true, hget, hpq,
        push_value_value_half pq v hc hs hlen]
      rw [if_neg (by decide)]
    rw [hins]
    have hget2 : get_hashtable_entry
        ({ st with htable := set_entry_pq st.htable pid (some (push_value pq v).2) }
          : module_state).htable pid = some { e with pq := some (push_value pq v).2 } := by
      show get_hashtable_entry (set_entry_pq st.htable pid _) pid = _
      rw [get_hashtable_entry_set, hget]; rfl
    refine ⟨rfl, ?_, ?_⟩
    · rw [queue_of_set st pid e _ hget]
      have := (asgn2_value_half_pending pq v hc hs hlen)
      simp only [Option.map_some', this]
    · rw [ioctl_get_info_eq _ pid _ arg false value0 mem hget2]
      simp only [Bool.false_eq_true, if_false]
      rw [push_value_value_half pq v hc hs hlen]
      rfl
  · intro c m h1 h100
    have hcond : ¬ (c ≤ 0 ∨ c > 100) := by omega
    rw [ioctl_set_capacity_eq st pid e c false value0 (some m) hget, if_neg hcond]
    have hget2 : get_hashtable_entry
        ({ st with htable := set_entry_pq st.htable pid (init_priority_queue c.toNat (some m)) }
          : module_state).htable pid =
        some { e with pq := init_priority_queue c.toNat (some m) } := by
      show get_hashtable_entry (set_entry_pq st.htable pid _) pid = _
      rw [get_hashtable_entry_set, hget]; rfl
    rw [ioctl_get_info_eq _ pid _ arg false value0 mem hget2]
    have hc : ((c.toNat : Nat) : Int) = c := by omega
    simp only [init_priority_queue, Bool.false_eq_true, if_false, info_of, hc, Nat.cast_zero,
      and_self]
  · intro hpq
    rw [ioctl_get_info_eq st pid e arg false value0 mem hget, hpq]

/-- Witness of C15: scenario S5, `GET_INFO` after `SET_CAPACITY(4)`. -/
theorem ioctl_get_info_witness :
    get_hashtable_entry attached_state.htable 1 = some ⟨1, none⟩ ∧
    (dev_ioctl (dev_ioctl attached_state 1 PB2_SET_CAPACITY (some 4) false 0
        (some (fun _ => data_default))).2.2 1 PB2_GET_INFO none false 0 none).2.1
      = .info ⟨0, 4⟩ ∧
    dev_ioctl attached_state 1 PB2_GET_INFO none false 0 none =
      (-EACCES, .nothing, attached_state) :=
  ⟨by decide,
    ((ioctl_get_info attached_state 1 ⟨1, none⟩ none 0 none (by decide)).2.2.1 4
      (fun _ => data_default) (by decide) (by decide)).2,
    (ioctl_get_info attached_state 1 ⟨1, none⟩ none 0 none (by decide)).2.2.2 rfl⟩

end Asgn2

namespace Asgn2

theorem get_hashtable_entry_cons_ne (h : List hashtable) (e : hashtable) (k : Int)
    (hk : e.key ≠ k) : get_hashtable_entry (e :: h) k = get_hashtable_entry h k := by
  simp [get_hashtable_entry, List.find?_cons, hk]

theorem get_hashtable_entry_none_iff (h : List hashtable) (k : Int) :
    get_hashtable_entry h k = none ↔ ∀ e ∈ h, e.key ≠ k := by
  simp [get_hashtable_entry, List.find?_eq_none]

/-- C16 (connect). `dev_open` returns `0` exactly when the chain holds no entry with the
client's id. Then the chain gains, in front, one entry with that id whose queue is absent,
all other entries stay as they are, and the lookup of every other id is unchanged.
Otherwise it returns `-EACCES` and the module state is unchanged. -/
theorem dev_open_connect (st : module_state) (pid : Int) :
    ((dev_open st pid).1 = 0 ↔ get_hashtable_entry st.htable pid = none) ∧
    (get_hashtable_entry st.htable pid = none →
      (dev_open st pid).2.htable = ⟨pid, none⟩ :: st.htable ∧
      get_hashtable_entry (dev_open st pid).2.htable pid = some ⟨pid, none⟩ ∧
      queue_of (dev_open st pid).2 pid = none ∧
      ∀ k, k ≠ pid →
        get_hashtable_entry (dev_open st pid).2.htable k = get_hashtable_entry st.htable k) ∧
    (get_hashtable_entry st.htable pid ≠ none → dev_open st pid = (-EACCES, st)) := by
  cases hget : get_hashtable_entry st.htable pid with
  | none =>
    have hopen : dev_open st pid =
        (0, { htable := ⟨pid, none⟩ :: st.htable,
              num_open_processes := wrap32 (st.num_open_processes + 1) }) := by
      simp only [dev_open, hget, add_process_entry]
    rw [hopen]
    refine ⟨⟨fun _ => rfl, fun _ => rfl⟩, fun _ => ⟨rfl, ?_, ?_, ?_⟩, fun h => absurd rfl h⟩
    · simp [get_hashtable_entry]
    · simp [queue_of, get_hashtable_entry]
    · intro k hk
      exact get_hashtable_entry_cons_ne _ _ _ (Ne.symm hk)
  | some e =>
    have hopen : dev_open st pid = (-EACCES, st) := by
      simp only [dev_open, hget]
    rw [hopen]
    exact ⟨⟨fun h => absurd h (by show ¬ (-EACCES = 0); decide), fun h => absurd h (by simp)⟩,
      fun h => absurd h (by simp), fun _ => rfl⟩

/-- Witness of C16: client `1` connects to the empty table, and cannot connect twice. -/
theorem dev_open_connect_witness :
    get_hashtable_entry empty_state.htable 1 = none ∧
    (dev_open empty_state 1).2.htable = [⟨1, none⟩] ∧
    dev_open attached_state 1 = (-EACCES, attached_state) :=
  ⟨by decide, ((dev_open_connect empty_state 1).2.1 (by decide)).1,
    (dev_open_connect attached_state 1).2.2 (by decide)⟩

theorem remove_process_entry_filter (h : List hashtable) (pid : Int)
    (hnd : (h.map hashtable.key).Nodup) :
    remove_process_entry h pid = h.filter (fun e => decide (e.key ≠ pid)) := by
  induction h with
  | nil => rfl
  | cons a t ih =>
    simp only [List.map_cons, List.nodup_cons] at hnd
    simp only [remove_process_entry]
    by_cases hk : a.key = pid
    · rw [if_pos hk]
      have hall : ∀ x ∈ t, decide (x.key ≠ pid) = true := by
        intro x hx
        simp only [ne_eq, decide_eq_true_eq]
        intro hxk
        exact hnd.1 (List.mem_map.2 ⟨x, hx, hxk.trans hk.symm⟩)
      have ha : decide (a.key ≠ pid) = false := by simp [hk]
      rw [List.filter_cons, ha]
      exact (List.filter_eq_self.2 hall).symm
    · rw [if_neg hk, ih hnd.2]
      have ha : decide (a.key ≠ pid) = true := by simp [hk]
      rw [List.filter_cons, ha]
      rfl

theorem remove_process_entry_absent (h : List hashtable) (pid : Int)
    (hget : get_hashtable_entry h pid = none) : remove_process_entry h pid = h := by
  induction h with
  | nil => rfl
  | cons a t ih =>
    have hall := (get_hashtable_entry_none_iff _ _).1 hget
    have ha : a.key ≠ pid := hall a (List.mem_cons_self _ _)
    have ht : get_hashtable_entry t pid = none :=
      (get_hashtable_entry_none_iff _ _).2 (fun e he => hall e (List.mem_cons_of_mem _ he))
    simp only [remove_process_entry, if_neg ha, ih ht]

theorem get_hashtable_entry_remove_ne (h : List hashtable) (pid k : Int) (hk : k ≠ pid) :
    get_hashtable_entry (remove_process_entry h pid) k = get_hashtable_entry h k := by
  induction h with
  | nil => rfl
  | cons a t ih =>
    simp only [remove_process_entry]
    by_cases ha : a.key = pid
    · rw [if_pos ha]
      have hak : a.key ≠ k := fun h2 => hk (h2.symm.trans ha)
      rw [get_hashtable_entry_cons_ne _ _ _ hak]
    · rw [if_neg ha]
      by_cases hak : a.key = k
      · simp [get_hashtable_entry, List.find?_cons, hak]
      · rw [get_hashtable_entry_cons_ne _ _ _ hak, get_hashtable_entry_cons_ne _ _ _ hak, ih]

/-- C17 (disconnect). On a chain with pairwise distinct ids, `dev_release` returns `0`;
afterwards the lookup of the client's id finds nothing, the chain is the previous chain
without the entries of that id, so every entry with another id is still there with its
queue, in the same order, and the lookup of every other id is unchanged; and when the id
had no entry the chain is unchanged. -/
theorem dev_release_disconnect (st : module_state) (pid : Int)
    (hnd : (st.htable.map hashtable.key).Nodup) :
    (dev_release st pid).1 = 0 ∧
    get_hashtable_entry (dev_release st pid).2.htable pid = none ∧
    (dev_release st pid).2.htable = st.htable.filter (fun e => decide (e.key ≠ pid)) ∧
    (∀ k, k ≠ pid →
      get_hashtable_entry (dev_release st pid).2.htable k = get_hashtable_entry st.htable k) ∧
    (get_hashtable_entry st.htable pid = none → (dev_release st pid).2.htable = st.htable) := by
  simp only [dev_release]
  refine ⟨trivial, ?_, remove_process_entry_filter _ _ hnd,
    fun k hk => get_hashtable_entry_remove_ne _ _ _ hk,
    fun h => remove_process_entry_absent _ _ h⟩
  rw [remove_process_entry_filter _ _ hnd, get_hashtable_entry_none_iff]
  intro e he
  simpa using (List.mem_filter.1 he).2

/-- Witness of C17: client `2` disconnects from the chain of the clients `1`, `2`, `3`. -/
theorem dev_release_disconnect_witness :
    ([(1 : Int), 2, 3].Nodup) ∧
    (dev_release ⟨[⟨1, none⟩, ⟨2, some fresh3⟩, ⟨3, some full3⟩], 3⟩ 2).2.htable =
      [⟨1, none⟩, ⟨3, some full3⟩] :=
  ⟨by decide,
    (dev_release_disconnect ⟨[⟨1, none⟩, ⟨2, some fresh3⟩, ⟨3, some full3⟩], 3⟩ 2
      (by decide)).2.2.1⟩

/-- C18 as stated fails: with no session for client `1`, `PB2_GET_MAX` returns `0`, and a
write or a read of zero bytes returns `-EINVAL` rather than the code `-EACCES` of a missing
session. -/
theorem get_max_without_session :
    get_hashtable_entry empty_state.htable 1 = none ∧
    dev_ioctl empty_state 1 PB2_GET_MAX (some 0) false 0 none = (0, .nothing, empty_state) ∧
    dev_write empty_state 1 (some []) false none = (-EINVAL, empty_state) ∧
    dev_read empty_state 1 false 0 false = (-EINVAL, none, empty_state) ∧
    -EINVAL ≠ -EACCES := by
  decide

/-- C18 (amended). For a client id with no entry in the chain: every byte-stream write with
a buffer that is not null, of non-zero size, whose copy from the user succeeds, every
byte-stream read with a buffer that is not null and of non-zero size, and each of the
commands `PB2_SET_CAPACITY`, `PB2_INSERT_INT`, `PB2_INSERT_PRIO`, `PB2_GET_INFO` and
`PB2_GET_MIN` returns `-EACCES`. `PB2_GET_MAX` does not look the session up and returns `0`.
Every write, read and command, with any arguments, leaves the module state unchanged, and
every one of them except `PB2_GET_MAX` returns a negative code. A write with a null buffer
or of size zero returns `-EINVAL`, a write of non-zero size whose copy from the user fails
returns `-ENOBUFS`, and a read with a null buffer or of size zero returns `-EINVAL`. -/
theorem no_session_rejected (st : module_state) (pid : Int)
    (hget : get_hashtable_entry st.htable pid = none) :
    (∀ bytes mem, bytes ≠ [] → dev_write st pid (some bytes) false mem = (-EACCES, st)) ∧
    (∀ n cf, n ≠ 0 → dev_read st pid false n cf = (-EACCES, none, st)) ∧
    (∀ cmd arg ctf value0 mem,
      cmd = PB2_SET_CAPACITY ∨ cmd = PB2_INSERT_INT ∨ cmd = PB2_INSERT_PRIO ∨
        cmd = PB2_GET_INFO ∨ cmd = PB2_GET_MIN →
      dev_ioctl st pid cmd arg ctf value0 mem = (-EACCES, .nothing, st)) ∧
    (∀ arg ctf value0 mem,
      dev_ioctl st pid PB2_GET_MAX arg ctf value0 mem = (0, .nothing, st)) ∧
    (∀ inbuffer cf mem, (dev_write st pid inbuffer cf mem).1 < 0 ∧
      (dev_write st pid inbuffer cf mem).2 = st) ∧
    (∀ nul n cf, (dev_read st pid nul n cf).1 < 0 ∧ (dev_read st pid nul n cf).2.2 = st) ∧
    (∀ cmd arg ctf value0 mem, (dev_ioctl st pid cmd arg ctf value0 mem).2.2 = st ∧
      (cmd ≠ PB2_GET_MAX → (dev_ioctl st pid cmd arg ctf value0 mem).1 < 0)) ∧
    (∀ cf mem, dev_write st pid none cf mem = (-EINVAL, st)) ∧
    (∀ cf mem, dev_write st pid (some []) cf mem = (-EINVAL, st)) ∧
    (∀ bytes mem, bytes ≠ [] → dev_write st pid (some bytes) true mem = (-ENOBUFS, st)) ∧
    (∀ n cf, dev_read st pid true n cf = (-EINVAL, none, st)) ∧
    (∀ nul cf, dev_read st pid nul 0 cf = (-EINVAL, none, st)) := by
  have hE1 : -EINVAL < 0 := by decide
  have hE2 : -ENOBUFS < 0 := by decide
  have hE3 : -EACCES < 0 := by decide
  refine ⟨?_, ?_, ?_, ?_, ?_, ?_, ?_, ?_, ?_, ?_, ?_, ?_⟩
  · intro bytes mem hb
    have h0 : bytes.length ≠ 0 := fun h => hb (List.length_eq_zero.1 h)
    simp only [dev_write, hget, if_neg h0]
    rfl
  · intro n cf hn
    simp only [dev_read, hget]
    rw [if_neg (by simp [hn])]
  · intro cmd arg ctf value0 mem hcmd
    have c21 : PB2_INSERT_INT ≠ PB2_SET_CAPACITY := by decide
    have c31 : PB2_INSERT_PRIO ≠ PB2_SET_CAPACITY := by decide
    have c32 : PB2_INSERT_PRIO ≠ PB2_INSERT_INT := by decide
    have c41 : PB2_GET_INFO ≠ PB2_SET_CAPACITY := by decide
    have c42 : PB2_GET_INFO ≠ PB2_INSERT_INT := by decide
    have c43 : PB2_GET_INFO ≠ PB2_INSERT_PRIO := by decide
    have c51 : PB2_GET_MIN ≠ PB2_SET_CAPACITY := by decide
    have c52 : PB2_GET_MIN ≠ PB2_INSERT_INT := by decide
    have c53 : PB2_GET_MIN ≠ PB2_INSERT_PRIO := by decide
    have c54 : PB2_GET_MIN ≠ PB2_GET_INFO := by decide
    rcases hcmd with h | h | h | h | h <;> subst h
    · simp only [dev_ioctl, if_true, hget]
    · simp only [dev_ioctl, if_neg c21, if_true, hget]
    · simp only [dev_ioctl, if_neg c31, if_neg c32, if_true, hget]
    · simp only [dev_ioctl, if_neg c41, if_neg c42, if_neg c43, if_true, hget]
    · simp only [dev_ioctl, if_neg c51, if_neg c52, if_neg c53, if_neg c54, if_true, hget]
  · intro arg ctf value0 mem
    have c1 : PB2_GET_MAX ≠ PB2_SET_CAPACITY := by decide
    have c2 : PB2_GET_MAX ≠ PB2_INSERT_INT := by decide
    have c3 : PB2_GET_MAX ≠ PB2_INSERT_PRIO := by decide
    have c4 : PB2_GET_MAX ≠ PB2_GET_INFO := by decide
    have c5 : PB2_GET_MAX ≠ PB2_GET_MIN := by decide
    simp only [dev_ioctl, if_neg c1, if_neg c2, if_neg c3, if_neg c4, if_neg c5, if_true]
  · intro inbuffer cf mem
    cases inbuffer with
    | none => exact ⟨hE1, rfl⟩
    | some bytes =>
      simp only [dev_write, hget]
      split_ifs
      · exact ⟨hE1, rfl⟩
      · exact ⟨hE2, rfl⟩
      · exact ⟨hE3, rfl⟩
  · intro nul n cf
    simp only [dev_read, hget]
    split_ifs
    · exact ⟨hE1, rfl⟩
    · exact ⟨hE3, rfl⟩
  · intro cmd arg ctf value0 mem
    simp only [dev_ioctl, hget]
    split_ifs with h1 h2 h3 h4 h5 h6
    · exact ⟨rfl, fun _ => hE3⟩
    · exact ⟨rfl, fun _ => hE3⟩
    · exact ⟨rfl, fun _ => hE3⟩
    · exact ⟨rfl, fun _ => hE3⟩
    · exact ⟨rfl, fun _ => hE3⟩
    · exact ⟨rfl, fun h => absurd h6 h⟩
    · exact ⟨rfl, fun _ => hE1⟩
  · intro cf mem
    rfl
  · intro cf mem
    rfl
  · intro bytes mem hb
    have h0 : bytes.length ≠ 0 := fun h => hb (List.length_eq_zero.1 h)
    simp only [dev_write, if_neg h0, if_true]
  · intro n cf
    unfold dev_read
    rw [if_pos (Or.inl rfl)]
  · intro nul cf
    unfold dev_read
    rw [if_pos (Or.inr rfl)]

/-- Witness of C18 (amended): client `1` on the empty table. -/
theorem no_session_rejected_witness :
    get_hashtable_entry empty_state.htable 1 = none ∧
    dev_write empty_state 1 (some [5]) false none = (-EACCES, empty_state) ∧
    dev_ioctl empty_state 1 PB2_GET_MIN none false 0 none = (-EACCES, .nothing, empty_state) ∧
    dev_write empty_state 1 (some [5]) true none = (-ENOBUFS, empty_state) ∧
    dev_read empty_state 1 true 4 false = (-EINVAL, none, empty_state) :=
  ⟨by decide, (no_session_rejected empty_state 1 (by decide)).1 [5] none (by decide),
    (no_session_rejected empty_state 1 (by decide)).2.2.1 PB2_GET_MIN none false 0 none
      (Or.inr (Or.inr (Or.inr (Or.inr rfl)))),
    (no_session_rejected empty_state 1 (by decide)).2.2.2.2.2.2.2.2.2.1 [5] none (by decide),
    (no_session_rejected empty_state 1 (by decide)).2.2.2.2.2.2.2.2.2.2.1 4 false⟩

end Asgn2

namespace Asgn2

/-! ### Locality of the dispatcher -/

theorem filter_set_ne (h : List hashtable) (a b : Int) (x : Option priority_queue)
    (hab : a ≠ b) :
    (set_entry_pq h a x).filter (fun e => decide (e.key = b)) =
      h.filter (fun e => decide (e.key = b)) := by
  induction h with
  | nil => rfl
  | cons e t ih =>
    simp only [set_entry_pq]
    by_cases he : e.key = a
    · rw [if_pos he]
      have h1 : decide (e.key = b) = false := by simp [he, hab]
      rw [List.filter_cons, List.filter_cons, h1]
      rfl
    · rw [if_neg he, List.filter_cons, List.filter_cons, ih]

theorem filter_remove_ne (h : List hashtable) (a b : Int) (hab : a ≠ b) :
    (remove_process_entry h a).filter (fun e => decide (e.key = b)) =
      h.filter (fun e => decide (e.key = b)) := by
  induction h with
  | nil => rfl
  | cons e t ih =>
    simp only [remove_process_entry]
    by_cases he : e.key = a
    · rw [if_pos he]
      have h1 : decide (e.key = b) = false := by simp [he, hab]
      rw [List.filter_cons, h1]
      rfl
    · rw [if_neg he, List.filter_cons, List.filter_cons, ih]

theorem filter_set_self (h : List hashtable) (b : Int) (x : Option priority_queue) :
    (set_entry_pq h b x).filter (fun e => decide (e.key = b)) =
      set_entry_pq (h.filter (fun e => decide (e.key = b))) b x := by
  induction h with
  | nil => rfl
  | cons e t ih =>
    simp only [set_entry_pq]
    by_cases he : e.key = b
    · rw [if_pos he]
      have h1 : decide (e.key = b) = true := by simp [he]
      rw [List.filter_cons, List.filter_cons, h1]
      simp only [if_true, set_entry_pq, if_pos he]
    · rw [if_neg he]
      have h1 : decide (e.key = b) = false := by simp [he]
      rw [List.filter_cons, List.filter_cons, h1, ih]
      rfl

theorem filter_remove_self (h : List hashtable) (b : Int) :
    (remove_process_entry h b).filter (fun e => decide (e.key = b)) =
      (h.filter (fun e => decide (e.key = b))).tail := by
  induction h with
  | nil => rfl
  | cons e t ih =>
    simp only [remove_process_entry]
    by_cases he : e.key = b
    · rw [if_pos he]
      have h1 : decide (e.key = b) = true := by simp [he]
      rw [List.filter_cons, h1]
      rfl
    · rw [if_neg he]
      have h1 : decide (e.key = b) = false := by simp [he]
      rw [List.filter_cons, List.filter_cons, h1, ih]
      rfl

theorem find_eq_head_filter (h : List hashtable) (b : Int) :
    h.find? (fun e => decide (e.key = b)) =
      (h.filter (fun e => decide (e.key = b))).head? := by
  induction h with
  | nil => rfl
  | cons e t ih =>
    by_cases he : e.key = b
    · have h1 : decide (e.key = b) = true := by simp [he]
      rw [List.find?_cons, List.filter_cons, h1]
      rfl
    · have h1 : decide (e.key = b) = false := by simp [he]
      rw [List.find?_cons, List.filter_cons, h1]
      exact ih

theorem get_eq_head_sessions (st : module_state) (b : Int) :
    get_hashtable_entry st.htable b = (sessions st b).head? :=
  find_eq_head_filter st.htable b

theorem sessions_set_ne (st : module_state) (a b : Int) (x : Option priority_queue)
    (hab : a ≠ b) :
    sessions { st with htable := set_entry_pq st.htable a x } b = sessions st b :=
  filter_set_ne st.htable a b x hab

end Asgn2

namespace Asgn2

theorem sessions_set_congr (st1 st2 : module_state) (b : Int) (x : Option priority_queue)
    (hs : sessions st1 b = sessions st2 b) :
    sessions { st1 with htable := set_entry_pq st1.htable b x } b =
      sessions { st2 with htable := set_entry_pq st2.htable b x } b := by
  unfold sessions at *
  simp only [filter_set_self, hs]

theorem get_congr_sessions (st1 st2 : module_state) (b : Int)
    (hs : sessions st1 b = sessions st2 b) :
    get_hashtable_entry st1.htable b = get_hashtable_entry st2.htable b := by
  rw [get_eq_head_sessions, get_eq_head_sessions, hs]

theorem dev_ioctl_cases (P : Int × user_out × module_state → Prop) (st : module_state)
    (pid : Int) (cmd : Nat) (arg : Option Int) (ctf : Bool) (value0 : Int)
    (mem : Option (Nat → data))
    (hnone : get_hashtable_entry st.htable pid = none → P (-EACCES, .nothing, st))
    (hinv : P (-EINVAL, .nothing, st))
    (hmax : P (0, .nothing, st))
    (hinfo : ∀ e pq, get_hashtable_entry st.htable pid = some e → e.pq = some pq →
      P (0, .info ⟨pq.count, pq.capacity⟩, st))
    (hacc : P (-EACCES, .nothing, st))
    (hset : ∀ r : Int, ∀ o x, (∃ e, get_hashtable_entry st.htable pid = some e) →
      P (r, o, { st with htable := set_entry_pq st.htable pid x })) :
    P (dev_ioctl st pid cmd arg ctf value0 mem) := by
  unfold dev_ioctl
  by_cases h1 : cmd = PB2_SET_CAPACITY
  · rw [if_pos h1]
    cases hg : get_hashtable_entry st.htable pid with
    | none => exact hnone hg
    | some e =>
      cases arg with
      | none => exact hinv
      | some c =>
        simp only [set_entry_pq_twice]
        split_ifs
        · exact hinv
        · exact hset _ _ _ ⟨e, hg⟩
  rw [if_neg h1]
  by_cases h2 : cmd = PB2_INSERT_INT
  · rw [if_pos h2]
    cases hg : get_hashtable_entry st.htable pid with
    | none => exact hnone hg
    | some e =>
      obtain ⟨k, q⟩ := e
      cases q with
      | none => exact hacc
      | some pq =>
        cases arg with
        | none => exact hinv
        | some c =>
          simp only []
          split_ifs
          · exact hset _ _ _ ⟨_, hg⟩
          · exact hset _ _ _ ⟨_, hg⟩
  rw [if_neg h2]
  by_cases h3 : cmd = PB2_INSERT_PRIO
  · rw [if_pos h3]
    cases hg : get_hashtable_entry st.htable pid with
    | none => exact hnone hg
    | some e =>
      obtain ⟨k, q⟩ := e
      cases q with
      | none => exact hacc
      | some pq =>
        cases arg with
        | none => exact hinv
        | some c =>
          simp only []
          split_ifs
          · exact hset _ _ _ ⟨_, hg⟩
          · exact hset _ _ _ ⟨_, hg⟩
  rw [if_neg h3]
  by_cases h4 : cmd = PB2_GET_INFO
  · rw [if_pos h4]
    cases hg : get_hashtable_entry st.htable pid with
    | none => exact hnone hg
    | some e =>
      obtain ⟨k, q⟩ := e
      cases q with
      | none => exact hacc
      | some pq =>
        simp only []
        split_ifs
        · exact hacc
        · exact hinfo _ pq hg rfl
  rw [if_neg h4]
  by_cases h5 : cmd = PB2_GET_MIN
  · rw [if_pos h5]
    cases hg : get_hashtable_entry st.htable pid with
    | none => exact hnone hg
    | some e =>
      obtain ⟨k, q⟩ := e
      cases q with
      | none => exact hacc
      | some pq =>
        simp only []
        split_ifs
        · exact hacc
        · exact hset _ _ _ ⟨_, hg⟩
        · exact hset _ _ _ ⟨_, hg⟩
  rw [if_neg h5]
  split_ifs
  · exact hmax
  · exact hinv

theorem dev_ioctl_local (st1 st2 : module_state) (b : Int) (cmd : Nat) (arg : Option Int)
    (ctf : Bool) (value0 : Int) (mem : Option (Nat → data))
    (hs : sessions st1 b = sessions st2 b) :
    (dev_ioctl st1 b cmd arg ctf value0 mem).1 = (dev_ioctl st2 b cmd arg ctf value0 mem).1 ∧
    (dev_ioctl st1 b cmd arg ctf value0 mem).2.1 =
      (dev_ioctl st2 b cmd arg ctf value0 mem).2.1 ∧
    sessions (dev_ioctl st1 b cmd arg ctf value0 mem).2.2 b =
      sessions (dev_ioctl st2 b cmd arg ctf value0 mem).2.2 b := by
  have hg := get_congr_sessions st1 st2 b hs
  have key := fun x => sessions_set_congr st1 st2 b x hs
  unfold dev_ioctl
  rw [hg]
  by_cases h1 : cmd = PB2_SET_CAPACITY
  · simp only [if_pos h1]
    rcases get_hashtable_entry st2.htable b with _ | ⟨k, q⟩
    · exact ⟨rfl, rfl, hs⟩
    · cases arg with
      | none => exact ⟨rfl, rfl, hs⟩
      | some c =>
        simp only [set_entry_pq_twice]
        split_ifs
        · exact ⟨rfl, rfl, hs⟩
        · exact ⟨rfl, rfl, key _⟩
  simp only [if_neg h1]
  by_cases h2 : cmd = PB2_INSERT_INT
  · simp only [if_pos h2]
    rcases get_hashtable_entry st2.htable b with _ | ⟨k, q⟩
    · exact ⟨rfl, rfl, hs⟩
    · cases q <;> cases arg <;> simp only [] <;> (try split_ifs)
      all_goals
        first
        | exact ⟨rfl, rfl, hs⟩
        | exact ⟨rfl, rfl, key _⟩
        | exact ⟨trivial, trivial, hs⟩
  simp only [if_neg h2]
  by_cases h3 : cmd = PB2_INSERT_PRIO
  · simp only [if_pos h3]
    rcases get_hashtable_entry st2.htable b with _ | ⟨k, q⟩
    · exact ⟨rfl, rfl, hs⟩
    · cases q <;> cases arg <;> simp only [] <;> (try split_ifs)
      all_goals
        first
        | exact ⟨rfl, rfl, hs⟩
        | exact ⟨rfl, rfl, key _⟩
        | exact ⟨trivial, trivial, hs⟩
  simp only [if_neg h3]
  by_cases h4 : cmd = PB2_GET_INFO
  · simp only [if_pos h4]
    rcases get_hashtable_entry st2.htable b with _ | ⟨k, q⟩
    · exact ⟨rfl, rfl, hs⟩
    · cases q <;> simp only [] <;> (try split_ifs)
      all_goals
        first
        | exact ⟨rfl, rfl, hs⟩
        | exact ⟨rfl, rfl, key _⟩
        | exact ⟨trivial, trivial, hs⟩
  simp only [if_neg h4]
  by_cases h5 : cmd = PB2_GET_MIN
  · simp only [if_pos h5]
    rcases get_hashtable_entry st2.htable b with _ | ⟨k, q⟩
    · exact ⟨rfl, rfl, hs⟩
    · cases q <;> simp only [] <;> (try split_ifs)
      all_goals
        first
        | exact ⟨rfl, rfl, hs⟩
        | exact ⟨rfl, rfl, key _⟩
        | exact ⟨trivial, trivial, hs⟩
  simp only [if_neg h5]
  split_ifs <;> exact ⟨rfl, rfl, hs⟩

theorem dev_write_local (st1 st2 : module_state) (b : Int) (inbuffer : Option (List Nat))
    (cf : Bool) (mem : Option (Nat → data)) (hs : sessions st1 b = sessions st2 b) :
    (dev_write st1 b inbuffer cf mem).1 = (dev_write st2 b inbuffer cf mem).1 ∧
    sessions (dev_write st1 b inbuffer cf mem).2 b =
      sessions (dev_write st2 b inbuffer cf mem).2 b := by
  have hg := get_congr_sessions st1 st2 b hs
  have key := fun x => sessions_set_congr st1 st2 b x hs
  unfold dev_write
  rw [hg]
  cases inbuffer with
  | none => exact ⟨rfl, hs⟩
  | some bytes =>
    rcases get_hashtable_entry st2.htable b with _ | ⟨k, q⟩
    · simp only []; split_ifs <;> exact ⟨rfl, hs⟩
    · cases q <;> simp only [set_entry_pq_twice] <;> (try split_ifs)
      all_goals
        first
        | exact ⟨rfl, hs⟩
        | exact ⟨rfl, key _⟩

theorem dev_read_local (st1 st2 : module_state) (b : Int) (nul : Bool) (n : Nat) (cf : Bool)
    (hs : sessions st1 b = sessions st2 b) :
    (dev_read st1 b nul n cf).1 = (dev_read st2 b nul n cf).1 ∧
    (dev_read st1 b nul n cf).2.1 = (dev_read st2 b nul n cf).2.1 ∧
    sessions (dev_read st1 b nul n cf).2.2 b = sessions (dev_read st2 b nul n cf).2.2 b := by
  have hg := get_congr_sessions st1 st2 b hs
  have key := fun x => sessions_set_congr st1 st2 b x hs
  unfold dev_read
  rw [hg]
  rcases get_hashtable_entry st2.htable b with _ | ⟨k, q⟩
  · simp only []; split_ifs <;> exact ⟨rfl, rfl, hs⟩
  · cases q <;> simp only [] <;> (try split_ifs)
    all_goals
      first
      | exact ⟨rfl, rfl, hs⟩
      | exact ⟨rfl, rfl, key _⟩

theorem dev_open_local (st1 st2 : module_state) (b : Int)
    (hs : sessions st1 b = sessions st2 b) :
    (dev_open st1 b).1 = (dev_open st2 b).1 ∧
    sessions (dev_open st1 b).2 b = sessions (dev_open st2 b).2 b := by
  have hg := get_congr_sessions st1 st2 b hs
  simp only [dev_open]
  rw [hg]
  cases get_hashtable_entry st2.htable b with
  | none =>
    refine ⟨rfl, ?_⟩
    unfold sessions at *
    simp only [add_process_entry, List.filter_cons, hs]
  | some e => exact ⟨rfl, hs⟩

theorem dev_release_local (st1 st2 : module_state) (b : Int)
    (hs : sessions st1 b = sessions st2 b) :
    (dev_release st1 b).1 = (dev_release st2 b).1 ∧
    sessions (dev_release st1 b).2 b = sessions (dev_release st2 b).2 b := by
  refine ⟨rfl, ?_⟩
  unfold sessions at *
  simp only [dev_release, filter_remove_self, hs]

/-- The reply to a request of client `b`, and the entries of `b` afterwards, depend only on
the entries of `b`. -/
theorem serve_local (st1 st2 : module_state) (b : Int) (rq : request)
    (hs : sessions st1 b = sessions st2 b) :
    (serve st1 b rq).1 = (serve st2 b rq).1 ∧
    sessions (serve st1 b rq).2 b = sessions (serve st2 b rq).2 b := by
  cases rq with
  | connect =>
    have := dev_open_local st1 st2 b hs
    simp only [serve, this.1]
    exact ⟨trivial, this.2⟩
  | disconnect =>
    have := dev_release_local st1 st2 b hs
    simp only [serve, this.1]
    exact ⟨trivial, this.2⟩
  | write inbuffer cf mem =>
    have := dev_write_local st1 st2 b inbuffer cf mem hs
    simp only [serve, this.1]
    exact ⟨trivial, this.2⟩
  | read nul n cf =>
    have := dev_read_local st1 st2 b nul n cf hs
    simp only [serve, this.1, this.2.1]
    exact ⟨trivial, this.2.2⟩
  | command cmd arg ctf value0 mem =>
    have := dev_ioctl_local st1 st2 b cmd arg ctf value0 mem hs
    simp only [serve, this.1, this.2.1]
    exact ⟨trivial, this.2.2⟩

end Asgn2

namespace Asgn2

theorem dev_ioctl_isolated (st : module_state) (a b : Int) (cmd : Nat) (arg : Option Int)
    (ctf : Bool) (value0 : Int) (mem : Option (Nat → data)) (hab : a ≠ b) :
    sessions (dev_ioctl st a cmd arg ctf value0 mem).2.2 b = sessions st b := by
  apply dev_ioctl_cases (fun r => sessions r.2.2 b = sessions st b)
  · intro _; rfl
  · rfl
  · rfl
  · intro _ _ _ _; rfl
  · rfl
  · intro _ _ x _
    exact sessions_set_ne st a b x hab

theorem dev_write_isolated (st : module_state) (a b : Int) (inbuffer : Option (List Nat))
    (cf : Bool) (mem : Option (Nat → data)) (hab : a ≠ b) :
    sessions (dev_write st a inbuffer cf mem).2 b = sessions st b := by
  have key := fun x => sessions_set_ne st a b x hab
  unfold dev_write
  cases inbuffer with
  | none => rfl
  | some bytes =>
    rcases get_hashtable_entry st.htable a with _ | ⟨k, q⟩
    · simp only []; split_ifs <;> rfl
    · cases q <;> simp only [set_entry_pq_twice] <;> (try split_ifs)
      all_goals
        first
        | rfl
        | exact key _

theorem dev_read_isolated (st : module_state) (a b : Int) (nul : Bool) (n : Nat) (cf : Bool)
    (hab : a ≠ b) : sessions (dev_read st a nul n cf).2.2 b = sessions st b := by
  have key := fun x => sessions_set_ne st a b x hab
  unfold dev_read
  rcases get_hashtable_entry st.htable a with _ | ⟨k, q⟩
  · simp only []; split_ifs <;> rfl
  · cases q <;> simp only [] <;> (try split_ifs)
    all_goals
      first
      | rfl
      | exact key _

theorem dev_open_isolated (st : module_state) (a b : Int) (hab : a ≠ b) :
    sessions (dev_open st a).2 b = sessions st b := by
  unfold dev_open
  cases get_hashtable_entry st.htable a with
  | none =>
    have h1 : decide (a = b) = false := by simp [hab]
    simp only [sessions, add_process_entry, List.filter_cons, h1]
    rfl
  | some e => rfl

theorem dev_release_isolated (st : module_state) (a b : Int) (hab : a ≠ b) :
    sessions (dev_release st a).2 b = sessions st b :=
  filter_remove_ne st.htable a b hab

/-- A request of client `a` leaves the entries of every other client `b` as they are. -/
theorem serve_isolated (st : module_state) (a b : Int) (rq : request) (hab : a ≠ b) :
    sessions (serve st a rq).2 b = sessions st b := by
  cases rq with
  | connect => exact dev_open_isolated st a b hab
  | disconnect => exact dev_release_isolated st a b hab
  | write inbuffer cf mem => exact dev_write_isolated st a b inbuffer cf mem hab
  | read nul n cf => exact dev_read_isolated st a b nul n cf hab
  | command cmd arg ctf value0 mem => exact dev_ioctl_isolated st a b cmd arg ctf value0 mem hab

theorem replies_of_cons_self (b : Int) (r : reply) (l : List (Int × reply)) :
    replies_of b ((b, r) :: l) = r :: replies_of b l := by
  simp [replies_of]

theorem replies_of_cons_ne (p b : Int) (r : reply) (l : List (Int × reply)) (hp : p ≠ b) :
    replies_of b ((p, r) :: l) = replies_of b l := by
  simp [replies_of, hp]

theorem requests_of_cons_self (b : Int) (rq : request) (l : List (Int × request)) :
    requests_of b ((b, rq) :: l) = (b, rq) :: requests_of b l := by
  simp [requests_of]

theorem requests_of_cons_ne (p b : Int) (rq : request) (l : List (Int × request))
    (hp : p ≠ b) : requests_of b ((p, rq) :: l) = requests_of b l := by
  simp [requests_of, hp]

/-- The replies that client `b` receives in a sequence of requests are those it receives
when only its own requests are served, from any state with the same entries of `b`. -/
theorem replies_purge (b : Int) (tr : List (Int × request)) :
    ∀ st1 st2 : module_state, sessions st1 b = sessions st2 b →
      replies_of b (serve_all st1 tr).1 =
        (serve_all st2 (requests_of b tr)).1.map Prod.snd ∧
      sessions (serve_all st1 tr).2 b = sessions (serve_all st2 (requests_of b tr)).2 b := by
  induction tr with
  | nil => intro st1 st2 hs; exact ⟨rfl, hs⟩
  | cons x t ih =>
    intro st1 st2 hs
    obtain ⟨p, rq⟩ := x
    by_cases hp : p = b
    · subst hp
      have hloc := serve_local st1 st2 p rq hs
      have := ih (serve st1 p rq).2 (serve st2 p rq).2 hloc.2
      rw [requests_of_cons_self]
      simp only [serve_all, replies_of_cons_self, List.map_cons]
      rw [hloc.1, this.1]
      exact ⟨rfl, this.2⟩
    · rw [requests_of_cons_ne p b rq t hp]
      simp only [serve_all, replies_of_cons_ne p b _ _ hp]
      exact ih (serve st1 p rq).2 st2 ((serve_isolated st1 p b rq hp).trans hs)

/-- C19 (isolation between clients). In every module state, for distinct clients `a` and
`b` and every request of `a` (connect, disconnect, write, read or command, with any
arguments), the entries of `b` in the chain, hence the entry found for `b` and the queue of
`b`, are the same before and after. Hence, in every sequence of requests of any clients,
the replies that `b` receives are the replies it receives when its own requests alone are
served in the same order. -/
theorem client_isolation (st : module_state) (a b : Int) (rq : request) (hab : a ≠ b)
    (tr : List (Int × request)) :
    sessions (serve st a rq).2 b = sessions st b ∧
    get_hashtable_entry (serve st a rq).2.htable b = get_hashtable_entry st.htable b ∧
    queue_of (serve st a rq).2 b = queue_of st b ∧
    replies_of b (serve_all st tr).1 = (serve_all st (requests_of b tr)).1.map Prod.snd := by
  have hs := serve_isolated st a b rq hab
  have hg : get_hashtable_entry (serve st a rq).2.htable b = get_hashtable_entry st.htable b := by
    rw [get_eq_head_sessions, get_eq_head_sessions, hs]
  refine ⟨hs, hg, ?_, (replies_purge b tr st st rfl).1⟩
  unfold queue_of
  rw [hg]

end Asgn2

namespace Asgn2

/-- Witness of C19: scenario S6, two clients with a queue each; client `2` reads `2`. -/
theorem client_isolation_witness :
    (1 : Int) ≠ 2 ∧
    replies_of 2 (serve_all empty_state two_clients).1 =
      (serve_all empty_state (requests_of 2 two_clients)).1.map Prod.snd ∧
    replies_of 2 (serve_all empty_state two_clients).1 =
      [⟨0, .nothing⟩, ⟨1, .nothing⟩, ⟨4, .nothing⟩, ⟨4, .nothing⟩, ⟨4, .int32 2⟩] :=
  ⟨by decide,
    (client_isolation empty_state 1 2 .connect (by decide) two_clients).2.2.2, by decide⟩

/-! ### Session lifecycle -/

theorem length_set_entry_pq (h : List hashtable) (b : Int) (x : Option priority_queue) :
    (set_entry_pq h b x).length = h.length := by
  induction h with
  | nil => rfl
  | cons e t ih =>
    simp only [set_entry_pq]
    split_ifs
    · rfl
    · simp only [List.length_cons, ih]

theorem sessions_set_length (st : module_state) (b : Int) (x : Option priority_queue) :
    (sessions { st with htable := set_entry_pq st.htable b x } b).length =
      (sessions st b).length := by
  unfold sessions
  simp only [filter_set_self, length_set_entry_pq]

theorem sessions_nil_of_get_none (st : module_state) (b : Int)
    (h : get_hashtable_entry st.htable b = none) : sessions st b = [] := by
  rw [get_eq_head_sessions] at h
  exact List.head?_eq_none_iff.1 h

theorem get_none_of_sessions_nil (st : module_state) (b : Int) (h : sessions st b = []) :
    get_hashtable_entry st.htable b = none := by
  rw [get_eq_head_sessions, h]; rfl

theorem sessions_after_open (st : module_state) (b : Int)
    (h : get_hashtable_entry st.htable b = none) :
    (dev_open st b).1 = 0 ∧ sessions (dev_open st b).2 b = [⟨b, none⟩] := by
  have hs := sessions_nil_of_get_none st b h
  unfold sessions at *
  simp [dev_open, h, add_process_entry, List.filter_cons, hs]

theorem get_none_of_open_ok (st : module_state) (b : Int) (h : (dev_open st b).1 = 0) :
    get_hashtable_entry st.htable b = none := by
  cases hg : get_hashtable_entry st.htable b with
  | none => rfl
  | some e =>
    simp only [dev_open, hg] at h
    exact absurd h (by decide)

theorem dev_ioctl_sessions_length (st : module_state) (b : Int) (cmd : Nat)
    (arg : Option Int) (ctf : Bool) (value0 : Int) (mem : Option (Nat → data)) :
    (sessions (dev_ioctl st b cmd arg ctf value0 mem).2.2 b).length =
      (sessions st b).length := by
  apply dev_ioctl_cases (fun r => (sessions r.2.2 b).length = (sessions st b).length)
  · intro _; rfl
  · rfl
  · rfl
  · intro _ _ _ _; rfl
  · rfl
  · intro _ _ x _
    exact sessions_set_length st b x

theorem dev_write_sessions_length (st : module_state) (b : Int)
    (inbuffer : Option (List Nat)) (cf : Bool) (mem : Option (Nat → data)) :
    (sessions (dev_write st b inbuffer cf mem).2 b).length = (sessions st b).length := by
  have key := fun x => sessions_set_length st b x
  unfold dev_write
  cases inbuffer with
  | none => rfl
  | some bytes =>
    rcases get_hashtable_entry st.htable b with _ | ⟨k, q⟩
    · simp only []; split_ifs <;> rfl
    · cases q <;> simp only [set_entry_pq_twice] <;> (try split_ifs)
      all_goals
        first
        | rfl
        | exact key _

theorem dev_read_sessions_length (st : module_state) (b : Int) (nul : Bool) (n : Nat)
    (cf : Bool) : (sessions (dev_read st b nul n cf).2.2 b).length = (sessions st b).length := by
  have key := fun x => sessions_set_length st b x
  unfold dev_read
  rcases get_hashtable_entry st.htable b with _ | ⟨k, q⟩
  · simp only []; split_ifs <;> rfl
  · cases q <;> simp only [] <;> (try split_ifs)
    all_goals
      first
      | rfl
      | exact key _

theorem serve_keeps_session (st : module_state) (p b : Int) (rq : request)
    (hrq : p = b → rq.is_disconnect = false) (hone : (sessions st b).length = 1) :
    (sessions (serve st p rq).2 b).length = 1 := by
  by_cases hp : p = b
  · subst hp
    cases rq with
    | connect =>
      have hg : get_hashtable_entry st.htable p ≠ none := by
        intro h
        rw [sessions_nil_of_get_none st p h] at hone
        exact absurd hone (by decide)
      simp only [serve, dev_open]
      cases hget : get_hashtable_entry st.htable p with
      | none => exact absurd hget hg
      | some e => exact hone
    | disconnect => exact absurd (hrq rfl) (by decide)
    | write inbuffer cf mem => exact (dev_write_sessions_length st p inbuffer cf mem).trans hone
    | read nul n cf => exact (dev_read_sessions_length st p nul n cf).trans hone
    | command cmd arg ctf value0 mem =>
      exact (dev_ioctl_sessions_length st p cmd arg ctf value0 mem).trans hone
  · rw [serve_isolated st p b rq hp]
    exact hone

theorem serve_all_keeps_session (b : Int) (tr : List (Int × request)) :
    ∀ st : module_state, (∀ x ∈ tr, x.1 = b → x.2.is_disconnect = false) →
      (sessions st b).length = 1 → (sessions (serve_all st tr).2 b).length = 1 := by
  induction tr with
  | nil => intro st _ h; exact h
  | cons x t ih =>
    intro st hno hone
    obtain ⟨p, rq⟩ := x
    simp only [serve_all]
    apply ih
    · intro y hy
      exact hno y (List.mem_cons_of_mem _ hy)
    · exact serve_keeps_session st p b rq (hno (p, rq) (List.mem_cons_self _ _)) hone

theorem second_session_sessions (st0 : module_state) (pid : Int) (tr : List (Int × request))
    (hconn : (dev_open st0 pid).1 = 0)
    (hno : ∀ x ∈ tr, x.1 = pid → x.2.is_disconnect = false) :
    (dev_open (dev_release (serve_all (dev_open st0 pid).2 tr).2 pid).2 pid).1 = 0 ∧
    sessions (second_session st0 pid tr) pid = [⟨pid, none⟩] := by
  have h0 := get_none_of_open_ok st0 pid hconn
  have h1 := (sessions_after_open st0 pid h0).2
  have h2 := serve_all_keeps_session pid tr (dev_open st0 pid).2 hno (by rw [h1]; rfl)
  have h3 : sessions (dev_release (serve_all (dev_open st0 pid).2 tr).2 pid).2 pid = [] := by
    have : sessions (dev_release (serve_all (dev_open st0 pid).2 tr).2 pid).2 pid =
        (sessions (serve_all (dev_open st0 pid).2 tr).2 pid).tail :=
      filter_remove_self _ _
    rw [this]
    apply List.length_eq_zero.1
    rw [List.length_tail, h2]
  exact sessions_after_open _ pid (get_none_of_sessions_nil _ _ h3)

theorem absent_queue_rejected (st : module_state) (pid : Int)
    (hget : get_hashtable_entry st.htable pid = some ⟨pid, none⟩) :
    (∀ bytes mem, bytes.length = 4 → dev_write st pid (some bytes) false mem = (-EACCES, st)) ∧
    (∀ cf, dev_read st pid false 4 cf = (-EACCES, none, st)) ∧
    (∀ cmd arg ctf value0 mem,
      cmd = PB2_INSERT_INT ∨ cmd = PB2_INSERT_PRIO ∨ cmd = PB2_GET_MIN ∨ cmd = PB2_GET_INFO →
      dev_ioctl st pid cmd arg ctf value0 mem = (-EACCES, .nothing, st)) := by
  refine ⟨?_, ?_, ?_⟩
  · intro bytes mem hb
    have h0 : bytes.length ≠ 0 := by omega
    have h1 : (if bytes.length < 256 then bytes.length else 256) ≠ 1 := by
      split_ifs <;> omega
    simp only [dev_write, hget, if_neg h0]
    rw [if_neg (by decide), if_pos h1]
  · intro cf
    simp only [dev_read, hget]
    rw [if_neg (by decide)]
  · intro cmd arg ctf value0 mem hcmd
    have c21 : PB2_INSERT_INT ≠ PB2_SET_CAPACITY := by decide
    have c31 : PB2_INSERT_PRIO ≠ PB2_SET_CAPACITY := by decide
    have c32 : PB2_INSERT_PRIO ≠ PB2_INSERT_INT := by decide
    have c41 : PB2_GET_INFO ≠ PB2_SET_CAPACITY := by decide
    have c42 : PB2_GET_INFO ≠ PB2_INSERT_INT := by decide
    have c43 : PB2_GET_INFO ≠ PB2_INSERT_PRIO := by decide
    have c51 : PB2_GET_MIN ≠ PB2_SET_CAPACITY := by decide
    have c52 : PB2_GET_MIN ≠ PB2_INSERT_INT := by decide
    have c53 : PB2_GET_MIN ≠ PB2_INSERT_PRIO := by decide
    have c54 : PB2_GET_MIN ≠ PB2_GET_INFO := by decide
    rcases hcmd with h | h | h | h <;> subst h
    · simp only [dev_ioctl, if_neg c21, if_true, hget]
    · simp only [dev_ioctl, if_neg c31, if_neg c32, if_true, hget]
    · simp only [dev_ioctl, if_neg c51, if_neg c52, if_neg c53, if_neg c54, if_true, hget]
    · simp only [dev_ioctl, if_neg c41, if_neg c42, if_neg c43, if_true, hget]

theorem get_info_after_set_capacity (st : module_state) (pid : Int) (e : hashtable)
    (c : Int) (m : Nat → data) (arg : Option Int) (value0 : Int) (mem : Option (Nat → data))
    (hget : get_hashtable_entry st.htable pid = some e) (h1 : 1 ≤ c) (h100 : c ≤ 100) :
    (dev_ioctl st pid PB2_SET_CAPACITY (some c) false value0 (some m)).1 = 0 ∧
    (dev_ioctl (dev_ioctl st pid PB2_SET_CAPACITY (some c) false value0 (some m)).2.2 pid
      PB2_GET_INFO arg false value0 mem).1 = 0 ∧
    (dev_ioctl (dev_ioctl st pid PB2_SET_CAPACITY (some c) false value0 (some m)).2.2 pid
      PB2_GET_INFO arg false value0 mem).2.1 = .info ⟨0, c⟩ := by
  have hcond : ¬ (c ≤ 0 ∨ c > 100) := by omega
  rw [ioctl_set_capacity_eq st pid e c false value0 (some m) hget, if_neg hcond]
  have hget2 : get_hashtable_entry
      ({ st with htable := set_entry_pq st.htable pid (init_priority_queue c.toNat (some m)) }
        : module_state).htable pid =
      some { e with pq := init_priority_queue c.toNat (some m) } := by
    show get_hashtable_entry (set_entry_pq st.htable pid _) pid = _
    rw [get_hashtable_entry_set, hget]; rfl
  rw [ioctl_get_info_eq _ pid _ arg false value0 mem hget2]
  have hc : ((c.toNat : Nat) : Int) = c := by omega
  simp only [init_priority_queue, Bool.false_eq_true, if_false, info_of, hc, Nat.cast_zero,
    and_self]

/-- C20 (session lifecycle). Client `pid` connects successfully; any requests of any
clients are served, none of them a disconnect of `pid`; then `pid` disconnects. A second
connect of `pid` returns `0` and leaves exactly one entry for `pid`, with the queue absent.
In that state an insertion (4-byte write, `PB2_INSERT_INT`, `PB2_INSERT_PRIO`), an
extraction (4-byte read, `PB2_GET_MIN`) and `PB2_GET_INFO` return `-EACCES` and change
nothing; after
`PB2_SET_CAPACITY(c)` with `1 ≤ c ≤ 100`, `PB2_GET_INFO` reports count `0` and capacity
`c`; and the replies `pid` receives from then on, in any sequence of requests, are those it
would receive as the only client of a module in which it has just connected: nothing of
the first session is observable. -/
theorem session_lifecycle (st0 : module_state) (pid : Int) (tr : List (Int × request))
    (hconn : (dev_open st0 pid).1 = 0)
    (hno : ∀ x ∈ tr, x.1 = pid → x.2.is_disconnect = false) :
    (dev_open (dev_release (serve_all (dev_open st0 pid).2 tr).2 pid).2 pid).1 = 0 ∧
    sessions (second_session st0 pid tr) pid = [⟨pid, none⟩] ∧
    queue_of (second_session st0 pid tr) pid = none ∧
    (∀ bytes mem, bytes.length = 4 →
      dev_write (second_session st0 pid tr) pid (some bytes) false mem =
        (-EACCES, second_session st0 pid tr)) ∧
    (∀ cf, dev_read (second_session st0 pid tr) pid false 4 cf =
      (-EACCES, none, second_session st0 pid tr)) ∧
    (∀ cmd arg ctf value0 mem,
      cmd = PB2_INSERT_INT ∨ cmd = PB2_INSERT_PRIO ∨ cmd = PB2_GET_MIN ∨ cmd = PB2_GET_INFO →
      dev_ioctl (second_session st0 pid tr) pid cmd arg ctf value0 mem =
        (-EACCES, .nothing, second_session st0 pid tr)) ∧
    (∀ c m arg value0 mem, 1 ≤ c → c ≤ 100 →
      (dev_ioctl (second_session st0 pid tr) pid PB2_SET_CAPACITY (some c) false value0
        (some m)).1 = 0 ∧
      (dev_ioctl (dev_ioctl (second_session st0 pid tr) pid PB2_SET_CAPACITY (some c) false
        value0 (some m)).2.2 pid PB2_GET_INFO arg false value0 mem).1 = 0 ∧
      (dev_ioctl (dev_ioctl (second_session st0 pid tr) pid PB2_SET_CAPACITY (some c) false
        value0 (some m)).2.2 pid PB2_GET_INFO arg false value0 mem).2.1 = .info ⟨0, c⟩) ∧
    (∀ tr2, replies_of pid (serve_all (second_session st0 pid tr) tr2).1 =
      (serve_all (only_client pid) (requests_of pid tr2)).1.map Prod.snd) := by
  obtain ⟨hopen, hs⟩ := second_session_sessions st0 pid tr hconn hno
  have hget : get_hashtable_entry (second_session st0 pid tr).htable pid =
      some ⟨pid, none⟩ := by
    rw [get_eq_head_sessions, hs]; rfl
  have hrej := absent_queue_rejected _ pid hget
  refine ⟨hopen, hs, ?_, hrej.1, hrej.2.1, hrej.2.2, ?_, ?_⟩
  · simp only [queue_of, hget]
  · intro c m arg value0 mem h1 h100
    exact get_info_after_set_capacity _ pid _ c m arg value0 mem hget h1 h100
  · intro tr2
    have hs2 : sessions (second_session st0 pid tr) pid = sessions (only_client pid) pid := by
      rw [hs]
      simp [sessions, only_client]
    exact (replies_purge pid tr2 _ _ hs2).1

/-- Witness of C20: client `1` sets capacity 3 and inserts `(7, 1)`, disconnects and connects
again; a read then fails and, after capacity 2 is set, the queue is empty. -/
theorem session_lifecycle_witness :
    ((dev_open empty_state 1).1 = 0 ∧
      ∀ x ∈ first_session, x.1 = 1 → x.2.is_disconnect = false) ∧
    queue_of (serve_all (dev_open empty_state 1).2 first_session).2 1 ≠ none ∧
    queue_of (second_session empty_state 1 first_session) 1 = none ∧
    dev_read (second_session empty_state 1 first_session) 1 false 4 false =
      (-EACCES, none, second_session empty_state 1 first_session) :=
  ⟨⟨by decide, by decide⟩, by decide,
    (session_lifecycle empty_state 1 first_session (by decide) (by decide)).2.2.1,
    (session_lifecycle empty_state 1 first_session (by decide) (by decide)).2.2.2.2.1 false⟩

end Asgn2

/-! ## Heap order on the children -/

theorem heap_children_ordered_iff (arr : List data) (count : Nat) :
    heap_children_ordered arr count ↔ heap_ordered arr count := by
  constructor
  · intro h i hi h0
    exact h ((i - 1) / 2) i (by omega) (by omega) hi
  · intro h i c hi hc hcn
    have := h c hcn (by omega)
    have hp : (c - 1) / 2 = i := by omega
    rw [hp] at this
    exact this

namespace Asgn2

/-- C23 (heap order is an invariant). If in `arr[0..count)` no entry comes after one of its
children, then the same holds after a completed insertion, that is the value half followed
by the priority half with `p ≥ 0` on a queue with no pending value and `count < capacity`,
and after `pop_value` on a non-empty queue. No assumption on the `in_time` of the new entry
is needed. -/
theorem heap_order_invariant (pq : priority_queue) (v p : Int)
    (hheap : heap_children_ordered pq.arr pq.count)
    (hcap : pq.count ≤ pq.capacity) (hlen : pq.arr.length = pq.capacity) :
    (pq.input_state = 1 → pq.count < pq.capacity → 0 ≤ p →
      (push_value pq v).1 = 0 ∧ (push_value (push_value pq v).2 p).1 = 0 ∧
      (push_value (push_value pq v).2 p).2.count = pq.count + 1 ∧
      heap_children_ordered (push_value (push_value pq v).2 p).2.arr
        (push_value (push_value pq v).2 p).2.count) ∧
    (pq.count ≠ 0 →
      (pop_value pq).2.count = pq.count - 1 ∧
      heap_children_ordered (pop_value pq).2.arr (pop_value pq).2.count) := by
  rw [heap_children_ordered_iff] at hheap
  constructor
  · intro hs hc hp
    obtain ⟨e1, e2⟩ := push_pair_eq pq v p hc hs hlen hp
    rw [e2]
    refine ⟨e1, rfl, rfl, ?_⟩
    rw [heap_children_ordered_iff]
    exact sift_up_heap pq.arr pq.count _ (by omega) hheap
  · intro hne
    rw [pop_value_nonempty pq hne]
    refine ⟨rfl, ?_⟩
    rw [heap_children_ordered_iff]
    exact sift_down_heap pq.arr pq.count (by omega) (Nat.pos_of_ne_zero hne) hheap

/-- Witness of C23: insertion of `(12, 5)` into, and extraction from, the heap
`{10, 5, 0}`, `{11, 5, 1}`. -/
theorem heap_order_invariant_witness :
    (heap_children_ordered (insert_all fresh3 [10, 11] 5).2.arr
        (insert_all fresh3 [10, 11] 5).2.count ∧
      (insert_all fresh3 [10, 11] 5).2.count ≤ (insert_all fresh3 [10, 11] 5).2.capacity ∧
      (insert_all fresh3 [10, 11] 5).2.arr.length = (insert_all fresh3 [10, 11] 5).2.capacity) ∧
    heap_children_ordered
      (push_value (push_value (insert_all fresh3 [10, 11] 5).2 12).2 5).2.arr
      (push_value (push_value (insert_all fresh3 [10, 11] 5).2 12).2 5).2.count ∧
    heap_children_ordered (pop_value (insert_all fresh3 [10, 11] 5).2).2.arr
      (pop_value (insert_all fresh3 [10, 11] 5).2).2.count := by
  have hh : heap_children_ordered (insert_all fresh3 [10, 11] 5).2.arr
      (insert_all fresh3 [10, 11] 5).2.count := by
    rw [heap_children_ordered_iff]; decide
  have h := heap_order_invariant (insert_all fresh3 [10, 11] 5).2 12 5 hh (by decide)
    (by decide)
  exact ⟨⟨hh, by decide, by decide⟩, (h.1 (by decide) (by decide) (by decide)).2.2.2,
    (h.2 (by decide)).2⟩

end Asgn2

/-! ## Termination of the sift procedures -/

theorem heapify_bottom_top_run_eq (fuel : Nat) :
    ∀ (arr : List data) (index : Nat), index ≤ fuel →
      heapify_bottom_top_run fuel arr index = some (heapify_bottom_top arr index) := by
  induction fuel with
  | zero =>
    intro arr index h
    have h0 : index = 0 := by omega
    subst h0
    rfl
  | succ f ih =>
    intro arr index h
    rw [heapify_bottom_top_eq]
    simp only [heapify_bottom_top_run]
    split_ifs with h0 hp
    · exact ih _ _ (by omega)
    · rfl
    · rfl

theorem heapify_top_bottom_run_eq (count fuel : Nat) :
    ∀ (arr : List data) (parent_index : Nat), parent_index < count →
      count - parent_index ≤ fuel →
      heapify_top_bottom_run fuel arr count parent_index =
        some (heapify_top_bottom arr count parent_index) := by
  induction fuel with
  | zero => intro arr parent_index hp h; omega
  | succ f ih =>
    intro arr parent_index hp h
    rw [heapify_top_bottom_eq]
    simp only [heapify_top_bottom_run]
    rcases smallest_of_cases arr count parent_index with hc | hc
    · rw [if_neg (by simpa using hc.1), if_neg (by simpa using hc.1)]
    · rw [if_pos hc.1, if_pos hc.1]
      obtain ⟨_, hsn, hs0, hsp, _, _⟩ := hc
      exact ih _ _ hsn (by omega)

theorem smallest_of_eq_self_iff (arr : List data) (count k : Nat) :
    smallest_of arr count k = k ↔
      ∀ c, (c = k * 2 + 1 ∨ c = k * 2 + 2) → c < count → ¬ precedes (rd arr c) (rd arr k) := by
  rcases smallest_of_cases arr count k with hc | hc
  · refine ⟨fun _ c hcc hcn => hc.2 c hcn (by omega) (by omega), fun _ => hc.1⟩
  · obtain ⟨hne, hsn, hs0, hsp, hprec, _⟩ := hc
    refine ⟨fun h => absurd h hne, fun h => ?_⟩
    exact absurd hprec (h _ (by omega) hsn)

/-- C28 (the sift procedures terminate). For every array and every `count` (in particular
`count ≤ capacity ≤ 100`): from every start `index ≤ count` the loop of `heapify_bottom_top`
is left after the body has been entered at most `count` times, and from every start
`parent_index < count` the recursion of `heapify_top_bottom` ends within `count` calls; the
bounded runs give the result of the procedures. The loop goes on exactly while `index ≠ 0` and the entry at `index` comes before
its parent, and then moves to the parent, a smaller index. The recursion stops exactly when
no child of the node below `count` comes before it, and otherwise calls itself on a child, a
larger index below `count`. -/
theorem sift_terminates (arr : List data) (count index parent_index fuel : Nat)
    (hidx : index ≤ count) (hpar : parent_index < count) (hfuel : count ≤ fuel) :
    heapify_bottom_top_run fuel arr index = some (heapify_bottom_top arr index) ∧
    heapify_top_bottom_run fuel arr count parent_index =
      some (heapify_top_bottom arr count parent_index) ∧
    (index = 0 ∨ ¬ precedes (rd arr index) (rd arr ((index - 1) / 2)) →
      heapify_bottom_top arr index = arr) ∧
    (index ≠ 0 ∧ precedes (rd arr index) (rd arr ((index - 1) / 2)) →
      (index - 1) / 2 < index ∧
      heapify_bottom_top arr index =
        heapify_bottom_top (swap_slots arr ((index - 1) / 2) index) ((index - 1) / 2)) ∧
    ((∀ c, (c = parent_index * 2 + 1 ∨ c = parent_index * 2 + 2) → c < count →
        ¬ precedes (rd arr c) (rd arr parent_index)) →
      heapify_top_bottom arr count parent_index = arr) ∧
    (¬ (∀ c, (c = parent_index * 2 + 1 ∨ c = parent_index * 2 + 2) → c < count →
        ¬ precedes (rd arr c) (rd arr parent_index)) →
      parent_index < smallest_of arr count parent_index ∧
      smallest_of arr count parent_index < count ∧
      heapify_top_bottom arr count parent_index =
        heapify_top_bottom (swap_slots arr (smallest_of arr count parent_index) parent_index)
          count (smallest_of arr count parent_index)) := by
  refine ⟨heapify_bottom_top_run_eq fuel arr index (by omega),
    heapify_top_bottom_run_eq count fuel arr parent_index hpar (by omega), ?_, ?_, ?_, ?_⟩
  · intro h
    rw [heapify_bottom_top_eq]
    rcases h with h | h
    · rw [if_neg (by simpa using h)]
    · split_ifs <;> rfl
  · intro h
    refine ⟨by omega, ?_⟩
    rw [heapify_bottom_top_eq arr index, if_pos h.1, if_pos h.2]
  · intro h
    rw [heapify_top_bottom_eq, if_neg (by simpa using (smallest_of_eq_self_iff arr count _).2 h)]
  · intro h
    have hne : smallest_of arr count parent_index ≠ parent_index :=
      fun he => h ((smallest_of_eq_self_iff arr count _).1 he)
    rcases smallest_of_cases arr count parent_index with hc | hc
    · exact absurd hc.1 hne
    · obtain ⟨_, hsn, hs0, hsp, _, _⟩ := hc
      refine ⟨by omega, hsn, ?_⟩
      rw [heapify_top_bottom_eq arr count parent_index, if_pos hne]

/-- Witness of C28: sifting the last entry of three up, and the root of three down. -/
theorem sift_terminates_witness :
    ((2 : Nat) ≤ 3 ∧ (0 : Nat) < 3 ∧ (3 : Nat) ≤ 3) ∧
    heapify_bottom_top_run 3 [⟨1, 5, 0⟩, ⟨2, 3, 1⟩, ⟨3, 1, 2⟩] 2 =
      some [⟨3, 1, 2⟩, ⟨2, 3, 1⟩, ⟨1, 5, 0⟩] ∧
    heapify_top_bottom_run 3 [⟨1, 5, 0⟩, ⟨2, 3, 1⟩, ⟨3, 1, 2⟩] 3 0 =
      some [⟨3, 1, 2⟩, ⟨2, 3, 1⟩, ⟨1, 5, 0⟩] := by
  have h := sift_terminates [⟨1, 5, 0⟩, ⟨2, 3, 1⟩, ⟨3, 1, 2⟩] 3 2 0 3 (by decide)
    (by decide) (by decide)
  exact ⟨⟨by decide, by decide, by decide⟩, h.1, h.2.1⟩

namespace Asgn2

/-! ### Failure paths that leave the state unchanged -/

theorem push_value_error_keeps (pq : priority_queue) (n : Int)
    (h : (push_value pq n).1 < 0) : (push_value pq n).2 = pq := by
  unfold push_value at h ⊢
  split_ifs at h ⊢
  · rfl
  · (simp at h)
  · rfl
  · (simp at h)

theorem dev_open_error_keeps (st : module_state) (pid : Int) (h : (dev_open st pid).1 < 0) :
    (dev_open st pid).2 = st := by
  unfold dev_open at h ⊢
  rcases hget : get_hashtable_entry st.htable pid with _ | e
  · rw [hget] at h
    simp at h
  · rfl

theorem dev_write_error_keeps (st : module_state) (pid : Int) (inbuffer : Option (List Nat))
    (cf : Bool) (mem : Option (Nat → data)) (h : (dev_write st pid inbuffer cf mem).1 < 0) :
    (dev_write st pid inbuffer cf mem).2 = st := by
  unfold dev_write at h ⊢
  cases inbuffer with
  | none => rfl
  | some bytes =>
    rcases hget : get_hashtable_entry st.htable pid with _ | ⟨k, q⟩
    · simp only []; split_ifs <;> rfl
    · rw [hget] at h
      cases q with
      | none =>
        simp only [] at h ⊢
        split_ifs at h ⊢
        all_goals
          first
          | rfl
          | (exfalso; omega)
      | some pq =>
        simp only [] at h ⊢
        split_ifs at h ⊢ with h1 h2 h3 h4
        all_goals
          first
          | rfl
          | (rw [push_value_error_keeps pq _ h4]
             exact set_entry_pq_queue st pid _ pq hget rfl)
          | (simp at h)

theorem dev_ioctl_error_keeps (st : module_state) (pid : Int) (cmd : Nat) (arg : Option Int)
    (ctf : Bool) (value0 : Int) (mem : Option (Nat → data)) (hcmd : cmd ≠ PB2_GET_MIN)
    (h : (dev_ioctl st pid cmd arg ctf value0 mem).1 < 0) :
    (dev_ioctl st pid cmd arg ctf value0 mem).2.2 = st := by
  by_cases c1 : cmd = PB2_SET_CAPACITY
  · simp only [dev_ioctl, if_pos c1] at h ⊢
    rcases hget : get_hashtable_entry st.htable pid with _ | e
    · rfl
    · rw [hget] at h
      cases arg with
      | none => rfl
      | some pq_size =>
        simp only [] at h ⊢
        split_ifs at h ⊢
        · rfl
        · (simp at h)
  by_cases c2 : cmd = PB2_INSERT_INT
  · simp only [dev_ioctl, if_neg c1, if_pos c2] at h ⊢
    rcases hget : get_hashtable_entry st.htable pid with _ | ⟨k, q⟩
    · rfl
    · rw [hget] at h
      cases q with
      | none => rfl
      | some pq =>
        cases arg with
        | none => rfl
        | some v =>
          simp only [] at h ⊢
          split_ifs at h ⊢ with h4
          · rw [push_value_error_keeps pq _ h4]
            exact set_entry_pq_queue st pid _ pq hget rfl
          · (simp at h)
  by_cases c3 : cmd = PB2_INSERT_PRIO
  · simp only [dev_ioctl, if_neg c1, if_neg c2, if_pos c3] at h ⊢
    rcases hget : get_hashtable_entry st.htable pid with _ | ⟨k, q⟩
    · rfl
    · rw [hget] at h
      cases q with
      | none => rfl
      | some pq =>
        cases arg with
        | none => rfl
        | some v =>
          simp only [] at h ⊢
          split_ifs at h ⊢ with h4
          · rw [push_value_error_keeps pq _ h4]
            exact set_entry_pq_queue st pid _ pq hget rfl
          · (simp at h)
  by_cases c4 : cmd = PB2_GET_INFO
  · simp only [dev_ioctl, if_neg c1, if_neg c2, if_neg c3, if_pos c4]
    rcases get_hashtable_entry st.htable pid with _ | ⟨k, q⟩
    · rfl
    · cases q with
      | none => rfl
      | some pq => simp only []; split_ifs <;> rfl
  simp only [dev_ioctl, if_neg c1, if_neg c2, if_neg c3, if_neg c4, if_neg hcmd]
  split_ifs <;> rfl

theorem dev_read_error_keeps (st : module_state) (pid : Int) (nul : Bool) (n : Nat)
    (h : (dev_read st pid nul n false).1 < 0)
    (hinf : (dev_read st pid nul n false).2.1 ≠ some (-INF)) :
    (dev_read st pid nul n false).2.2 = st := by
  unfold dev_read at h hinf ⊢
  rcases hget : get_hashtable_entry st.htable pid with _ | ⟨k, q⟩
  · simp only []; split_ifs <;> rfl
  · rw [hget] at h hinf
    cases q with
    | none => simp only []; split_ifs <;> rfl
    | some pq =>
      simp only [] at h hinf ⊢
      split_ifs at h hinf ⊢ with h1 h2 h3
      all_goals
        first
        | rfl
        | contradiction
        | (exfalso
           apply hinf
           simp only [Bool.false_eq_true, not_false_eq_true, true_and, not_not] at h3
           simp [h3])

end Asgn2

namespace Asgn2

/-- C21 (no state change on a failure path), evaluation of the code. Client `1` is attached
and its queue holds the single entry `(7, 1)`. A read with a buffer of 4 bytes whose
`copy_to_user` fails returns `-EACCES`, and so does `PB2_GET_MIN` with a failing
`copy_to_user`, but both have already called `pop_value`: the queue of the client is left
with `count == 0` and the entry is lost. A read whose transfer succeeds, on a queue whose
root has the value `-INF`, also returns `-EACCES` after the entry has been removed. -/
theorem failed_transfer_pops :
    (queue_of one_entry_state 1).map entries = some [⟨7, 1, 0⟩] ∧
    (serve one_entry_state 1 (.read false 4 true)).1 = ⟨-EACCES, .nothing⟩ ∧
    (queue_of (serve one_entry_state 1 (.read false 4 true)).2 1).map entries = some [] ∧
    (serve one_entry_state 1 (.read false 4 true)).2 ≠ one_entry_state ∧
    (serve one_entry_state 1 (.command PB2_GET_MIN none true 0 none)).1 =
      ⟨-EACCES, .nothing⟩ ∧
    (queue_of (serve one_entry_state 1 (.command PB2_GET_MIN none true 0 none)).2 1).map
      entries = some [] ∧
    (dev_read (client_state inf_queue) 1 false 4 false).1 = -EACCES ∧
    (dev_read (client_state inf_queue) 1 false 4 false).2.2 ≠ client_state inf_queue := by
  decide

/-- C22 (distinct error codes), counterexample. A 4-byte write to the full queue `full3`
and a 4-byte write of the negative priority `-1` to the queue `half3`, which awaits a
priority, return the same code `-EACCES`; a read by a client that is not attached, a read
by a client whose queue is absent and a read from an empty queue return that code too. -/
theorem write_full_and_negative_same_code :
    full3.count = full3.capacity ∧ half3.count < half3.capacity ∧ half3.input_state = 2 ∧
    int32_of_bytes [255, 255, 255, 255] = -1 ∧
    (dev_write (client_state full3) 1 (some [1, 0, 0, 0]) false none).1 = -EACCES ∧
    (dev_write (client_state half3) 1 (some [255, 255, 255, 255]) false none).1 = -EACCES ∧
    (dev_read empty_state 1 false 4 false).1 = -EACCES ∧
    (dev_read attached_state 1 false 4 false).1 = -EACCES ∧
    (dev_read (client_state fresh3) 1 false 4 false).1 = -EACCES := by
  decide

/-- C25 (epoch invariant), evaluation of the code. The calls `push_value(10)`,
`push_value(5)`, `push_value(11)`, `push_value(5)`, `push_value(12)`, `pop_value()`,
`push_value(5)` on the queue made by `init_priority_queue(3)` all succeed. The extraction
between the value half `12` and its priority half moves `count` below the slot that holds
the pending value, so the priority half admits the old content of `arr[1]`: the heap holds
the entry `(11, 5)` with `in_time == 1` twice, although `timer` was `2` at the moment of
admission. -/
theorem epoch_repeated_after_extraction :
    qrun fresh3 stale_calls = stale_queue ∧
    init_priority_queue 3 (some (fun _ => data_default)) = some fresh3 ∧
    (qrun fresh3 (stale_calls.take 6)).timer = 2 ∧
    (qrun fresh3 (stale_calls.take 6)).input_state = 2 ∧
    (push_value (qrun fresh3 (stale_calls.take 6)) 5).1 = 0 ∧
    entries stale_queue = [⟨11, 5, 1⟩, ⟨11, 5, 1⟩] ∧ stale_queue.timer = 3 ∧
    ¬ ((entries stale_queue).map (fun d => d.in_time)).Nodup := by
  decide

/-- C26 (extraction in the middle of an insertion), evaluation of the code. Client `1` has
inserted the pair `(10, 5)` and submitted the value half `11`. The read returns `10` and
leaves `input_state == 2`, so the next 4-byte write `5` is taken as a priority half: it
returns 4, `count` goes from `0` to `1`, and the entry admitted is `(10, 5)` with
`in_time == 0`, the entry that was just extracted, not the value `11` submitted before.
`PB2_GET_MIN` in place of the read gives the same queue. After `PB2_SET_CAPACITY` on the
same state the queue has no pending value. -/
theorem extraction_keeps_pending :
    (queue_of mid_insertion_state 1).map pending = some (some 11) ∧
    (serve mid_insertion_state 1 (.read false 4 false)).1 = ⟨4, .int32 10⟩ ∧
    (queue_of (serve mid_insertion_state 1 (.read false 4 false)).2 1).map
      (fun q => (q.count, q.input_state, q.timer)) = some (0, 2, 1) ∧
    (serve (serve mid_insertion_state 1 (.read false 4 false)).2 1
      (.write (some [5, 0, 0, 0]) false none)).1 = ⟨4, .nothing⟩ ∧
    (queue_of (serve (serve mid_insertion_state 1 (.read false 4 false)).2 1
      (.write (some [5, 0, 0, 0]) false none)).2 1).map
      (fun q => (entries q, q.count, q.input_state)) = some ([⟨10, 5, 0⟩], 1, 1) ∧
    (serve mid_insertion_state 1 (.command PB2_GET_MIN none false 0 none)).2 =
      (serve mid_insertion_state 1 (.read false 4 false)).2 ∧
    (queue_of (serve mid_insertion_state 1 (.command PB2_SET_CAPACITY (some 3) false 0
      (some (fun _ => data_default)))).2 1).map pending = some none := by
  decide

end Asgn2

namespace Asgn2

theorem dev_write_present (st : module_state) (pid : Int) (e : hashtable) (pq : priority_queue)
    (bytes : List Nat) (mem : Option (Nat → data))
    (hget : get_hashtable_entry st.htable pid = some e) (hpq : e.pq = some pq)
    (hb : bytes.length = 4) :
    dev_write st pid (some bytes) false mem =
      (if (push_value pq (int32_of_bytes bytes)).1 < 0 then -EACCES else 4,
       { st with
         htable := set_entry_pq st.htable pid (some (push_value pq (int32_of_bytes bytes)).2) }) := by
  have h4 : ¬ bytes.length = 0 := by omega
  simp only [dev_write, if_neg h4, hget, hpq, hb]
  split_ifs <;> first | rfl | (exfalso; omega) | simp_all

theorem ioctl_insert_int_present (st : module_state) (pid : Int) (e : hashtable)
    (pq : priority_queue) (n : Int) (ctf : Bool) (value0 : Int) (mem : Option (Nat → data))
    (hget : get_hashtable_entry st.htable pid = some e) (hpq : e.pq = some pq) :
    dev_ioctl st pid PB2_INSERT_INT (some n) ctf value0 mem =
      (if (push_value pq n).1 < 0 then (push_value pq n).1 else 0, .nothing,
       { st with htable := set_entry_pq st.htable pid (some (push_value pq n).2) }) := by
  have c21 : PB2_INSERT_INT ≠ PB2_SET_CAPACITY := by decide
  simp only [dev_ioctl, if_neg c21, if_true, hget, hpq]
  split_ifs <;> rfl

/-- C22 (error codes), as the code has it. Let `bytes` be a 4-byte payload. A write or a
read by a client that is not attached, a write or a read by an attached client whose queue
is absent, a write to a full queue, a write of a negative priority to a queue that is not
full and awaits a priority, and a read from an empty queue all return `-EACCES`; through
the command `PB2_INSERT_INT` a full queue gives `-EACCES` and a negative priority gives
`-EINVAL`; a write of a payload of another non-zero size to a present queue gives `-EINVAL`;
and `-EACCES` differs from `-EINVAL`. -/
theorem failure_codes (st : module_state) (pid : Int) (bytes : List Nat)
    (mem : Option (Nat → data)) (cf : Bool) (value0 : Int) (hb : bytes.length = 4) :
    (get_hashtable_entry st.htable pid = none →
      (dev_write st pid (some bytes) false mem).1 = -EACCES ∧
      (dev_read st pid false 4 cf).1 = -EACCES) ∧
    (∀ e, get_hashtable_entry st.htable pid = some e → e.pq = none →
      (dev_write st pid (some bytes) false mem).1 = -EACCES ∧
      (dev_read st pid false 4 cf).1 = -EACCES) ∧
    (∀ e pq, get_hashtable_entry st.htable pid = some e → e.pq = some pq →
      (pq.count ≥ pq.capacity →
        (dev_write st pid (some bytes) false mem).1 = -EACCES ∧
        ∀ n, (dev_ioctl st pid PB2_INSERT_INT (some n) cf value0 mem).1 = -EACCES) ∧
      (pq.count < pq.capacity → pq.input_state ≠ 1 →
        (int32_of_bytes bytes < 0 → (dev_write st pid (some bytes) false mem).1 = -EACCES) ∧
        ∀ n, n < 0 → (dev_ioctl st pid PB2_INSERT_INT (some n) cf value0 mem).1 = -EINVAL) ∧
      (pq.count = 0 → (dev_read st pid false 4 cf).1 = -EACCES) ∧
      (∀ other, other ≠ [] → other.length ≠ 4 →
        (dev_write st pid (some other) false mem).1 = -EINVAL)) ∧
    -EACCES ≠ -EINVAL := by
  have h4 : ¬ bytes.length = 0 := by omega
  have hneg1 : -EACCES < 0 := by decide
  have hneg2 : -EINVAL < 0 := by decide
  refine ⟨?_, ?_, ?_, by decide⟩
  · intro hget
    constructor
    · simp only [dev_write, if_neg h4, hget]
      rfl
    · simp only [dev_read, hget]
      rfl
  · intro e hget hpq
    constructor
    · simp only [dev_write, if_neg h4, hget, hpq, hb]
      rfl
    · simp only [dev_read, hget, hpq]
      rfl
  · intro e pq hget hpq
    refine ⟨?_, ?_, ?_, ?_⟩
    · intro hfull
      constructor
      · rw [dev_write_present st pid e pq bytes mem hget hpq hb, push_value_full pq _ hfull]
        show (if -EACCES < 0 then -EACCES else (4 : Int)) = -EACCES
        rw [if_pos hneg1]
      · intro n
        rw [ioctl_insert_int_present st pid e pq n cf value0 mem hget hpq,
          push_value_full pq _ hfull]
        show (if -EACCES < 0 then -EACCES else (0 : Int)) = -EACCES
        rw [if_pos hneg1]
    · intro hc hs
      constructor
      · intro hn
        rw [dev_write_present st pid e pq bytes mem hget hpq hb,
          push_value_negative pq _ hc hs hn]
        show (if -EINVAL < 0 then -EACCES else (4 : Int)) = -EACCES
        rw [if_pos hneg2]
      · intro n hn
        rw [ioctl_insert_int_present st pid e pq n cf value0 mem hget hpq,
          push_value_negative pq _ hc hs hn]
        show (if -EINVAL < 0 then -EINVAL else (0 : Int)) = -EINVAL
        rw [if_pos hneg2]
    · intro hz
      rw [dev_read_present st pid e pq cf hget hpq, pop_value_empty pq hz]
      show (if ¬ (cf = true) ∧ -INF ≠ -INF then (4 : Int) else -EACCES) = -EACCES
      rw [if_neg (fun h => h.2 rfl)]
    · intro other h0 hlen
      have hl : ¬ other.length = 0 := fun h => h0 (List.length_eq_zero.mp h)
      simp only [dev_write, if_neg hl, hget, hpq, if_pos hlen]
      rfl

/-- Witness of C22 as the code has it: the full queue `full3`, the payload `-1`. -/
theorem failure_codes_witness :
    ([255, 255, 255, 255] : List Nat).length = 4 ∧
    get_hashtable_entry (client_state full3).htable 1 = some ⟨1, some full3⟩ ∧
    full3.count ≥ full3.capacity ∧
    (dev_write (client_state full3) 1 (some [255, 255, 255, 255]) false none).1 = -EACCES ∧
    (dev_write (client_state full3) 1 (some [1, 2]) false none).1 = -EINVAL :=
  ⟨by decide, by decide, by decide,
    ((failure_codes (client_state full3) 1 [255, 255, 255, 255] none false 0 (by decide)).2.2.1
      ⟨1, some full3⟩ full3 (by decide) rfl).1 (by decide) |>.1,
    ((failure_codes (client_state full3) 1 [255, 255, 255, 255] none false 0 (by decide)).2.2.1
      ⟨1, some full3⟩ full3 (by decide) rfl).2.2.2 [1, 2] (by decide) (by decide)⟩

end Asgn2

namespace Asgn2

/-! ### Session keys are pairwise distinct -/

theorem keys_set_entry_pq (h : List hashtable) (k : Int) (x : Option priority_queue) :
    (set_entry_pq h k x).map (fun e => e.key) = h.map (fun e => e.key) := by
  induction h with
  | nil => rfl
  | cons e t ih =>
    simp only [set_entry_pq]
    split_ifs
    · rfl
    · simp only [List.map_cons, ih]

theorem keys_remove_process_entry (h : List hashtable) (k : Int) :
    (remove_process_entry h k).map (fun e => e.key) = (h.map (fun e => e.key)).erase k := by
  induction h with
  | nil => rfl
  | cons e t ih =>
    simp only [remove_process_entry, List.map_cons]
    by_cases hk : e.key = k
    · rw [if_pos hk, hk, List.erase_cons_head]
    · rw [if_neg hk, List.erase_cons_tail (by simpa using hk), List.map_cons, ih]

theorem get_isSome_iff_mem_keys (st : module_state) (k : Int) :
    (get_hashtable_entry st.htable k).isSome ↔ k ∈ keys st := by
  rw [← Option.ne_none_iff_isSome, Ne, get_hashtable_entry_none_iff]
  simp only [keys, List.mem_map]
  constructor
  · intro h
    by_contra hc
    exact h (fun e he hk => hc ⟨e, he, hk⟩)
  · rintro ⟨e, he, hk⟩ h
    exact h e he hk

theorem keys_dev_ioctl (st : module_state) (b : Int) (cmd : Nat)
    (arg : Option Int) (ctf : Bool) (value0 : Int) (mem : Option (Nat → data)) :
    keys (dev_ioctl st b cmd arg ctf value0 mem).2.2 = keys st := by
  apply dev_ioctl_cases (fun r => keys r.2.2 = keys st)
  · intro _; rfl
  · rfl
  · rfl
  · intro _ _ _ _; rfl
  · rfl
  · intro _ _ x _
    exact keys_set_entry_pq st.htable b x

theorem keys_dev_write (st : module_state) (b : Int)
    (inbuffer : Option (List Nat)) (cf : Bool) (mem : Option (Nat → data)) :
    keys (dev_write st b inbuffer cf mem).2 = keys st := by
  have key := fun x => keys_set_entry_pq st.htable b x
  unfold dev_write
  cases inbuffer with
  | none => rfl
  | some bytes =>
    rcases get_hashtable_entry st.htable b with _ | ⟨k, q⟩
    · simp only []; split_ifs <;> rfl
    · cases q <;> simp only [set_entry_pq_twice] <;> (try split_ifs)
      all_goals
        first
        | rfl
        | exact key _

theorem keys_dev_read (st : module_state) (b : Int) (nul : Bool) (n : Nat)
    (cf : Bool) : keys (dev_read st b nul n cf).2.2 = keys st := by
  have key := fun x => keys_set_entry_pq st.htable b x
  unfold dev_read
  rcases get_hashtable_entry st.htable b with _ | ⟨k, q⟩
  · simp only []; split_ifs <;> rfl
  · cases q <;> simp only [] <;> (try split_ifs)
    all_goals
      first
      | rfl
      | exact key _

theorem keys_dev_open (st : module_state) (b : Int) :
    keys (dev_open st b).2 = if b ∈ keys st then keys st else b :: keys st := by
  have h := get_isSome_iff_mem_keys st b
  unfold dev_open
  rcases hg : get_hashtable_entry st.htable b with _ | e
  · rw [hg] at h
    rw [if_neg (fun hm => by simpa using h.2 hm)]
    rfl
  · rw [hg] at h
    rw [if_pos (h.1 rfl)]

theorem keys_dev_release (st : module_state) (b : Int) :
    keys (dev_release st b).2 = (keys st).erase b :=
  keys_remove_process_entry st.htable b

theorem keys_serve (st : module_state) (p : Int) (rq : request) :
    keys (serve st p rq).2 =
      if rq.is_disconnect then (keys st).erase p
      else if rq.is_connect ∧ p ∉ keys st then p :: keys st
      else keys st := by
  cases rq with
  | connect =>
    simp only [serve, request.is_disconnect, request.is_connect, keys_dev_open]
    by_cases h : p ∈ keys st <;> simp [h]
  | disconnect => simp [serve, request.is_disconnect, keys_dev_release]
  | write a b c => simp [serve, request.is_disconnect, request.is_connect, keys_dev_write]
  | read a b c => simp [serve, request.is_disconnect, request.is_connect, keys_dev_read]
  | command a b c d e =>
    simp [serve, request.is_disconnect, request.is_connect, keys_dev_ioctl]

theorem keys_serve_nodup (st : module_state) (p : Int) (rq : request)
    (h : (keys st).Nodup) : (keys (serve st p rq).2).Nodup := by
  rw [keys_serve]
  split_ifs with h1 h2
  · exact h.erase p
  · exact List.nodup_cons.mpr ⟨h2.2, h⟩
  · exact h

theorem mem_keys_serve (st : module_state) (p k : Int) (rq : request)
    (h : (keys st).Nodup) :
    k ∈ keys (serve st p rq).2 ↔
      (p = k ∧ rq.is_connect = true) ∨
      (k ∈ keys st ∧ (p = k → rq.is_disconnect = false)) := by
  rw [keys_serve]
  cases rq with
  | connect =>
    simp only [request.is_disconnect, request.is_connect]
    by_cases hp : p ∈ keys st
    · by_cases hk : p = k
      · subst hk; simp [hp]
      · simp [hp, hk]
    · by_cases hk : p = k
      · subst hk; simp [hp]
      · simp [hp, hk, Ne.symm hk]
  | disconnect =>
    simp only [request.is_disconnect, request.is_connect, if_true, h.mem_erase_iff]
    by_cases hk : p = k
    · subst hk; simp
    · simp [hk, Ne.symm hk]
  | write a b c => simp [request.is_disconnect, request.is_connect]
  | read a b c => simp [request.is_disconnect, request.is_connect]
  | command a b c d e => simp [request.is_disconnect, request.is_connect]

theorem connected_nil (k : Int) : ¬ connected k [] := by
  rintro ⟨l1, l2, h, _⟩
  cases l1 <;> simp at h

theorem connected_cons (k p : Int) (rq : request) (t : List (Int × request)) :
    connected k ((p, rq) :: t) ↔
      ((p = k ∧ rq.is_connect = true) ∧ ∀ x ∈ t, x.1 = k → x.2.is_disconnect = false) ∨
      connected k t := by
  constructor
  · rintro ⟨l1, l2, h, hd⟩
    cases l1 with
    | nil =>
      simp only [List.nil_append, List.cons.injEq, Prod.mk.injEq] at h
      obtain ⟨⟨hp, hr⟩, ht⟩ := h
      subst ht; subst hr
      exact Or.inl ⟨⟨hp, rfl⟩, hd⟩
    | cons a l1 =>
      simp only [List.cons_append, List.cons.injEq] at h
      exact Or.inr ⟨l1, l2, h.2, hd⟩
  · rintro (⟨⟨hp, hr⟩, hd⟩ | ⟨l1, l2, h, hd⟩)
    · refine ⟨[], t, ?_, hd⟩
      cases rq <;> simp [request.is_connect] at hr
      simp [hp]
    · exact ⟨(p, rq) :: l1, l2, by simp [h], hd⟩

theorem serve_all_keys (tr : List (Int × request)) :
    ∀ (st : module_state) (k : Int), (keys st).Nodup →
      (keys (serve_all st tr).2).Nodup ∧
      (k ∈ keys (serve_all st tr).2 ↔
        connected k tr ∨
        (k ∈ keys st ∧ ∀ x ∈ tr, x.1 = k → x.2.is_disconnect = false)) := by
  induction tr with
  | nil =>
    intro st k h
    refine ⟨h, ?_⟩
    simp [serve_all, connected_nil]
  | cons a t ih =>
    intro st k h
    obtain ⟨p, rq⟩ := a
    have h1 := keys_serve_nodup st p rq h
    obtain ⟨ihn, ihm⟩ := ih (serve st p rq).2 k h1
    refine ⟨ihn, ?_⟩
    show k ∈ keys (serve_all (serve st p rq).2 t).2 ↔ _
    rw [ihm, mem_keys_serve st p k rq h, connected_cons]
    simp only [List.mem_cons, forall_eq_or_imp]
    tauto

/-- C27 (session identities are pairwise distinct). In the table reached from the empty
table by any sequence of calls of the dispatcher, each with an arbitrary client id (in
particular any sequence of connect and disconnect calls), no two entries of the chain carry
the same key, and `get_hashtable_entry(k)` returns an entry if and only if `k` has
connected and not disconnected since. -/
theorem session_keys_distinct (tr : List (Int × request)) (k : Int) :
    ((serve_all empty_state tr).2.htable.map (fun e => e.key)).Nodup ∧
    ((get_hashtable_entry (serve_all empty_state tr).2.htable k).isSome ↔ connected k tr) := by
  have h := serve_all_keys tr empty_state k List.nodup_nil
  refine ⟨h.1, ?_⟩
  rw [get_isSome_iff_mem_keys, h.2]
  simp [keys, empty_state]

end Asgn2

namespace Asgn2

/-! ### Properties of every queue of the table -/

theorem mem_set_entry_pq (h : List hashtable) (k : Int) (x : Option priority_queue)
    (e : hashtable) (he : e ∈ set_entry_pq h k x) : e ∈ h ∨ e.pq = x := by
  induction h with
  | nil => exact absurd he (List.not_mem_nil e)
  | cons a t ih =>
    simp only [set_entry_pq] at he
    split_ifs at he with hk
    · rcases List.mem_cons.mp he with h1 | h1
      · exact Or.inr (by rw [h1])
      · exact Or.inl (List.mem_cons_of_mem a h1)
    · rcases List.mem_cons.mp he with h1 | h1
      · exact Or.inl (by rw [h1]; exact List.mem_cons_self a t)
      · rcases ih h1 with h2 | h2
        · exact Or.inl (List.mem_cons_of_mem a h2)
        · exact Or.inr h2

theorem mem_remove_process_entry (h : List hashtable) (k : Int) (e : hashtable)
    (he : e ∈ remove_process_entry h k) : e ∈ h := by
  induction h with
  | nil => exact absurd he (List.not_mem_nil e)
  | cons a t ih =>
    simp only [remove_process_entry] at he
    split_ifs at he with hk
    · exact List.mem_cons_of_mem a he
    · rcases List.mem_cons.mp he with h1 | h1
      · rw [h1]; exact List.mem_cons_self a t
      · exact List.mem_cons_of_mem a (ih h1)

theorem mem_of_get_hashtable_entry (h : List hashtable) (k : Int) (e : hashtable)
    (hget : get_hashtable_entry h k = some e) : e ∈ h :=
  List.mem_of_find?_eq_some hget

theorem all_queues_set (Q : priority_queue → Prop) (st : module_state) (k : Int)
    (x : Option priority_queue) (h : all_queues Q st) (hx : ∀ pq, x = some pq → Q pq) :
    all_queues Q { st with htable := set_entry_pq st.htable k x } := by
  intro e he pq hpq
  rcases mem_set_entry_pq st.htable k x e he with h1 | h1
  · exact h e h1 pq hpq
  · exact hx pq (by rw [← h1, hpq])

theorem all_queues_get (Q : priority_queue → Prop) (st : module_state) (k : Int)
    (e : hashtable) (pq : priority_queue) (h : all_queues Q st)
    (hget : get_hashtable_entry st.htable k = some e) (hpq : e.pq = some pq) : Q pq :=
  h e (mem_of_get_hashtable_entry st.htable k e hget) pq hpq

theorem init_priority_queue_of_size (Q : priority_queue → Prop)
    (hinit : ∀ c mem pq, 1 ≤ c → c ≤ 100 → init_priority_queue c mem = some pq → Q pq)
    (pq_size : Int) (mem : Option (Nat → data)) (h : ¬ (pq_size ≤ 0 ∨ pq_size > 100))
    (pq : priority_queue) (hpq : init_priority_queue pq_size.toNat mem = some pq) : Q pq := by
  refine hinit pq_size.toNat mem pq ?_ ?_ hpq <;> omega

theorem dev_write_all_queues (Q : priority_queue → Prop)
    (hinit : ∀ c mem pq, 1 ≤ c → c ≤ 100 → init_priority_queue c mem = some pq → Q pq)
    (hpush : ∀ pq n, Q pq → Q (push_value pq n).2)
    (st : module_state) (b : Int) (inbuffer : Option (List Nat)) (cf : Bool)
    (mem : Option (Nat → data)) (h : all_queues Q st) :
    all_queues Q (dev_write st b inbuffer cf mem).2 := by
  unfold dev_write
  cases inbuffer with
  | none => exact h
  | some bytes =>
    rcases hget : get_hashtable_entry st.htable b with _ | ⟨k, q⟩
    · simp only []; split_ifs <;> exact h
    · cases q with
      | none =>
        have hi : ∀ pq_size : Int, ¬ (pq_size ≤ 0 ∨ pq_size > 100) →
            all_queues Q { st with
              htable := set_entry_pq st.htable b (init_priority_queue pq_size.toNat mem) } :=
          fun ps hps => all_queues_set Q st b _ h
            (fun pq hpq => init_priority_queue_of_size Q hinit ps mem hps pq hpq)
        simp only [set_entry_pq_twice]
        split_ifs
        all_goals
          first
          | exact h
          | exact hi _ (by assumption)
      | some pq =>
        have hQ : Q pq := all_queues_get Q st b _ pq h hget rfl
        have hs := all_queues_set Q st b (some (push_value pq (int32_of_bytes bytes)).2) h
          (fun q hq => by cases hq; exact hpush pq _ hQ)
        simp only []
        split_ifs
        all_goals
          first
          | exact h
          | exact hs

theorem dev_read_all_queues (Q : priority_queue → Prop)
    (hpop : ∀ pq, Q pq → Q (pop_value pq).2)
    (st : module_state) (b : Int) (nul : Bool) (n : Nat) (cf : Bool) (h : all_queues Q st) :
    all_queues Q (dev_read st b nul n cf).2.2 := by
  unfold dev_read
  rcases hget : get_hashtable_entry st.htable b with _ | ⟨k, q⟩
  · simp only []; split_ifs <;> exact h
  · cases q with
    | none => simp only []; split_ifs <;> exact h
    | some pq =>
      have hQ : Q pq := all_queues_get Q st b _ pq h hget rfl
      have hs := all_queues_set Q st b (some (pop_value pq).2) h
        (fun q hq => by cases hq; exact hpop pq hQ)
      simp only []
      split_ifs
      all_goals
        first
        | exact h
        | exact hs

theorem dev_open_all_queues (Q : priority_queue → Prop) (st : module_state) (b : Int)
    (h : all_queues Q st) : all_queues Q (dev_open st b).2 := by
  unfold dev_open
  rcases get_hashtable_entry st.htable b with _ | e
  · intro e he pq hpq
    rcases List.mem_cons.mp he with h1 | h1
    · rw [h1] at hpq; cases hpq
    · exact h e h1 pq hpq
  · exact h

theorem dev_release_all_queues (Q : priority_queue → Prop) (st : module_state) (b : Int)
    (h : all_queues Q st) : all_queues Q (dev_release st b).2 :=
  fun e he pq hpq => h e (mem_remove_process_entry st.htable b e he) pq hpq

theorem dev_ioctl_all_queues (Q : priority_queue → Prop)
    (hinit : ∀ c mem pq, 1 ≤ c → c ≤ 100 → init_priority_queue c mem = some pq → Q pq)
    (hpush : ∀ pq n, Q pq → Q (push_value pq n).2)
    (hpop : ∀ pq, Q pq → Q (pop_value pq).2)
    (st : module_state) (b : Int) (cmd : Nat) (arg : Option Int) (ctf : Bool) (value0 : Int)
    (mem : Option (Nat → data)) (h : all_queues Q st) :
    all_queues Q (dev_ioctl st b cmd arg ctf value0 mem).2.2 := by
  by_cases c1 : cmd = PB2_SET_CAPACITY
  · simp only [dev_ioctl, if_pos c1]
    rcases hget : get_hashtable_entry st.htable b with _ | e
    · exact h
    · cases arg with
      | none => exact h
      | some pq_size =>
        simp only [set_entry_pq_twice]
        split_ifs with h4
        · exact h
        · exact all_queues_set Q st b _ h
            (fun pq hpq => init_priority_queue_of_size Q hinit _ mem h4 pq hpq)
  by_cases c2 : cmd = PB2_INSERT_INT
  · simp only [dev_ioctl, if_neg c1, if_pos c2]
    rcases hget : get_hashtable_entry st.htable b with _ | ⟨k, q⟩
    · exact h
    · cases q with
      | none => exact h
      | some pq =>
        have hQ : Q pq := all_queues_get Q st b _ pq h hget rfl
        cases arg with
        | none => exact h
        | some v =>
          have hs := all_queues_set Q st b (some (push_value pq v).2) h
            (fun q hq => by cases hq; exact hpush pq _ hQ)
          simp only []
          split_ifs <;> exact hs
  by_cases c3 : cmd = PB2_INSERT_PRIO
  · simp only [dev_ioctl, if_neg c1, if_neg c2, if_pos c3]
    rcases hget : get_hashtable_entry st.htable b with _ | ⟨k, q⟩
    · exact h
    · cases q with
      | none => exact h
      | some pq =>
        have hQ : Q pq := all_queues_get Q st b _ pq h hget rfl
        cases arg with
        | none => exact h
        | some v =>
          have hs := all_queues_set Q st b (some (push_value pq value0).2) h
            (fun q hq => by cases hq; exact hpush pq _ hQ)
          simp only []
          split_ifs <;> exact hs
  by_cases c4 : cmd = PB2_GET_INFO
  · simp only [dev_ioctl, if_neg c1, if_neg c2, if_neg c3, if_pos c4]
    rcases hget : get_hashtable_entry st.htable b with _ | ⟨k, q⟩
    · exact h
    · cases q with
      | none => exact h
      | some pq => simp only []; split_ifs <;> exact h
  by_cases c5 : cmd = PB2_GET_MIN
  · simp only [dev_ioctl, if_neg c1, if_neg c2, if_neg c3, if_neg c4, if_pos c5]
    rcases hget : get_hashtable_entry st.htable b with _ | ⟨k, q⟩
    · exact h
    · cases q with
      | none => exact h
      | some pq =>
        have hQ : Q pq := all_queues_get Q st b _ pq h hget rfl
        have hs := all_queues_set Q st b (some (pop_value pq).2) h
          (fun q hq => by cases hq; exact hpop pq hQ)
        simp only []
        split_ifs
        all_goals
          first
          | exact h
          | exact hs
  simp only [dev_ioctl, if_neg c1, if_neg c2, if_neg c3, if_neg c4, if_neg c5]
  split_ifs <;> exact h

theorem serve_all_queues (Q : priority_queue → Prop)
    (hinit : ∀ c mem pq, 1 ≤ c → c ≤ 100 → init_priority_queue c mem = some pq → Q pq)
    (hpush : ∀ pq n, Q pq → Q (push_value pq n).2)
    (hpop : ∀ pq, Q pq → Q (pop_value pq).2)
    (st : module_state) (p : Int) (rq : request) (h : all_queues Q st) :
    all_queues Q (serve st p rq).2 := by
  cases rq with
  | connect => exact dev_open_all_queues Q st p h
  | disconnect => exact dev_release_all_queues Q st p h
  | write a b c => exact dev_write_all_queues Q hinit hpush st p a b c h
  | read a b c => exact dev_read_all_queues Q hpop st p a b c h
  | command a b c d e => exact dev_ioctl_all_queues Q hinit hpush hpop st p a b c d e h

theorem serve_all_all_queues (Q : priority_queue → Prop)
    (hinit : ∀ c mem pq, 1 ≤ c → c ≤ 100 → init_priority_queue c mem = some pq → Q pq)
    (hpush : ∀ pq n, Q pq → Q (push_value pq n).2)
    (hpop : ∀ pq, Q pq → Q (pop_value pq).2)
    (tr : List (Int × request)) :
    ∀ st, all_queues Q st → all_queues Q (serve_all st tr).2 := by
  induction tr with
  | nil => intro st h; exact h
  | cons a t ih =>
    intro st h
    exact ih _ (serve_all_queues Q hinit hpush hpop st a.1 a.2 h)

theorem bounded_init (c : Nat) (mem : Option (Nat → data)) (pq : priority_queue)
    (h1 : 1 ≤ c) (h2 : c ≤ 100) (h : init_priority_queue c mem = some pq) : bounded pq := by
  cases mem with
  | none => cases h
  | some m =>
    simp only [init_priority_queue, Option.some.injEq] at h
    subst h
    exact ⟨h1, h2, Nat.zero_le _⟩

theorem bounded_push_value (pq : priority_queue) (n : Int) (h : bounded pq) :
    bounded (push_value pq n).2 := by
  obtain ⟨h1, h2, h3⟩ := h
  unfold push_value
  split_ifs with a b c
  · exact ⟨h1, h2, h3⟩
  · exact ⟨h1, h2, h3⟩
  · exact ⟨h1, h2, h3⟩
  · exact ⟨h1, h2, by show pq.count + 1 ≤ pq.capacity; omega⟩

theorem bounded_pop_value (pq : priority_queue) (h : bounded pq) :
    bounded (pop_value pq).2 := by
  obtain ⟨h1, h2, h3⟩ := h
  unfold pop_value
  split_ifs with a
  · exact ⟨h1, h2, h3⟩
  · exact ⟨h1, h2, by show pq.count - 1 ≤ pq.capacity; omega⟩

/-- C24 (count and capacity bounds). In every state reached from the empty session table
by any sequence of calls of the dispatcher (connect, disconnect, writes, reads, commands,
with arbitrary arguments and clients), every queue that is present satisfies
`1 ≤ capacity ≤ 100` and `0 ≤ count ≤ capacity`. -/
theorem queue_bounds_invariant (tr : List (Int × request)) (e : hashtable)
    (pq : priority_queue) (he : e ∈ (serve_all empty_state tr).2.htable)
    (hpq : e.pq = some pq) :
    1 ≤ pq.capacity ∧ pq.capacity ≤ 100 ∧ 0 ≤ pq.count ∧ pq.count ≤ pq.capacity := by
  have h := serve_all_all_queues bounded bounded_init bounded_push_value bounded_pop_value tr
    empty_state (fun e he => absurd he (List.not_mem_nil e)) e he pq hpq
  exact ⟨h.1, h.2.1, Nat.zero_le _, h.2.2⟩

/-- Witness of C24: the queue of client `1` after the requests of scenario S6. -/
theorem queue_bounds_invariant_witness :
    (⟨1, some ⟨[⟨1, 1, 0⟩, ⟨0, 0, 0⟩], 2, 0, 1, 1⟩⟩ : hashtable) ∈
      (serve_all empty_state two_clients).2.htable ∧
    1 ≤ (2 : Nat) ∧ (2 : Nat) ≤ 100 ∧ 0 ≤ (0 : Nat) ∧ (0 : Nat) ≤ 2 :=
  ⟨by decide,
    queue_bounds_invariant two_clients ⟨1, some ⟨[⟨1, 1, 0⟩, ⟨0, 0, 0⟩], 2, 0, 1, 1⟩⟩
      ⟨[⟨1, 1, 0⟩, ⟨0, 0, 0⟩], 2, 0, 1, 1⟩ (by decide) rfl⟩

end Asgn2

/-! ## Array accesses are in bounds -/

theorem rd_checked_eq (cap : Nat) (arr : List data) (i : Nat) (h : i < cap) :
    rd_checked cap arr i = some (rd arr i) := if_pos h

theorem wr_checked_eq (cap : Nat) (arr : List data) (i : Nat) (d : data) (h : i < cap) :
    wr_checked cap arr i d = some (arr.set i d) := if_pos h

theorem swap_slots_checked_eq (cap : Nat) (arr : List data) (i j : Nat) (hi : i < cap)
    (hj : j < cap) : swap_slots_checked cap arr i j = some (swap_slots arr i j) := by
  simp only [swap_slots_checked, rd_checked_eq cap _ i hi, rd_checked_eq cap _ j hj,
    wr_checked_eq cap _ i _ hi, wr_checked_eq cap _ j _ hj, Option.bind_eq_bind,
    Option.some_bind, swap_slots]

theorem heapify_bottom_top_loop_checked_eq (cap fuel : Nat) :
    ∀ (arr : List data) (index : Nat), index < cap →
      heapify_bottom_top_loop_checked cap fuel arr index =
        some (heapify_bottom_top_loop fuel arr index) := by
  induction fuel with
  | zero => intro arr index _; rfl
  | succ f ih =>
    intro arr index h
    have hp : (index - 1) / 2 < cap := by omega
    simp only [heapify_bottom_top_loop_checked, heapify_bottom_top_loop,
      rd_checked_eq cap _ _ hp, rd_checked_eq cap _ _ h, swap_slots_checked_eq cap _ _ _ hp h,
      Option.bind_eq_bind, Option.some_bind]
    split_ifs
    · exact ih _ _ hp
    · rfl
    · rfl

theorem smallest_of_checked_eq (cap : Nat) (arr : List data) (count k : Nat)
    (hc : count ≤ cap) (hk : k < cap) :
    smallest_of_checked cap arr count k = some (smallest_of arr count k) := by
  unfold smallest_of_checked smallest_of
  by_cases hl : k * 2 + 1 < count
  · have hl2 : k * 2 + 1 < cap := by omega
    by_cases hr : k * 2 + 2 < count
    · have hr2 : k * 2 + 2 < cap := by omega
      by_cases p1 : precedes (rd arr (k * 2 + 1)) (rd arr k)
      · simp [rd_checked, hk, hl, hl2, hr, hr2, p1]
      · simp [rd_checked, hk, hl, hl2, hr, hr2, p1]
    · simp [rd_checked, hk, hl, hl2, hr]
  · by_cases hr : k * 2 + 2 < count
    · have hr2 : k * 2 + 2 < cap := by omega
      simp [rd_checked, hk, hl, hr, hr2]
    · simp [hl, hr]

theorem heapify_top_bottom_rec_checked_eq (cap count fuel : Nat) (hc : count ≤ cap) :
    ∀ (arr : List data) (k : Nat), k < cap →
      heapify_top_bottom_rec_checked cap fuel arr count k =
        some (heapify_top_bottom_rec fuel arr count k) := by
  induction fuel with
  | zero => intro arr k _; rfl
  | succ f ih =>
    intro arr k hk
    simp only [heapify_top_bottom_rec_checked, heapify_top_bottom_rec,
      smallest_of_checked_eq cap arr count k hc hk, Option.bind_eq_bind, Option.some_bind]
    rcases smallest_of_cases arr count k with h | h
    · rw [if_neg (by simpa using h.1), if_neg (by simpa using h.1)]
    · have hs : smallest_of arr count k < cap := by omega
      rw [if_pos h.1, if_pos h.1, swap_slots_checked_eq cap _ _ _ hs hk, Option.some_bind]
      exact ih _ _ hs

namespace Asgn2

theorem push_value_checked_eq (pq : priority_queue) (num : Int) :
    push_value_checked pq num = some (push_value pq num) := by
  unfold push_value_checked push_value
  by_cases hc : pq.count ≥ pq.capacity
  · rw [if_pos hc, if_pos hc]
  · have hlt : pq.count < pq.capacity := by omega
    rw [if_neg hc, if_neg hc]
    by_cases hs : pq.input_state = 1
    · rw [if_pos hs, if_pos hs]
      simp only [rd_checked_eq _ _ _ hlt, wr_checked_eq _ _ _ _ hlt, Option.bind_eq_bind,
        Option.some_bind]
    · rw [if_neg hs, if_neg hs]
      by_cases hn : num < 0
      · rw [if_pos hn, if_pos hn]
      · rw [if_neg hn, if_neg hn]
        simp only [rd_checked_eq _ _ _ hlt, wr_checked_eq _ _ _ _ hlt, Option.bind_eq_bind,
          Option.some_bind, heapify_bottom_top_checked,
          heapify_bottom_top_loop_checked_eq _ _ _ _ hlt, heapify_bottom_top]

theorem pop_value_checked_eq (pq : priority_queue) (h1 : 1 ≤ pq.capacity)
    (hc : pq.count ≤ pq.capacity) : pop_value_checked pq = some (pop_value pq) := by
  have h0 : 0 < pq.capacity := h1
  unfold pop_value_checked pop_value
  simp only [rd_checked_eq _ _ _ h0, Option.bind_eq_bind, Option.some_bind]
  by_cases hz : pq.count = 0
  · rw [if_pos hz, if_pos hz]
  · have hl : pq.count - 1 < pq.capacity := by omega
    rw [if_neg hz, if_neg hz]
    simp only [rd_checked_eq _ _ _ hl, wr_checked_eq _ _ _ _ h0, Option.some_bind,
      heapify_top_bottom_checked,
      heapify_top_bottom_rec_checked_eq _ _ _ (Nat.le_of_lt hl) _ _ h0, heapify_top_bottom]

theorem in_bounds_init (c : Nat) (mem : Option (Nat → data)) (pq : priority_queue)
    (h1 : 1 ≤ c) (h : init_priority_queue c mem = some pq) : in_bounds pq ∧ pq.capacity = c := by
  cases mem with
  | none => cases h
  | some m =>
    simp only [init_priority_queue, Option.some.injEq] at h
    subst h
    exact ⟨⟨by simp, h1, Nat.zero_le _, fun _ => h1⟩, rfl⟩

theorem in_bounds_push_value (pq : priority_queue) (n : Int) (h : in_bounds pq) :
    in_bounds (push_value pq n).2 ∧ (push_value pq n).2.capacity = pq.capacity := by
  obtain ⟨h1, h2, h3, h4⟩ := h
  unfold push_value
  split_ifs with a b c
  · exact ⟨⟨h1, h2, h3, h4⟩, rfl⟩
  · refine ⟨⟨?_, h2, h3, fun _ => by show pq.count < pq.capacity; omega⟩, rfl⟩
    show (List.set _ _ _).length = pq.capacity
    rw [List.length_set, List.length_set]
    exact h1
  · exact ⟨⟨h1, h2, h3, h4⟩, rfl⟩
  · refine ⟨⟨?_, h2, by show pq.count + 1 ≤ pq.capacity; omega, fun h => ?_⟩, rfl⟩
    · show (heapify_bottom_top _ _).length = pq.capacity
      rw [sift_up_length]
      exact h1
    · have h12 : (1 : Int) = 2 := h
      exact absurd h12 (by decide)

theorem in_bounds_pop_value (pq : priority_queue) (h : in_bounds pq) :
    in_bounds (pop_value pq).2 ∧ (pop_value pq).2.capacity = pq.capacity := by
  obtain ⟨h1, h2, h3, h4⟩ := h
  unfold pop_value
  split_ifs with a
  · exact ⟨⟨h1, h2, h3, h4⟩, rfl⟩
  · refine ⟨⟨?_, h2, by show pq.count - 1 ≤ pq.capacity; omega,
      fun _ => by show pq.count - 1 < pq.capacity; omega⟩, rfl⟩
    show (heapify_top_bottom _ _ _).length = pq.capacity
    rw [sift_down_length]
    exact h1

theorem in_bounds_qrun (cs : List qcall) :
    ∀ pq, in_bounds pq → in_bounds (qrun pq cs) ∧ (qrun pq cs).capacity = pq.capacity := by
  induction cs with
  | nil => intro pq h; exact ⟨h, rfl⟩
  | cons c t ih =>
    intro pq h
    cases c with
    | push n =>
      obtain ⟨h1, h2⟩ := in_bounds_push_value pq n h
      obtain ⟨h3, h4⟩ := ih _ h1
      exact ⟨h3, h4.trans h2⟩
    | pop =>
      obtain ⟨h1, h2⟩ := in_bounds_pop_value pq h
      obtain ⟨h3, h4⟩ := ih _ h1
      exact ⟨h3, h4.trans h2⟩

/-- C30 (array accesses are in bounds). Let `pq` be reached from `init_priority_queue(c)`
with `1 ≤ c ≤ 100` by any sequence of `push_value` and `pop_value` calls with arbitrary
arguments. Then the array has `capacity == c` slots, `count ≤ capacity ≤ 100`,
`input_state == 2` implies `count < capacity`, and `push_value` with any argument and `pop_value`, run with every
access to `arr` (their own and those of `heapify_bottom_top` and `heapify_top_bottom`)
checked against `[0, capacity)`, never fail the check and give the result of the unchecked
functions. -/
theorem accesses_in_bounds (c : Nat) (mem : Option (Nat → data)) (pq0 : priority_queue)
    (cs : List qcall) (h1 : 1 ≤ c) (h2 : c ≤ 100)
    (h0 : init_priority_queue c mem = some pq0) :
    (qrun pq0 cs).arr.length = (qrun pq0 cs).capacity ∧ (qrun pq0 cs).capacity = c ∧
    (qrun pq0 cs).capacity ≤ 100 ∧ (qrun pq0 cs).count ≤ (qrun pq0 cs).capacity ∧
    ((qrun pq0 cs).input_state = 2 → (qrun pq0 cs).count < (qrun pq0 cs).capacity) ∧
    (∀ num, push_value_checked (qrun pq0 cs) num = some (push_value (qrun pq0 cs) num)) ∧
    pop_value_checked (qrun pq0 cs) = some (pop_value (qrun pq0 cs)) := by
  obtain ⟨hi, hc⟩ := in_bounds_init c mem pq0 h1 h0
  obtain ⟨⟨a1, a2, a3, a4⟩, hcap⟩ := in_bounds_qrun cs pq0 hi
  have hcc : (qrun pq0 cs).capacity = c := hcap.trans hc
  exact ⟨a1, hcc, by rw [hcc]; exact h2, a3, a4, fun num => push_value_checked_eq _ num,
    pop_value_checked_eq _ a2 a3⟩

/-- Witness of C30: the queue reached from `init_priority_queue(3)` by the calls
`stale_calls`. -/
theorem accesses_in_bounds_witness :
    (1 ≤ 3 ∧ 3 ≤ 100 ∧ init_priority_queue 3 (some (fun _ => data_default)) = some fresh3) ∧
    (qrun fresh3 stale_calls).arr.length = 3 ∧
    pop_value_checked (qrun fresh3 stale_calls) = some (pop_value (qrun fresh3 stale_calls)) := by
  have h := accesses_in_bounds 3 (some (fun _ => data_default)) fresh3 stale_calls (by decide)
    (by decide) (by decide)
  exact ⟨⟨by decide, by decide, by decide⟩, h.1.trans h.2.1, h.2.2.2.2.2.2⟩

end Asgn2

namespace Asgn1

/-- C29 (read with a wrong-size buffer, Assignment 1), evaluation of the code. Client `1`
is attached and its queue, of capacity 2, holds the single entry `(7, 1)`. A read with a
buffer of 8 bytes returns `-EACCES` without popping, but on that path `dev_read` calls
`push_value` on its two local variables, which were never assigned: with the contents `77`
and `3` the entry `(77, 3)` is admitted, `count` goes from `1` to `2` and `timer` from `1`
to `2`. The same read on the queue of Assignment 2 returns `-EACCES` with the state
unchanged. -/
theorem dev_read_wrong_size_pushes :
    one2.arr.take one2.count = [⟨7, 1, 0⟩] ∧ one2.count = 1 ∧ one2.timer = 1 ∧
    dev_read (client_state one2) 1 false 8 false 77 3 =
      (-EACCES, none, client_state (push_value one2 77 3).2) ∧
    (push_value one2 77 3).2.arr = [⟨7, 1, 0⟩, ⟨77, 3, 1⟩] ∧
    (push_value one2 77 3).2.count = 2 ∧ (push_value one2 77 3).2.timer = 2 ∧
    Asgn2.dev_read (Asgn2.client_state Asgn2.half3) 1 false 8 false =
      (-EACCES, none, Asgn2.client_state Asgn2.half3) := by
  decide

end Asgn1

/-! ## The counter of open processes -/

theorem wrap32_succ (x : Int) : wrap32 (wrap32 x + 1) = wrap32 (x + 1) := by
  unfold wrap32; omega

theorem wrap32_pred (x : Int) : wrap32 (wrap32 x - 1) = wrap32 (x - 1) := by
  unfold wrap32; omega

namespace Asgn2

theorem length_keys (st : module_state) : (keys st).length = st.htable.length := by
  simp [keys]

theorem counter_dev_ioctl (st : module_state) (b : Int) (cmd : Nat)
    (arg : Option Int) (ctf : Bool) (value0 : Int) (mem : Option (Nat → data)) :
    (dev_ioctl st b cmd arg ctf value0 mem).2.2.num_open_processes =
      st.num_open_processes := by
  apply dev_ioctl_cases (fun r => r.2.2.num_open_processes = st.num_open_processes)
  · intro _; rfl
  · rfl
  · rfl
  · intro _ _ _ _; rfl
  · rfl
  · intro _ _ _ _; rfl

theorem counter_dev_write (st : module_state) (b : Int)
    (inbuffer : Option (List Nat)) (cf : Bool) (mem : Option (Nat → data)) :
    (dev_write st b inbuffer cf mem).2.num_open_processes = st.num_open_processes := by
  unfold dev_write
  cases inbuffer with
  | none => rfl
  | some bytes =>
    rcases get_hashtable_entry st.htable b with _ | ⟨k, q⟩
    · simp only []; split_ifs <;> rfl
    · cases q <;> simp only [] <;> (try split_ifs)
      all_goals rfl

theorem counter_dev_read (st : module_state) (b : Int) (nul : Bool) (n : Nat) (cf : Bool) :
    (dev_read st b nul n cf).2.2.num_open_processes = st.num_open_processes := by
  unfold dev_read
  rcases get_hashtable_entry st.htable b with _ | ⟨k, q⟩
  · simp only []; split_ifs <;> rfl
  · cases q <;> simp only [] <;> (try split_ifs)
    all_goals rfl

theorem counter_dev_open (st : module_state) (b : Int) :
    (dev_open st b).2.num_open_processes =
      if b ∈ keys st then st.num_open_processes else wrap32 (st.num_open_processes + 1) := by
  have h := get_isSome_iff_mem_keys st b
  unfold dev_open
  rcases hg : get_hashtable_entry st.htable b with _ | e
  · rw [hg] at h
    rw [if_neg (fun hm => by simpa using h.2 hm)]
  · rw [hg] at h
    rw [if_pos (h.1 rfl)]

theorem counter_serve (st : module_state) (p : Int) (rq : request) :
    (serve st p rq).2.num_open_processes =
      if rq.is_disconnect then wrap32 (st.num_open_processes - 1)
      else if rq.is_connect ∧ p ∉ keys st then wrap32 (st.num_open_processes + 1)
      else st.num_open_processes := by
  cases rq with
  | connect =>
    simp only [serve, request.is_disconnect, request.is_connect, counter_dev_open]
    by_cases h : p ∈ keys st <;> simp [h]
  | disconnect => simp [serve, request.is_disconnect, dev_release]
  | write a b c => simp [serve, request.is_disconnect, request.is_connect, counter_dev_write]
  | read a b c => simp [serve, request.is_disconnect, request.is_connect, counter_dev_read]
  | command a b c d e =>
    simp [serve, request.is_disconnect, request.is_connect, counter_dev_ioctl]

theorem dev_release_absent (st : module_state) (pid : Int)
    (hget : get_hashtable_entry st.htable pid = none) :
    dev_release st pid =
      (0, { htable := st.htable, num_open_processes := wrap32 (st.num_open_processes - 1) }) := by
  simp only [dev_release, remove_process_entry_absent st.htable pid hget]

theorem counter_serve_matched (st : module_state) (p : Int) (rq : request)
    (hm : rq.is_disconnect = true → (get_hashtable_entry st.htable p).isSome)
    (h : st.num_open_processes = wrap32 (st.htable.length : Int)) :
    (serve st p rq).2.num_open_processes = wrap32 ((serve st p rq).2.htable.length : Int) := by
  rw [← length_keys (serve st p rq).2, keys_serve, counter_serve, h]
  split_ifs with h1 h2
  · have hmem : p ∈ keys st := (get_isSome_iff_mem_keys st p).1 (hm h1)
    have hpos : 0 < (keys st).length := List.length_pos_of_mem hmem
    rw [List.length_erase_of_mem hmem, length_keys] at *
    rw [wrap32_pred]
    congr 1
    omega
  · rw [List.length_cons, length_keys, wrap32_succ]
    congr 1
  · rw [length_keys]

theorem counter_serve_all_matched (tr : List (Int × request)) :
    ∀ st, releases_matched st tr →
      st.num_open_processes = wrap32 (st.htable.length : Int) →
      (serve_all st tr).2.num_open_processes =
        wrap32 ((serve_all st tr).2.htable.length : Int) := by
  induction tr with
  | nil => intro st _ h; exact h
  | cons a t ih =>
    intro st hm h
    obtain ⟨p, rq⟩ := a
    exact ih _ hm.2 (counter_serve_matched st p rq hm.1 h)

theorem counter_tracks_matched_releases (tr : List (Int × request))
    (hm : releases_matched empty_state tr)
    (hlen : (serve_all empty_state tr).2.htable.length < 2147483648) :
    (serve_all empty_state tr).2.num_open_processes =
      ((serve_all empty_state tr).2.htable.length : Int) := by
  rw [counter_serve_all_matched tr empty_state hm rfl]
  exact wrap32_eq_self (by omega) (by omega)

/-- C31 (the counter of open processes), evaluation of the code. From the state of module
initialisation (`num_open_processes == 0`, empty chain) the call `dev_release` of client
`1`, which has no entry, returns `0` and leaves the chain empty but `num_open_processes`
at `-1`. After `dev_open` of client `1` and `dev_release` of client `2` the chain has one
entry and the counter is `0`. -/
theorem release_without_entry_decrements :
    empty_state = { htable := [], num_open_processes := 0 } ∧
    dev_release empty_state 1 = (0, { htable := [], num_open_processes := -1 }) ∧
    (dev_release empty_state 1).2.num_open_processes ≠
      ((dev_release empty_state 1).2.htable.length : Int) ∧
    (dev_release empty_state 1).2.num_open_processes < 0 ∧
    (dev_release (dev_open empty_state 1).2 2).2 =
      { htable := [⟨1, none⟩], num_open_processes := 0 } ∧
    (dev_release (dev_open empty_state 1).2 2).2.num_open_processes ≠
      ((dev_release (dev_open empty_state 1).2 2).2.htable.length : Int) := by
  decide

end Asgn2

end Lkm
